import Mathlib

/-!
# Block matrix multiplication over a square process grid

A shallow embedding of `sample_code/mpi_matmat.c`:

* `matmat`      the serial multiply-accumulate kernel,
* `par_matmat`  the row/column exchange multiply,
* `cannon`      Cannon's algorithm with its skew and its pipeline rounds,
* `mat_sum`, `main`  the checksum and the driver.

Memory is a heap of named buffers, `h.cell p k` being the C expression `p[k]`.
The entries live in an arbitrary type `α` carrying `+`, `*` and `0`; the
algebraic results take `α` to be a commutative ring (exact arithmetic).
C `int` variables are mathematical integers; the model of `main` gives a
result only where the `int` expressions computed from the command line stay
in the range of `int`.

Message passing: every process runs the same function; a receive posted by
rank `p` for `(source, tag)` completes with the first message that `source`
posts for destination `p` with that tag, and never completes when there is
none (`none` in the model).  A non-blocking send completes locally.
-/

namespace MpiMatmat

/-! ## Memory -/

/-- Heap of buffers: `h.cell p k` is the value of `p[k]`. -/
structure Heap (ι α : Type) where
  cell : ι → Nat → α

/-- The assignment `p[k] = v`. -/
def Heap.store {ι α : Type} [DecidableEq ι] (h : Heap ι α) (p : ι) (k : Nat) (v : α) :
    Heap ι α :=
  { cell := Function.update h.cell p (Function.update (h.cell p) k v) }

/-! ## The serial kernel (lines 8-27) -/

/-- Innermost loop of `matmat`: `for k < n: C[i*n+k] += val * B[j*n+k]`. -/
def matmat_k {ι α : Type} [DecidableEq ι] [Add α] [Mul α] (n : Nat) (B C : ι)
    (i j : Nat) (val : α) (h : Heap ι α) : Heap ι α :=
  (List.range n).foldl
    (fun h k => h.store C (i * n + k) (h.cell C (i * n + k) + val * h.cell B (j * n + k))) h

/-- Middle loop of `matmat`: `for j < n: val = A[i*n+j]; (loop over k)`. -/
def matmat_j {ι α : Type} [DecidableEq ι] [Add α] [Mul α] (n : Nat) (A B C : ι)
    (i : Nat) (h : Heap ι α) : Heap ι α :=
  (List.range n).foldl (fun h j => matmat_k n B C i j (h.cell A (i * n + j)) h) h

/-- Serial matrix-matrix multiplication `matmat(n, A, B, C)`; the three
pointers are buffer names, so aliasing is expressible. -/
def matmat {ι α : Type} [DecidableEq ι] [Add α] [Mul α] (n : Nat) (A B C : ι)
    (h : Heap ι α) : Heap ι α :=
  (List.range n).foldl (fun h i => matmat_j n A B C i h) h

/-! ## Message passing -/

/-- Request handles that the program waits on. -/
inductive Req where
  | send_req_a
  | send_req_b
  | recv_req_a
  | recv_req_b
  | a_req
  | b_req
  deriving DecidableEq, Repr

/-- Calls recorded per process, in program order, with the buffer each one
names (an instrumented message-passing stub): the message-passing calls, the
local multiplies and the releases of buffers and of request arrays.
`Isend buf off count dest tag` sends `count` values starting at `buf[off]`. -/
inductive Call (ι : Type) where
  | Isend (buf : ι) (off : Nat) (count : Nat) (dest : Int) (tag : Int)
  | Irecv (buf : ι) (count : Nat) (source : Int) (tag : Int)
  | Recv (buf : ι) (count : Nat) (source : Int) (tag : Int)
  | Wait (req : Req)
  | Waitall (count : Int) (req : Req)
  | matmat (A B C : ι)
  | free (p : ι)
  | freeReq (req : Req)
  deriving DecidableEq, Repr

/-- Is the call a send? -/
def Call.isSend {ι : Type} : Call ι → Bool
  | Call.Isend _ _ _ _ _ => true
  | _ => false

/-- Is the call a receive (blocking or not)? -/
def Call.isRecv {ι : Type} : Call ι → Bool
  | Call.Irecv _ _ _ _ => true
  | Call.Recv _ _ _ _ => true
  | _ => false

/-- Is the call a local multiply? -/
def Call.isMatmat {ι : Type} : Call ι → Bool
  | Call.matmat _ _ _ => true
  | _ => false

/-- A posted message: envelope and the values read from the send buffer. -/
structure Msg (α : Type) where
  dest : Int
  tag : Int
  data : List α

/-- The `count` values starting at `buf[off]`, as sent by `MPI_Isend`. -/
def Heap.payload {ι α : Type} (h : Heap ι α) (buf : ι) (off count : Nat) : List α :=
  (List.range count).map fun k => h.cell buf (off + k)

/-- The first message of `posted` addressed to `dest` with tag `tag`. -/
def matchMsg {α : Type} (posted : List (Msg α)) (dest tag : Int) : Option (Msg α) :=
  posted.find? (fun m => decide (m.dest = dest) && decide (m.tag = tag))

/-- A receive of rank `me` from `source` with `tag`.  `sends s` is what rank
`s` posts (`none`: no such rank, or it never gets to post).  The receive
completes with the matching message of `source`, or never (`none`). -/
def mpiRecv {α : Type} (num_procs : Nat) (sends : Nat → Option (List (Msg α)))
    (source : Int) (me : Nat) (tag : Int) : Option (List α) :=
  if 0 ≤ source ∧ source < num_procs then
    match sends source.toNat with
    | some posted => (matchMsg posted me tag).map Msg.data
    | none => none
  else none

/-- Completion of a receive of at most `count` values into `buf`: the message
overwrites the front of the buffer. -/
def Heap.recvInto {ι α : Type} [DecidableEq ι] (h : Heap ι α) (buf : ι) (count : Nat)
    (data : List α) : Heap ι α :=
  { cell := Function.update h.cell buf
      (fun k => if k < count then data.getD k (h.cell buf k) else h.cell buf k) }

/-! ## Process grid (lines 39-42, 142-144) -/

/-- The statement `rank_row = rank / sq_num_procs`. -/
def rank_row (sq_num_procs rank : Int) : Int := Int.tdiv rank sq_num_procs

/-- The statement `rank_col = rank % sq_num_procs`. -/
def rank_col (sq_num_procs rank : Int) : Int := Int.tmod rank sq_num_procs

/-- The statements `x = coord - shift; if (x < 0) x += sq_num_procs;`
(lines 156-157, 163-164, 202-203, 208-209). -/
def wrapDown (sq_num_procs coord shift : Int) : Int :=
  let x := coord - shift
  if x < 0 then x + sq_num_procs else x

/-- The statements `x = coord + shift; if (x >= sq_num_procs) x -= sq_num_procs;`
(lines 170-171, 177-178, 214-215, 220-221). -/
def wrapUp (sq_num_procs coord shift : Int) : Int :=
  let x := coord + shift
  if x ≥ sq_num_procs then x - sq_num_procs else x

/-- The four peer ranks of one exchange. -/
structure Peers where
  recv_a : Int
  recv_b : Int
  send_a : Int
  send_b : Int
  deriving DecidableEq, Repr

/-- Peers of the skew (lines 153-180): the shift is `rank_row` for A and
`rank_col` for B. -/
def skewPeers (sq_num_procs rank : Int) : Peers :=
  let rank_row := rank_row sq_num_procs rank
  let rank_col := rank_col sq_num_procs rank
  { recv_a := rank_row * sq_num_procs + wrapDown sq_num_procs rank_col rank_row
    recv_b := wrapDown sq_num_procs rank_row rank_col * sq_num_procs + rank_col
    send_a := rank_row * sq_num_procs + wrapUp sq_num_procs rank_col rank_row
    send_b := wrapUp sq_num_procs rank_row rank_col * sq_num_procs + rank_col }

/-- Peers of a pipeline round (lines 201-223): the shift is 1. -/
def roundPeers (sq_num_procs rank : Int) : Peers :=
  let rank_row := rank_row sq_num_procs rank
  let rank_col := rank_col sq_num_procs rank
  { recv_a := rank_row * sq_num_procs + wrapDown sq_num_procs rank_col 1
    recv_b := wrapDown sq_num_procs rank_row 1 * sq_num_procs + rank_col
    send_a := rank_row * sq_num_procs + wrapUp sq_num_procs rank_col 1
    send_b := wrapUp sq_num_procs rank_row 1 * sq_num_procs + rank_col }

/-! ## Cannon's algorithm (lines 113-251) -/

/-- Buffers of `cannon`: the caller's `A` and `B`, the result `C` and the
four scratch blocks. -/
inductive CBuf where
  | A
  | B
  | C
  | A2
  | B2
  | A3
  | B3
  deriving DecidableEq, Repr

/-- Local state of one process inside `cannon`. -/
structure CannonProc (α : Type) where
  heap : Heap CBuf α
  send_A : CBuf
  send_B : CBuf
  recv_A : CBuf
  recv_B : CBuf
  tag_a : Int
  tag_b : Int
  trace : List (Call CBuf)

/-- Lines 121-128: `C[i*n+j] = 0` for all `i, j < n`. -/
def zeroC {ι α : Type} [DecidableEq ι] [Zero α] (n : Nat) (C : ι) (h : Heap ι α) : Heap ι α :=
  (List.range n).foldl
    (fun h i => (List.range n).foldl (fun h j => h.store C (i * n + j) 0) h) h

/-- Lines 121-149: state of a process before the skew.  `h` is its memory at
the call: `h.cell A`, `h.cell B` are the caller's blocks, the other buffers hold
whatever the allocator returned. -/
def cannonEntry {α : Type} [Zero α] (n : Nat) (h : Heap CBuf α) : CannonProc α :=
  { heap := zeroC n CBuf.C h
    send_A := CBuf.A
    send_B := CBuf.B
    recv_A := CBuf.A2
    recv_B := CBuf.B2
    tag_a := 1234
    tag_b := 4321
    trace := [] }

/-- The two messages a process posts in one exchange. -/
def CannonProc.posted {α : Type} (n : Nat) (st : CannonProc α) (p : Peers) : List (Msg α) :=
  [{ dest := p.send_a, tag := st.tag_a, data := st.heap.payload st.send_A 0 (n * n) },
   { dest := p.send_b, tag := st.tag_b, data := st.heap.payload st.send_B 0 (n * n) }]

/-- The calls of one exchange in program order: two receives, two sends,
four waits. -/
def CannonProc.calls {α : Type} (n : Nat) (st : CannonProc α) (p : Peers) : List (Call CBuf) :=
  [Call.Irecv st.recv_A (n * n) p.recv_a st.tag_a,
   Call.Irecv st.recv_B (n * n) p.recv_b st.tag_b,
   Call.Isend st.send_A 0 (n * n) p.send_a st.tag_a,
   Call.Isend st.send_B 0 (n * n) p.send_b st.tag_b,
   Call.Wait Req.send_req_a, Call.Wait Req.recv_req_a,
   Call.Wait Req.send_req_b, Call.Wait Req.recv_req_b]

/-- One exchange on every process (lines 155-185 and 201-228): `world r` is
the state in which rank `r` enters the exchange (`none`: it never does).  The
result is the state of `rank` after its four waits, `none` when one of its
receives never completes.  A receive is matched against the two sends that
its source posts in the same exchange: every process waits for its four
requests before it goes on, and both tags change from one exchange to the
next, so no message of another exchange can match. -/
def exchange {α : Type} (n num_procs : Nat) (peers : Int → Peers)
    (world : Nat → Option (CannonProc α)) (rank : Nat) : Option (CannonProc α) :=
  match world rank with
  | none => none
  | some st =>
    let p := peers rank
    let sends : Nat → Option (List (Msg α)) :=
      fun s => (world s).map (fun t => t.posted n (peers s))
    match mpiRecv num_procs sends p.recv_a rank st.tag_a,
          mpiRecv num_procs sends p.recv_b rank st.tag_b with
    | some a, some b =>
      some { st with
        heap := (st.heap.recvInto st.recv_A (n * n) a).recvInto st.recv_B (n * n) b
        trace := st.trace ++ st.calls n p }
    | _, _ => none

/-- Lines 153-196: the skew, the first multiply and the buffer assignment. -/
def cannonSkew {α : Type} [Add α] [Mul α] (n num_procs : Nat) (sq_num_procs : Int)
    (world : Nat → Option (CannonProc α)) (rank : Nat) : Option (CannonProc α) :=
  (exchange n num_procs (skewPeers sq_num_procs) world rank).map fun st =>
    { heap := matmat n st.recv_A st.recv_B CBuf.C st.heap
      send_A := CBuf.A2
      send_B := CBuf.B2
      recv_A := CBuf.A3
      recv_B := CBuf.B3
      tag_a := st.tag_a + 1
      tag_b := st.tag_b + 1
      trace := st.trace ++ [Call.matmat st.recv_A st.recv_B CBuf.C] }

/-- Lines 201-241: one pipeline round, ending with the swap of the send and
receive pointers. -/
def cannonRound {α : Type} [Add α] [Mul α] (n num_procs : Nat) (sq_num_procs : Int)
    (world : Nat → Option (CannonProc α)) (rank : Nat) : Option (CannonProc α) :=
  (exchange n num_procs (roundPeers sq_num_procs) world rank).map fun st =>
    { heap := matmat n st.recv_A st.recv_B CBuf.C st.heap
      send_A := st.recv_A
      send_B := st.recv_B
      recv_A := st.send_A
      recv_B := st.send_B
      tag_a := st.tag_a + 1
      tag_b := st.tag_b + 1
      trace := st.trace ++ [Call.matmat st.recv_A st.recv_B CBuf.C] }

/-- Lines 245-250: the four `free` calls; the result block is `heap.cell C`. -/
def cannonExit {α : Type} (st : CannonProc α) : CannonProc α :=
  { st with
    trace := st.trace ++
      [Call.free st.recv_A, Call.free st.recv_B, Call.free st.send_A, Call.free st.send_B] }

/-- The function `cannon` with the grid dimension already computed. -/
def cannonGrid {α : Type} [Add α] [Mul α] [Zero α] (n num_procs : Nat) (sq_num_procs : Int)
    (input : Nat → Heap CBuf α) : Nat → Option (CannonProc α) :=
  let entry : Nat → Option (CannonProc α) :=
    fun rank => if rank < num_procs then some (cannonEntry n (input rank)) else none
  let skewed := cannonSkew n num_procs sq_num_procs entry
  let n_shifts := sq_num_procs - 1
  let world := (List.range n_shifts.toNat).foldl
    (fun world _ => cannonRound n num_procs sq_num_procs world) skewed
  fun rank => (world rank).map cannonExit

/-- The function `cannon(n, A, B, &C)` run by all `num_procs` processes;
`input r` is the memory of rank `r` at the call.  The value at `rank` is the
state in which that process returns, `none` when it never returns. -/
def cannon {α : Type} [Add α] [Mul α] [Zero α] (n num_procs : Nat)
    (input : Nat → Heap CBuf α) : Nat → Option (CannonProc α) :=
  cannonGrid n num_procs (Nat.sqrt num_procs) input

/-! ## The row/column exchange multiply (lines 33-106) -/

/-- Buffers of `par_matmat`. -/
inductive PBuf where
  | A
  | B
  | C
  | a_send_buf
  | b_send_buf
  | recv_A
  | recv_B
  deriving DecidableEq, Repr

/-- Local state of one process inside `par_matmat`; `posted` collects the
messages of its non-blocking sends. -/
structure ParProc (α : Type) where
  heap : Heap PBuf α
  posted : List (Msg α)
  trace : List (Call PBuf)

/-- Lines 52-53: `for i < n*n: C[i] = 0`. -/
def parZeroC {α : Type} [Zero α] (n : Nat) (h : Heap PBuf α) : Heap PBuf α :=
  (List.range (n * n)).foldl (fun h i => h.store PBuf.C i 0) h

/-- Lines 61-62 and 72-73: `for j < n*n: buf[i*n*n+j] = src[j]`. -/
def parCopy {α : Type} (n : Nat) (src buf : PBuf) (i : Nat) (h : Heap PBuf α) : Heap PBuf α :=
  (List.range (n * n)).foldl (fun h j => h.store buf (i * n * n + j) (h.cell src j)) h

/-- Lines 60-63: one iteration of the A send loop. -/
def parSendA_step {α : Type} (n : Nat) (sq_num_procs rank : Int) (st : ParProc α) (i : Nat) :
    ParProc α :=
  let first_rank_row := rank_row sq_num_procs rank * sq_num_procs
  let tag_a : Int := 1234
  let proc := first_rank_row + i
  let heap := parCopy n PBuf.A PBuf.a_send_buf i st.heap
  { heap := heap
    posted := st.posted ++
      [{ dest := proc, tag := tag_a, data := heap.payload PBuf.a_send_buf (i * n * n) (n * n) }]
    trace := st.trace ++ [Call.Isend PBuf.a_send_buf (i * n * n) (n * n) proc tag_a] }

/-- Lines 58-64: copy the local A once per row peer and post the sends. -/
def parSendA {α : Type} (n : Nat) (sq_num_procs rank : Int) (st : ParProc α) : ParProc α :=
  (List.range sq_num_procs.toNat).foldl (parSendA_step n sq_num_procs rank) st

/-- Lines 71-74: one iteration of the B send loop. -/
def parSendB_step {α : Type} (n : Nat) (sq_num_procs rank : Int) (st : ParProc α) (i : Nat) :
    ParProc α :=
  let rank_col := rank_col sq_num_procs rank
  let tag_b : Int := 4321
  let proc := i * sq_num_procs + rank_col
  let heap := parCopy n PBuf.B PBuf.b_send_buf i st.heap
  { heap := heap
    posted := st.posted ++
      [{ dest := proc, tag := tag_b, data := heap.payload PBuf.b_send_buf (i * n * n) (n * n) }]
    trace := st.trace ++ [Call.Isend PBuf.b_send_buf (i * n * n) (n * n) proc tag_b] }

/-- Lines 69-75: copy the local B once per column peer and post the sends. -/
def parSendB {α : Type} (n : Nat) (sq_num_procs rank : Int) (st : ParProc α) : ParProc α :=
  (List.range sq_num_procs.toNat).foldl (parSendB_step n sq_num_procs rank) st

/-- Lines 49-75: the part of `par_matmat` before the first receive; it does
not depend on any other process. -/
def parPost {α : Type} [Zero α] (n : Nat) (sq_num_procs rank : Int) (h : Heap PBuf α) :
    ParProc α :=
  parSendB n sq_num_procs rank
    (parSendA n sq_num_procs rank { heap := parZeroC n h, posted := [], trace := [] })

/-- Lines 83-91: one iteration of the receive loop. -/
def parRecvStep {α : Type} [Add α] [Mul α] (n num_procs : Nat) (sq_num_procs rank : Int)
    (sends : Nat → Option (List (Msg α))) (st : ParProc α) (i : Nat) : Option (ParProc α) :=
  let first_rank_row := rank_row sq_num_procs rank * sq_num_procs
  let rank_col := rank_col sq_num_procs rank
  let tag_a : Int := 1234
  let tag_b : Int := 4321
  let proc_a := first_rank_row + i
  match mpiRecv num_procs sends proc_a rank.toNat tag_a with
  | none => none
  | some a =>
    let proc_b := i * sq_num_procs + rank_col
    match mpiRecv num_procs sends proc_b rank.toNat tag_b with
    | none => none
    | some b =>
      let heap := (st.heap.recvInto PBuf.recv_A (n * n) a).recvInto PBuf.recv_B (n * n) b
      some { st with
        heap := matmat n PBuf.recv_A PBuf.recv_B PBuf.C heap
        trace := st.trace ++
          [Call.Recv PBuf.recv_A (n * n) proc_a tag_a,
           Call.Recv PBuf.recv_B (n * n) proc_b tag_b,
           Call.matmat PBuf.recv_A PBuf.recv_B PBuf.C] }

/-- Lines 81-92: the receive loop. -/
def parRecvLoop {α : Type} [Add α] [Mul α] (n num_procs : Nat) (sq_num_procs rank : Int)
    (sends : Nat → Option (List (Msg α))) (st : ParProc α) : Option (ParProc α) :=
  (List.range sq_num_procs.toNat).foldl
    (fun st i => st.bind fun st => parRecvStep n num_procs sq_num_procs rank sends st i)
    (some st)

/-- Lines 94-105: release of the buffers; the result block is `heap.cell C`. -/
def parExit {α : Type} (sq_num_procs : Int) (st : ParProc α) : ParProc α :=
  { st with
    trace := st.trace ++
      [Call.free PBuf.recv_A, Call.free PBuf.recv_B,
       Call.Waitall sq_num_procs Req.a_req, Call.Waitall sq_num_procs Req.b_req,
       Call.free PBuf.a_send_buf, Call.free PBuf.b_send_buf,
       Call.freeReq Req.a_req, Call.freeReq Req.b_req] }

/-- The function `par_matmat` with the grid dimension already computed. -/
def parGrid {α : Type} [Add α] [Mul α] [Zero α] (n num_procs : Nat) (sq_num_procs : Int)
    (input : Nat → Heap PBuf α) (rank : Nat) : Option (ParProc α) :=
  if rank < num_procs then
    let sends : Nat → Option (List (Msg α)) := fun s =>
      if s < num_procs then some (parPost n sq_num_procs s (input s)).posted else none
    (parRecvLoop n num_procs sq_num_procs rank sends
      (parPost n sq_num_procs rank (input rank))).map (parExit sq_num_procs)
  else none

/-- The function `par_matmat(n, A, B, &C)` run by all `num_procs` processes;
`input r` is the memory of rank `r` at the call. -/
def par_matmat {α : Type} [Add α] [Mul α] [Zero α] (n num_procs : Nat)
    (input : Nat → Heap PBuf α) (rank : Nat) : Option (ParProc α) :=
  parGrid n num_procs (Nat.sqrt num_procs) input rank

/-! ## Checksum and driver (lines 253-333) -/

/-- The function `mat_sum(n, C)`. -/
def mat_sum {ι α : Type} [Add α] [Zero α] (n : Nat) (C : ι) (h : Heap ι α) : α :=
  (List.range n).foldl
    (fun sum i => (List.range n).foldl (fun sum j => sum + h.cell C (i * n + j)) sum) 0

/-- Lines 289-296: the generation rule; A and B get the same entries. -/
def mainFill (n : Nat) (N rank_row rank_col : Int) (h : Heap CBuf Int) : Heap CBuf Int :=
  (List.range n).foldl
    (fun h i => (List.range n).foldl
      (fun h j =>
        (h.store CBuf.A (i * n + j) (((rank_row * n) + i) * N + (rank_col * n) + j + 1)).store
          CBuf.B (i * n + j) (((rank_row * n) + i) * N + (rank_col * n) + j + 1)) h) h

/-- A sum reduction to the root: it completes when every rank contributes. -/
def reduceSum (num_procs : Nat) (part : Nat → Option Int) : Option Int :=
  (List.range num_procs).foldl
    (fun acc r => acc.bind fun t => (part r).map fun v => t + v) (some 0)

/-- What one process of `main` leaves behind: its exit status, its partial
checksum, the line that rank 0 prints, and the state in which `cannon`
returned (`proc.heap.cell C` is the block that `main` sums and frees). -/
structure MainOut where
  status : Int
  sum_C : Int
  printed : Option Int
  proc : CannonProc Int

/-- Lines 276-296: the memory of rank `r` when `main` calls `cannon`. -/
def mainInput (n N : Nat) (sq_num_procs : Int) (mem : Nat → Heap CBuf Int) (r : Nat) :
    Heap CBuf Int :=
  mainFill n N (rank_row sq_num_procs r) (rank_col sq_num_procs r) (mem r)

/-- The largest value of a C `int` (32 bits). -/
def INT_MAX : Int := 2147483647

/-- Is `x` a value of a C `int`?  An `int` expression with a value outside this
range has no defined behaviour. -/
def fitsInt (x : Int) : Bool := decide (-INT_MAX - 1 ≤ x ∧ x ≤ INT_MAX)

/-- Lines 280-296 on one process, in program order: the `int` expressions
`n*n` (the size passed to `malloc`), `rank_row*N` and every generated entry
stay in the range of `int`.  All operands are non-negative, so an entry
bounds its own sub-expressions; the remaining `int` expressions of these
lines are at most the rank. -/
def mainIntsFit (n N : Nat) (rank_row rank_col : Int) : Bool :=
  fitsInt (n * n) && fitsInt (rank_row * N) &&
    (List.range n).all fun i => (List.range n).all fun j =>
      fitsInt (((rank_row * n) + i) * N + (rank_col * n) + j + 1)

/-- The function `main` with the grid dimension already computed.  Every
process has to get through lines 280-296 for the barrier of line 316 to
complete; where one of them leaves the range of `int` there, C defines no
behaviour and the model assigns a return to no process. -/
def mainGrid (num_procs N : Nat) (sq_num_procs : Int) (mem : Nat → Heap CBuf Int)
    (rank : Nat) : Option MainOut :=
  let n := (Int.tdiv N sq_num_procs).toNat
  if (List.range num_procs).all
      (fun r => mainIntsFit n N (rank_row sq_num_procs r) (rank_col sq_num_procs r)) then
    let run := cannonGrid n num_procs sq_num_procs (mainInput n N sq_num_procs mem)
    match run rank with
    | none => none
    | some st =>
      let sum_C := mat_sum n CBuf.C st.heap
      match reduceSum num_procs (fun r => (run r).map fun s => mat_sum n CBuf.C s.heap) with
      | none => none
      | some total_sum_C =>
        some { status := 0
               sum_C := sum_C
               printed := if rank = 0 then some total_sum_C else none
               proc := st }
  else none

/-- The function `main` on `num_procs` processes with command-line dimension
`N`, the value of `atoi(argv[1])`, taken non-negative; `mem r` is the
uninitialised memory that rank `r` allocates (every allocation succeeds).
The value at `rank` is what that process leaves behind, `none` when the model
assigns it no return from `main`: a receive or a reduction never completes,
or an `int` expression of lines 280-296 leaves the range of `int`, where C
defines no behaviour (with `n*n` out of range `malloc` is typically handed a
wrapped size and the first store faults).  The only exit of `main` is
`return 0`. -/
def main (num_procs N : Nat) (mem : Nat → Heap CBuf Int) (rank : Nat) : Option MainOut :=
  mainGrid num_procs N (Nat.sqrt num_procs) mem rank

/-! ## Reference notions used to state the results -/

/-- The `n × n` block stored row-major in buffer `p`, as a matrix. -/
def Heap.block {ι α : Type} (n : Nat) (h : Heap ι α) (p : ι) : Matrix (Fin n) (Fin n) α :=
  Matrix.of fun i k => h.cell p (i.val * n + k.val)

/-- The neighbour formula `((coord + offset) mod q + q) mod q`, with the
remainder of C. -/
def neighborSpec (q coord offset : Int) : Int :=
  Int.tmod (Int.tmod (coord + offset) q + q) q

/-- The value `x` is the neighbour coordinate of `coord` at `offset` on a ring
of `q` positions: it lies in `[0, q)` and equals the neighbour formula. -/
def IsNeighbor (q coord offset x : Int) : Prop :=
  0 ≤ x ∧ x < q ∧ x = neighborSpec q coord offset

/-- The rank `p` names a process of the `q × q` grid. -/
def InGrid (q p : Int) : Prop := 0 ≤ p ∧ p < q * q

/-- Message `i` of the A sends of a process holding block `a`. -/
def parMsgA {α : Type} (sq_num_procs rank : Int) (a : List α) (i : Nat) : Msg α :=
  { dest := rank_row sq_num_procs rank * sq_num_procs + i, tag := 1234, data := a }

/-- Message `i` of the B sends of a process holding block `b`. -/
def parMsgB {α : Type} (sq_num_procs rank : Int) (b : List α) (i : Nat) : Msg α :=
  { dest := i * sq_num_procs + rank_col sq_num_procs rank, tag := 4321, data := b }

/-- The value `c` with the `n` products of row `i` of `a` and column `k` of
`b` added one at a time, `j = 0, ..., n-1`. -/
def dotAcc {α : Type} [Add α] [Mul α] (n : Nat) (a b : Nat → α) (i k : Nat) (c : α) : α :=
  (List.range n).foldl (fun acc j => acc + a (i * n + j) * b (j * n + k)) c

/-- Everything rank `s` posts in `par_matmat` when its blocks are `a`, `b`. -/
def parPosted {α : Type} (q s : Nat) (a b : List α) : List (Msg α) :=
  (List.range q).map (parMsgA q (s : Int) a) ++ (List.range q).map (parMsgB q (s : Int) b)

/-- Buffer that holds the A block multiplied in phase `t` of `cannon` (phase 0
is the skew): `A2` and `A3` in turn. -/
def heldA (t : Nat) : CBuf := if t % 2 = 0 then CBuf.A2 else CBuf.A3

/-- Buffer that holds the B block multiplied in phase `t` of `cannon`. -/
def heldB (t : Nat) : CBuf := if t % 2 = 0 then CBuf.B2 else CBuf.B3

/-- Rank whose input block A process `rank` multiplies in phase `t`: follow
the receive sources back to the skew. -/
def cannonSrcA (sq_num_procs : Int) : Nat → Nat → Nat
  | 0, rank => (skewPeers sq_num_procs rank).recv_a.toNat
  | t + 1, rank => cannonSrcA sq_num_procs t (roundPeers sq_num_procs rank).recv_a.toNat

/-- Rank whose input block B process `rank` multiplies in phase `t`. -/
def cannonSrcB (sq_num_procs : Int) : Nat → Nat → Nat
  | 0, rank => (skewPeers sq_num_procs rank).recv_b.toNat
  | t + 1, rank => cannonSrcB sq_num_procs t (roundPeers sq_num_procs rank).recv_b.toNat

/-- The calls of phase `t` of `cannon` at `rank`, in program order. -/
def phaseCalls (n : Nat) (sq_num_procs : Int) (rank : Nat) : Nat → List (Call CBuf)
  | 0 =>
    [Call.Irecv CBuf.A2 (n * n) (skewPeers sq_num_procs rank).recv_a 1234,
     Call.Irecv CBuf.B2 (n * n) (skewPeers sq_num_procs rank).recv_b 4321,
     Call.Isend CBuf.A 0 (n * n) (skewPeers sq_num_procs rank).send_a 1234,
     Call.Isend CBuf.B 0 (n * n) (skewPeers sq_num_procs rank).send_b 4321,
     Call.Wait Req.send_req_a, Call.Wait Req.recv_req_a,
     Call.Wait Req.send_req_b, Call.Wait Req.recv_req_b,
     Call.matmat CBuf.A2 CBuf.B2 CBuf.C]
  | t + 1 =>
    [Call.Irecv (heldA (t + 1)) (n * n) (roundPeers sq_num_procs rank).recv_a (1234 + (t + 1)),
     Call.Irecv (heldB (t + 1)) (n * n) (roundPeers sq_num_procs rank).recv_b (4321 + (t + 1)),
     Call.Isend (heldA t) 0 (n * n) (roundPeers sq_num_procs rank).send_a (1234 + (t + 1)),
     Call.Isend (heldB t) 0 (n * n) (roundPeers sq_num_procs rank).send_b (4321 + (t + 1)),
     Call.Wait Req.send_req_a, Call.Wait Req.recv_req_a,
     Call.Wait Req.send_req_b, Call.Wait Req.recv_req_b,
     Call.matmat (heldA (t + 1)) (heldB (t + 1)) CBuf.C]

/-- The calls of `cannon` at `rank` up to and including phase `t`. -/
def cannonTrace (n : Nat) (sq_num_procs : Int) (rank : Nat) (t : Nat) : List (Call CBuf) :=
  (List.range (t + 1)).flatMap (phaseCalls n sq_num_procs rank)

/-- State of process `rank` after phase `t` of `cannon` on a `q × q` grid. -/
structure CannonInv {α : Type} [Add α] [Mul α] [Zero α] (n q : Nat)
    (input : Nat → Heap CBuf α) (t rank : Nat) (st : CannonProc α) : Prop where
  send_A : st.send_A = heldA t
  send_B : st.send_B = heldB t
  recv_A : st.recv_A = heldA (t + 1)
  recv_B : st.recv_B = heldB (t + 1)
  tag_a : st.tag_a = 1234 + (t + 1 : Nat)
  tag_b : st.tag_b = 4321 + (t + 1 : Nat)
  blockA : ∀ idx, idx < n * n →
    st.heap.cell (heldA t) idx = (input (cannonSrcA q t rank)).cell CBuf.A idx
  blockB : ∀ idx, idx < n * n →
    st.heap.cell (heldB t) idx = (input (cannonSrcB q t rank)).cell CBuf.B idx
  result : ∀ i k, i < n → k < n →
    st.heap.cell CBuf.C (i * n + k)
      = (List.range (t + 1)).foldl
          (fun c s => dotAcc n ((input (cannonSrcA q s rank)).cell CBuf.A)
            ((input (cannonSrcB q s rank)).cell CBuf.B) i k c) 0
  frameA : st.heap.cell CBuf.A = (input rank).cell CBuf.A
  frameB : st.heap.cell CBuf.B = (input rank).cell CBuf.B
  trace : st.trace = cannonTrace n q rank t

/-- Memory of rank `r` at a call of `cannon`: the caller's blocks in `A` and
`B`, the value `junk` everywhere else. -/
def cannonInput {α : Type} (blockA blockB : Nat → Nat → α) (junk : α) (r : Nat) :
    Heap CBuf α :=
  { cell := fun p k =>
      match p with
      | CBuf.A => blockA r k
      | CBuf.B => blockB r k
      | _ => junk }

/-- Memory of rank `r` at a call of `par_matmat`: the caller's blocks in `A`
and `B`, the value `junk` everywhere else. -/
def parInput {α : Type} (blockA blockB : Nat → Nat → α) (junk : α) (r : Nat) :
    Heap PBuf α :=
  { cell := fun p k =>
      match p with
      | PBuf.A => blockA r k
      | PBuf.B => blockB r k
      | _ => junk }

/-- The 1 × 1 blocks of the 3 × 3 matrix with entries 1..9 in row-major
order: rank `r` holds the entry `r + 1`. -/
def block3 (r : Nat) (_k : Nat) : Int := (r : Int) + 1

/-- Uninitialised memory that happens to hold 7 everywhere. -/
def mem7 (_r : Nat) : Heap CBuf Int := { cell := fun _ _ => 7 }

/-- Entry `(I, J)` of the full matrix of the generation rule. -/
def fullEntry (N I J : Nat) : Int := (I : Int) * N + J + 1

/-- Sum of all entries of `M · M` for the full `N × N` matrix `M`, by a
single triple loop. -/
def refChecksum (N : Nat) : Int :=
  (List.range N).foldl
    (fun s I => (List.range N).foldl
      (fun s K => (List.range N).foldl
        (fun s J => s + fullEntry N I J * fullEntry N J K) s) s) 0

/-- A small heap over three buffers, for instances of the kernel. -/
def demoHeap : Heap CBuf Int :=
  { cell := fun p k =>
      match p with
      | CBuf.A2 => [1, 2, 3, 4].getD k 0
      | CBuf.B2 => [5, 6, 7, 8].getD k 0
      | _ => 100 }

/-! ## The phases of `cannon` -/

/-- Lines 121-149 on every process: the states in which the processes reach
the skew. -/
def cannonStart {α : Type} [Zero α] (n num_procs : Nat) (input : Nat → Heap CBuf α)
    (rank : Nat) : Option (CannonProc α) :=
  if rank < num_procs then some (cannonEntry n (input rank)) else none

/-- States after phase `t` of `cannon`: after the skew and its multiply
(`t = 0`), then after `t` iterations of the loop of lines 199-242.  This is
the loop state of `cannonGrid`. -/
def cannonAfter {α : Type} [Add α] [Mul α] [Zero α] (n num_procs : Nat) (sq_num_procs : Int)
    (input : Nat → Heap CBuf α) (t : Nat) : Nat → Option (CannonProc α) :=
  (List.range t).foldl (fun world _ => cannonRound n num_procs sq_num_procs world)
    (cannonSkew n num_procs sq_num_procs (cannonStart n num_procs input))

/-- States in which the processes post the four operations of phase `t`, that
is, at the wait point of phase `t`: before the skew for `t = 0`, at the top
of loop iteration `t - 1` otherwise. -/
def cannonBefore {α : Type} [Add α] [Mul α] [Zero α] (n num_procs : Nat) (sq_num_procs : Int)
    (input : Nat → Heap CBuf α) : Nat → Nat → Option (CannonProc α)
  | 0 => cannonStart n num_procs input
  | t + 1 => cannonAfter n num_procs sq_num_procs input t

/-- Peers of phase `t`: those of the skew for `t = 0`, those of a pipeline
round otherwise. -/
def phasePeers (sq_num_procs : Int) : Nat → Int → Peers
  | 0 => skewPeers sq_num_procs
  | _ + 1 => roundPeers sq_num_procs

/-- Tag of a message-passing call. -/
def Call.tag {ι : Type} : Call ι → Option Int
  | Call.Isend _ _ _ _ tag => some tag
  | Call.Irecv _ _ _ tag => some tag
  | Call.Recv _ _ _ tag => some tag
  | _ => none

/-- Buffer that a receive writes into. -/
def Call.recvBuf {ι : Type} : Call ι → Option ι
  | Call.Irecv buf _ _ _ => some buf
  | Call.Recv buf _ _ _ => some buf
  | _ => none

/-- Buffer that a send reads from. -/
def Call.sendBuf {ι : Type} : Call ι → Option ι
  | Call.Isend buf _ _ _ _ => some buf
  | _ => none

/-- Buffer that a `free` call releases. -/
def Call.freedBuf {ι : Type} : Call ι → Option ι
  | Call.free p => some p
  | _ => none

/-- Buffers that a call writes: the destination of a receive, the third
argument of `matmat`. -/
def Call.writes {ι : Type} : Call ι → List ι
  | Call.Irecv buf _ _ _ => [buf]
  | Call.Recv buf _ _ _ => [buf]
  | Call.matmat _ _ C => [C]
  | _ => []

/-- Buffers that a call names in any role. -/
def Call.names {ι : Type} : Call ι → List ι
  | Call.Isend buf _ _ _ _ => [buf]
  | Call.Irecv buf _ _ _ => [buf]
  | Call.Recv buf _ _ _ => [buf]
  | Call.matmat A B C => [A, B, C]
  | Call.free p => [p]
  | _ => []

/-- The call `c`, posted by rank `me`, is a receive that the message from
`source` to `dest` with tag `tag` matches. -/
def Call.receives {ι : Type} (me : Int) (c : Call ι) (source dest tag : Int) : Bool :=
  match c with
  | Call.Irecv _ _ s t => decide (s = source) && decide (me = dest) && decide (t = tag)
  | Call.Recv _ _ s t => decide (s = source) && decide (me = dest) && decide (t = tag)
  | _ => false

/-- The message `m` is addressed to `dest` with tag `tag`. -/
def Msg.matches {α : Type} (m : Msg α) (dest tag : Int) : Bool :=
  decide (m.dest = dest) && decide (m.tag = tag)

/-- Blocks that tell their owner: rank `r` holds `base + r` in every cell. -/
def ownerBlock (base : Int) (r : Nat) (_k : Nat) : Int := base + r

/-! ## Reading the heap after a store -/

theorem Heap.store_cell {ι α : Type} [DecidableEq ι] (h : Heap ι α) (p : ι) (k : Nat) (v : α)
    (p' : ι) (k' : Nat) :
    (h.store p k v).cell p' k' = if p' = p ∧ k' = k then v else h.cell p' k' := by
  unfold Heap.store
  by_cases hp : p' = p
  · subst hp
    by_cases hk : k' = k <;> simp [Function.update_apply, hk]
  · simp [Function.update_apply, hp]

theorem Heap.recvInto_cell {ι α : Type} [DecidableEq ι] (h : Heap ι α) (buf : ι) (count : Nat)
    (data : List α) (p' : ι) (k' : Nat) :
    (h.recvInto buf count data).cell p' k'
      = if p' = buf ∧ k' < count then data.getD k' (h.cell buf k') else h.cell p' k' := by
  unfold Heap.recvInto
  by_cases hp : p' = buf
  · subst hp
    by_cases hk : k' < count <;> simp [Function.update_apply, hk]
  · simp [Function.update_apply, hp]

/-! ## The serial kernel -/

/-- The `k` loop run for its first `m` iterations. -/
theorem matmat_k_loop {ι α : Type} [DecidableEq ι] [Add α] [Mul α] (n : Nat) (B C : ι)
    (hB : B ≠ C) (i j : Nat) (val : α) (h : Heap ι α) (m : Nat) (p : ι) (idx : Nat) :
    ((List.range m).foldl
        (fun h k => h.store C (i * n + k) (h.cell C (i * n + k) + val * h.cell B (j * n + k)))
        h).cell p idx
      = if p = C ∧ i * n ≤ idx ∧ idx < i * n + m
          then h.cell C idx + val * h.cell B (j * n + (idx - i * n))
          else h.cell p idx := by
  induction m generalizing p idx with
  | zero =>
    rw [if_neg (by omega)]
    rfl
  | succ m ih =>
    rw [List.range_succ, List.foldl_append]
    simp only [List.foldl_cons, List.foldl_nil]
    rw [Heap.store_cell]
    by_cases hp : p = C
    · subst hp
      by_cases hk : idx = i * n + m
      · subst hk
        rw [if_pos ⟨rfl, rfl⟩, if_pos ⟨rfl, by omega, by omega⟩, ih, ih,
          if_neg (by omega), if_neg (fun hh => hB hh.1)]
        congr 3
        omega
      · rw [if_neg (fun hh => hk hh.2), ih]
        by_cases hr : i * n ≤ idx ∧ idx < i * n + m
        · rw [if_pos ⟨rfl, hr⟩, if_pos ⟨rfl, by omega, by omega⟩]
        · rw [if_neg (fun hh => hr hh.2), if_neg (fun hh => hr ⟨hh.2.1, by omega⟩)]
    · rw [if_neg (fun hh => hp hh.1), ih, if_neg (fun hh => hp hh.1), if_neg (fun hh => hp hh.1)]

/-- Effect of the `k` loop of `matmat`. -/
theorem matmat_k_cell {ι α : Type} [DecidableEq ι] [Add α] [Mul α] (n : Nat) (B C : ι)
    (hB : B ≠ C) (i j : Nat) (val : α) (h : Heap ι α) (p : ι) (idx : Nat) :
    (matmat_k n B C i j val h).cell p idx
      = if p = C ∧ i * n ≤ idx ∧ idx < i * n + n
          then h.cell C idx + val * h.cell B (j * n + (idx - i * n))
          else h.cell p idx :=
  matmat_k_loop n B C hB i j val h n p idx

/-- The `j` loop run for its first `m` iterations. -/
theorem matmat_j_loop {ι α : Type} [DecidableEq ι] [Add α] [Mul α] (n : Nat) (A B C : ι)
    (hA : A ≠ C) (hB : B ≠ C) (i : Nat) (h : Heap ι α) (m : Nat) (p : ι) (idx : Nat) :
    ((List.range m).foldl (fun h j => matmat_k n B C i j (h.cell A (i * n + j)) h) h).cell p idx
      = if p = C ∧ i * n ≤ idx ∧ idx < i * n + n
          then (List.range m).foldl
            (fun acc j => acc + h.cell A (i * n + j) * h.cell B (j * n + (idx - i * n)))
            (h.cell C idx)
          else h.cell p idx := by
  induction m generalizing p idx with
  | zero =>
    simp only [List.range_zero, List.foldl_nil]
    split_ifs with hc
    · rw [hc.1]
    · rfl
  | succ m ih =>
    rw [List.range_succ, List.foldl_append, List.foldl_append]
    simp only [List.foldl_cons, List.foldl_nil]
    rw [matmat_k_cell n B C hB]
    by_cases hc : p = C ∧ i * n ≤ idx ∧ idx < i * n + n
    · rw [if_pos hc, if_pos hc, ih, if_pos ⟨rfl, hc.2⟩, ih, if_neg (fun hh => hA hh.1), ih,
        if_neg (fun hh => hB hh.1)]
    · rw [if_neg hc, if_neg hc, ih, if_neg hc]

/-- Effect of the `j` loop of `matmat`. -/
theorem matmat_j_cell {ι α : Type} [DecidableEq ι] [Add α] [Mul α] (n : Nat) (A B C : ι)
    (hA : A ≠ C) (hB : B ≠ C) (i : Nat) (h : Heap ι α) (p : ι) (idx : Nat) :
    (matmat_j n A B C i h).cell p idx
      = if p = C ∧ i * n ≤ idx ∧ idx < i * n + n
          then (List.range n).foldl
            (fun acc j => acc + h.cell A (i * n + j) * h.cell B (j * n + (idx - i * n)))
            (h.cell C idx)
          else h.cell p idx :=
  matmat_j_loop n A B C hA hB i h n p idx

/-- The `i` loop run for its first `m` iterations: rows below `m` are done. -/
theorem matmat_loop {ι α : Type} [DecidableEq ι] [Add α] [Mul α] (n : Nat) (A B C : ι)
    (hA : A ≠ C) (hB : B ≠ C) (h : Heap ι α) (m : Nat) (p : ι) (idx : Nat) :
    ((List.range m).foldl (fun h i => matmat_j n A B C i h) h).cell p idx
      = if p = C ∧ idx < m * n
          then (List.range n).foldl
            (fun acc j => acc + h.cell A (idx / n * n + j) * h.cell B (j * n + idx % n))
            (h.cell C idx)
          else h.cell p idx := by
  induction m generalizing p idx with
  | zero => simp
  | succ m ih =>
    rw [List.range_succ, List.foldl_append]
    simp only [List.foldl_cons, List.foldl_nil]
    rw [matmat_j_cell n A B C hA hB]
    by_cases hc : p = C ∧ m * n ≤ idx ∧ idx < m * n + n
    · obtain ⟨hp, h1, h2⟩ := hc
      subst hp
      have hn : 0 < n := by omega
      have hdiv : idx / n = m := by
        apply Nat.div_eq_of_lt_le
        · exact h1
        · rw [Nat.succ_mul]; exact h2
      have hmod : idx % n = idx - m * n := by
        have := Nat.div_add_mod idx n
        rw [hdiv, Nat.mul_comm] at this
        omega
      rw [if_pos ⟨rfl, h1, h2⟩, if_pos ⟨rfl, by rw [Nat.succ_mul]; exact h2⟩, ih,
        if_neg (by omega), hdiv, hmod]
      congr 1
      funext acc j
      rw [ih, if_neg (fun hh => hA hh.1), ih, if_neg (fun hh => hB hh.1)]
    · rw [if_neg hc, ih]
      by_cases hc2 : p = C ∧ idx < m * n
      · rw [if_pos hc2, if_pos ⟨hc2.1, by rw [Nat.succ_mul]; omega⟩]
      · rw [if_neg hc2, if_neg (fun hh => ?_)]
        rw [Nat.succ_mul] at hh
        exact hc ⟨hh.1, Nat.le_of_not_lt (fun h3 => hc2 ⟨hh.1, h3⟩), hh.2⟩

/-- Every cell after `matmat(n, A, B, C)` when `C` is neither `A` nor `B`. -/
theorem matmat_cell {ι α : Type} [DecidableEq ι] [Add α] [Mul α] (n : Nat) (A B C : ι)
    (hA : A ≠ C) (hB : B ≠ C) (h : Heap ι α) (p : ι) (idx : Nat) :
    (matmat n A B C h).cell p idx
      = if p = C ∧ idx < n * n
          then (List.range n).foldl
            (fun acc j => acc + h.cell A (idx / n * n + j) * h.cell B (j * n + idx % n))
            (h.cell C idx)
          else h.cell p idx :=
  matmat_loop n A B C hA hB h n p idx

/-- Row and column of a row-major index. -/
theorem rowMajor_divMod (n i k : Nat) (hk : k < n) :
    (i * n + k) / n = i ∧ (i * n + k) % n = k := by
  have hn : 0 < n := by omega
  constructor
  · rw [Nat.mul_comm, Nat.mul_add_div hn, Nat.div_eq_of_lt hk, Nat.add_zero]
  · rw [Nat.mul_comm, Nat.mul_add_mod, Nat.mod_eq_of_lt hk]

/-- A row-major index of an `n × n` block lies below `n * n`. -/
theorem rowMajor_lt (n i k : Nat) (hi : i < n) (hk : k < n) : i * n + k < n * n := by
  have : (i + 1) * n ≤ n * n := Nat.mul_le_mul_right n hi
  rw [Nat.succ_mul] at this
  omega

/-- Entry `(i, k)` after `matmat`: the old entry with the `n` products added
one at a time, `j = 0, 1, ..., n-1`. -/
theorem matmat_entry {ι α : Type} [DecidableEq ι] [Add α] [Mul α] (n : Nat) (A B C : ι)
    (hA : A ≠ C) (hB : B ≠ C) (h : Heap ι α) (i k : Nat) (hi : i < n) (hk : k < n) :
    (matmat n A B C h).cell C (i * n + k)
      = (List.range n).foldl
          (fun acc j => acc + h.cell A (i * n + j) * h.cell B (j * n + k))
          (h.cell C (i * n + k)) := by
  rw [matmat_cell n A B C hA hB, if_pos ⟨rfl, rowMajor_lt n i k hi hk⟩,
    (rowMajor_divMod n i k hk).1, (rowMajor_divMod n i k hk).2]

/-- A left fold that adds terms is the start value plus the sum of the terms. -/
theorem foldl_add_eq_sum {α : Type} [AddCommMonoid α] (f : Nat → α) (c : α) (m : Nat) :
    (List.range m).foldl (fun acc j => acc + f j) c = c + ∑ j ∈ Finset.range m, f j := by
  induction m with
  | zero => simp
  | succ m ih =>
    rw [List.range_succ, List.foldl_append, ih, Finset.sum_range_succ]
    simp [add_assoc]

/-- Entry `(i, k)` after `matmat` over a commutative ring. -/
theorem matmat_entry_sum {ι α : Type} [DecidableEq ι] [CommRing α] (n : Nat) (A B C : ι)
    (hA : A ≠ C) (hB : B ≠ C) (h : Heap ι α) (i k : Nat) (hi : i < n) (hk : k < n) :
    (matmat n A B C h).cell C (i * n + k)
      = h.cell C (i * n + k)
        + ∑ j ∈ Finset.range n, h.cell A (i * n + j) * h.cell B (j * n + k) := by
  rw [matmat_entry n A B C hA hB h i k hi hk]
  exact foldl_add_eq_sum (fun j => h.cell A (i * n + j) * h.cell B (j * n + k)) _ n

/-- The block of `C` after `matmat` is the old block plus the matrix product. -/
theorem matmat_block {ι α : Type} [DecidableEq ι] [CommRing α] (n : Nat) (A B C : ι)
    (hA : A ≠ C) (hB : B ≠ C) (h : Heap ι α) :
    (matmat n A B C h).block n C = h.block n C + h.block n A * h.block n B := by
  ext i k
  rw [Matrix.add_apply, Matrix.mul_apply]
  simp only [Heap.block, Matrix.of_apply]
  rw [matmat_entry_sum n A B C hA hB h i.val k.val i.isLt k.isLt]
  congr 1
  exact (Fin.sum_univ_eq_sum_range
    (fun j => h.cell A (i.val * n + j) * h.cell B (j * n + k.val)) n).symm

/-- C3: `matmat(n, A, B, C)` on three arrays (`C` distinct from `A` and `B`)
leaves in `C[i*n+k]`, for `i, k < n`, the old value with the terms
`A[i*n+j] * B[j*n+k]` added one at a time for `j = 0, ..., n-1`, whatever the
addition and multiplication are; it changes no cell of another buffer (so `A`
and `B` are not modified) and no cell of `C` from `n*n` on; and over a
commutative ring the new block `C` is the old `C` plus `A · B`. -/
theorem matmat_spec {ι : Type} [DecidableEq ι] (n : Nat) (A B C : ι) (hA : A ≠ C) (hB : B ≠ C) :
    (∀ (α : Type) [Add α] [Mul α] (h : Heap ι α),
        (∀ i k, i < n → k < n →
          (matmat n A B C h).cell C (i * n + k)
            = (List.range n).foldl
                (fun acc j => acc + h.cell A (i * n + j) * h.cell B (j * n + k))
                (h.cell C (i * n + k)))
        ∧ (∀ p idx, p ≠ C ∨ n * n ≤ idx → (matmat n A B C h).cell p idx = h.cell p idx)
        ∧ (matmat n A B C h).cell A = h.cell A
        ∧ (matmat n A B C h).cell B = h.cell B)
    ∧ (∀ (α : Type) [CommRing α] (h : Heap ι α),
        (matmat n A B C h).block n C = h.block n C + h.block n A * h.block n B) := by
  refine ⟨fun α _ _ h => ⟨fun i k hi hk => matmat_entry n A B C hA hB h i k hi hk, ?_, ?_, ?_⟩,
    fun α _ h => matmat_block n A B C hA hB h⟩
  · intro p idx hp
    rw [matmat_cell n A B C hA hB, if_neg]
    rintro ⟨h1, h2⟩
    rcases hp with hp | hp
    · exact hp h1
    · omega
  · funext idx
    rw [matmat_cell n A B C hA hB, if_neg (fun hh => hA hh.1)]
  · funext idx
    rw [matmat_cell n A B C hA hB, if_neg (fun hh => hB hh.1)]

/-- C3 at a 2 × 2 instance: entry (1, 0) of `[[1,2],[3,4]] · [[5,6],[7,8]]`
accumulated onto 100, and the first operand untouched. -/
theorem matmat_spec_witness :
    (CBuf.A2 ≠ CBuf.C ∧ CBuf.B2 ≠ CBuf.C)
    ∧ (matmat 2 CBuf.A2 CBuf.B2 CBuf.C demoHeap).cell CBuf.C (1 * 2 + 0) = (100 + 3 * 5) + 4 * 7
    ∧ (matmat 2 CBuf.A2 CBuf.B2 CBuf.C demoHeap).cell CBuf.A2 = demoHeap.cell CBuf.A2 :=
  ⟨⟨by decide, by decide⟩,
    ((matmat_spec 2 CBuf.A2 CBuf.B2 CBuf.C (by decide) (by decide)).1 Int demoHeap).1 1 0
      (by decide) (by decide),
    ((matmat_spec 2 CBuf.A2 CBuf.B2 CBuf.C (by decide) (by decide)).1 Int demoHeap).2.2.1⟩

/-! ## The process grid -/

theorem rank_row_natCast (q rank : Nat) : rank_row q rank = ((rank / q : Nat) : Int) := rfl

theorem rank_col_natCast (q rank : Nat) : rank_col q rank = ((rank % q : Nat) : Int) := rfl

/-- Coordinates of the rank `r * q + c`. -/
theorem rank_coords (q r c : Nat) (hc : c < q) :
    rank_row q ((r * q + c : Nat) : Int) = r ∧ rank_col q ((r * q + c : Nat) : Int) = c := by
  rw [rank_row_natCast, rank_col_natCast, (rowMajor_divMod q r c hc).1,
    (rowMajor_divMod q r c hc).2]
  exact ⟨rfl, rfl⟩

/-- Every rank below `q * q` is `r * q + c` with `r, c < q`. -/
theorem rank_decompose (q rank : Nat) (hr : rank < q * q) :
    rank / q < q ∧ rank % q < q ∧ rank / q * q + rank % q = rank := by
  have hq : 0 < q := by
    rcases Nat.eq_zero_or_pos q with h0 | h0
    · subst h0; simp at hr
    · exact h0
  refine ⟨(Nat.div_lt_iff_lt_mul hq).2 hr, Nat.mod_lt _ hq, ?_⟩
  rw [Nat.mul_comm]
  exact Nat.div_add_mod rank q

theorem wrapDown_range (q c s : Int) (hc0 : 0 ≤ c) (hc : c < q) (hs0 : 0 ≤ s) (hs : s ≤ q) :
    0 ≤ wrapDown q c s ∧ wrapDown q c s < q := by
  unfold wrapDown
  simp only
  split_ifs <;> omega

theorem wrapUp_range (q c s : Int) (hc0 : 0 ≤ c) (hc : c < q) (hs0 : 0 ≤ s) (hs : s ≤ q) :
    0 ≤ wrapUp q c s ∧ wrapUp q c s < q := by
  unfold wrapUp
  simp only
  split_ifs <;> omega

/-- The C remainder of a value in `[-q, 2q)`. -/
theorem tmod_window (q x : Int) (hq : 0 < q) (h1 : -q ≤ x) (h2 : x < 2 * q) :
    Int.tmod x q
      = if x < 0 then (if x = -q then 0 else x) else (if x < q then x else x - q) := by
  have key : ∀ y : Int, 0 ≤ y → y < 2 * q → Int.tmod y q = if y < q then y else y - q := by
    intro y hy0 hy
    rw [Int.tmod_eq_emod hy0 (le_of_lt hq)]
    split_ifs with hlt
    · exact Int.emod_eq_of_lt hy0 hlt
    · rw [Int.emod_eq_sub_self_emod]
      exact Int.emod_eq_of_lt (by omega) (by omega)
  by_cases hx : x < 0
  · rw [if_pos hx]
    have hneg : Int.tmod x q = - Int.tmod (-x) q := by
      obtain ⟨k, rfl⟩ := Int.eq_ofNat_of_zero_le (le_of_lt hq)
      obtain ⟨m, rfl⟩ := Int.eq_negSucc_of_lt_zero hx
      rfl
    rw [hneg, key (-x) (by omega) (by omega)]
    split_ifs <;> omega
  · rw [if_neg hx]
    exact key x (by omega) h2

theorem wrapDown_spec (q c s : Int) (hc0 : 0 ≤ c) (hc : c < q) (hs0 : 0 ≤ s) (hs : s ≤ q) :
    wrapDown q c s = neighborSpec q c (-s) := by
  have hq : 0 < q := by omega
  unfold wrapDown neighborSpec
  simp only
  rw [tmod_window q (c + -s) hq (by omega) (by omega)]
  split_ifs with h1 h2 h3 h4 <;>
    first
      | omega
      | (rw [tmod_window q _ hq (by omega) (by omega)]; split_ifs <;> omega)

theorem wrapUp_spec (q c s : Int) (hc0 : 0 ≤ c) (hc : c < q) (hs0 : 0 ≤ s) (hs : s ≤ q) :
    wrapUp q c s = neighborSpec q c s := by
  have hq : 0 < q := by omega
  unfold wrapUp neighborSpec
  simp only
  rw [tmod_window q (c + s) hq (by omega) (by omega)]
  split_ifs with h1 h2 h3 h4 <;>
    first
      | omega
      | (rw [tmod_window q _ hq (by omega) (by omega)]; split_ifs <;> omega)

theorem wrapDown_isNeighbor (q c s : Int) (hc0 : 0 ≤ c) (hc : c < q) (hs0 : 0 ≤ s)
    (hs : s ≤ q) : IsNeighbor q c (-s) (wrapDown q c s) :=
  ⟨(wrapDown_range q c s hc0 hc hs0 hs).1, (wrapDown_range q c s hc0 hc hs0 hs).2,
    wrapDown_spec q c s hc0 hc hs0 hs⟩

theorem wrapUp_isNeighbor (q c s : Int) (hc0 : 0 ≤ c) (hc : c < q) (hs0 : 0 ≤ s)
    (hs : s ≤ q) : IsNeighbor q c s (wrapUp q c s) :=
  ⟨(wrapUp_range q c s hc0 hc hs0 hs).1, (wrapUp_range q c s hc0 hc hs0 hs).2,
    wrapUp_spec q c s hc0 hc hs0 hs⟩

/-- A rank built from two coordinates of the grid lies in the grid. -/
theorem inGrid_of_coords (q r c : Int) (hr0 : 0 ≤ r) (hr : r < q) (hc0 : 0 ≤ c) (hc : c < q) :
    InGrid q (r * q + c) := by
  unfold InGrid
  constructor
  · have := mul_nonneg hr0 (by omega : (0 : Int) ≤ q)
    omega
  · have h1 : (r + 1) * q ≤ q * q := by
      apply mul_le_mul_of_nonneg_right (by omega) (by omega)
    have h2 : (r + 1) * q = r * q + q := by ring
    omega

/-- C9: on a `q × q` grid (any `q`, so in particular `q ≥ 1`; the grid
dimension is the integer square root of the process count `q * q`), the
coordinates `rank / q` and `rank % q`
of every rank below `q * q` lie in `[0, q)` and satisfy
`row * q + col = rank`; conversely every `(row, col)` with `row, col < q`
gives a rank `row * q + col` below `q * q` that maps back to `(row, col)`. -/
theorem grid_coordinates (q : Nat) :
    (∀ rank : Nat, rank < q * q →
      0 ≤ rank_row (Nat.sqrt (q * q) : Nat) rank
      ∧ rank_row (Nat.sqrt (q * q) : Nat) rank < q
      ∧ 0 ≤ rank_col (Nat.sqrt (q * q) : Nat) rank
      ∧ rank_col (Nat.sqrt (q * q) : Nat) rank < q
      ∧ rank_row (Nat.sqrt (q * q) : Nat) rank * q
          + rank_col (Nat.sqrt (q * q) : Nat) rank = rank)
    ∧ (∀ row col : Nat, row < q → col < q →
      row * q + col < q * q
      ∧ rank_row (Nat.sqrt (q * q) : Nat) ((row * q + col : Nat) : Int) = row
      ∧ rank_col (Nat.sqrt (q * q) : Nat) ((row * q + col : Nat) : Int) = col) := by
  rw [Nat.sqrt_eq]
  constructor
  · intro rank hr
    obtain ⟨h1, h2, h3⟩ := rank_decompose q rank hr
    rw [rank_row_natCast, rank_col_natCast]
    refine ⟨Int.natCast_nonneg _, by exact_mod_cast h1, Int.natCast_nonneg _,
      by exact_mod_cast h2, ?_⟩
    exact_mod_cast h3
  · intro row col hrow hcol
    exact ⟨rowMajor_lt q row col hrow hcol, (rank_coords q row col hcol).1,
      (rank_coords q row col hcol).2⟩

/-- C9 on the 3 × 3 grid: rank 7 is at row 2, column 1. -/
theorem grid_coordinates_witness :
    1 ≤ 3 ∧ 7 < 3 * 3
    ∧ rank_row (Nat.sqrt (3 * 3) : Nat) (7 : Nat) * (3 : Nat)
        + rank_col (Nat.sqrt (3 * 3) : Nat) (7 : Nat) = (7 : Nat)
    ∧ rank_row (Nat.sqrt (3 * 3) : Nat) ((2 * 3 + 1 : Nat) : Int) = (2 : Nat) :=
  ⟨by decide, by decide, ((grid_coordinates 3).1 7 (by decide)).2.2.2.2,
    ((grid_coordinates 3).2 2 1 (by decide) (by decide)).2.1⟩

/-- C10: on a `q × q` grid (`q ≥ 1`), for every rank below `q * q` with
coordinates `(row, col)`, each peer coordinate that `cannon` computes with its
single conditional correction lies in `[0, q)` and equals
`((coord + offset) mod q + q) mod q`: offsets `-row`, `+row` on the column and
`-col`, `+col` on the row in the skew, `-1`, `+1` on both in a pipeline round.
A shift by `-1` from coordinate 0 gives `q - 1`, and the eight peer ranks lie
in `[0, q * q)`. -/
theorem neighbor_wrap (q : Nat) (hq : 1 ≤ q) (rank : Nat) (hr : rank < q * q)
    (sq row col : Int) (hsq : sq = (Nat.sqrt (q * q) : Nat))
    (hrow : row = rank_row sq rank) (hcol : col = rank_col sq rank) :
    (IsNeighbor q col (-row) (wrapDown sq col row)
      ∧ IsNeighbor q col row (wrapUp sq col row)
      ∧ IsNeighbor q row (-col) (wrapDown sq row col)
      ∧ IsNeighbor q row col (wrapUp sq row col))
    ∧ (IsNeighbor q col (-1) (wrapDown sq col 1)
      ∧ IsNeighbor q col 1 (wrapUp sq col 1)
      ∧ IsNeighbor q row (-1) (wrapDown sq row 1)
      ∧ IsNeighbor q row 1 (wrapUp sq row 1))
    ∧ wrapDown sq 0 1 = q - 1
    ∧ (InGrid q (skewPeers sq rank).recv_a ∧ InGrid q (skewPeers sq rank).recv_b
      ∧ InGrid q (skewPeers sq rank).send_a ∧ InGrid q (skewPeers sq rank).send_b)
    ∧ (InGrid q (roundPeers sq rank).recv_a ∧ InGrid q (roundPeers sq rank).recv_b
      ∧ InGrid q (roundPeers sq rank).send_a ∧ InGrid q (roundPeers sq rank).send_b) := by
  rw [Nat.sqrt_eq] at hsq
  subst hsq
  obtain ⟨h1, h2, -⟩ := rank_decompose q rank hr
  have hr0 : (0 : Int) ≤ row := by rw [hrow, rank_row_natCast]; exact Int.natCast_nonneg _
  have hr1 : row < q := by rw [hrow, rank_row_natCast]; exact_mod_cast h1
  have hc0 : (0 : Int) ≤ col := by rw [hcol, rank_col_natCast]; exact Int.natCast_nonneg _
  have hc1 : col < q := by rw [hcol, rank_col_natCast]; exact_mod_cast h2
  have hq1 : (1 : Int) ≤ q := by exact_mod_cast hq
  have dcr := wrapDown_isNeighbor q col row hc0 hc1 hr0 (le_of_lt hr1)
  have ucr := wrapUp_isNeighbor q col row hc0 hc1 hr0 (le_of_lt hr1)
  have drc := wrapDown_isNeighbor q row col hr0 hr1 hc0 (le_of_lt hc1)
  have urc := wrapUp_isNeighbor q row col hr0 hr1 hc0 (le_of_lt hc1)
  have dc1 := wrapDown_isNeighbor q col 1 hc0 hc1 (by omega) hq1
  have uc1 := wrapUp_isNeighbor q col 1 hc0 hc1 (by omega) hq1
  have dr1 := wrapDown_isNeighbor q row 1 hr0 hr1 (by omega) hq1
  have ur1 := wrapUp_isNeighbor q row 1 hr0 hr1 (by omega) hq1
  refine ⟨⟨dcr, ucr, drc, urc⟩, ⟨dc1, uc1, dr1, ur1⟩, ?_, ⟨?_, ?_, ?_, ?_⟩, ⟨?_, ?_, ?_, ?_⟩⟩
  · unfold wrapDown
    simp only
    split_ifs <;> omega
  all_goals
    simp only [skewPeers, roundPeers, ← hrow, ← hcol]
  · exact inGrid_of_coords q row _ hr0 hr1 dcr.1 dcr.2.1
  · exact inGrid_of_coords q _ col drc.1 drc.2.1 hc0 hc1
  · exact inGrid_of_coords q row _ hr0 hr1 ucr.1 ucr.2.1
  · exact inGrid_of_coords q _ col urc.1 urc.2.1 hc0 hc1
  · exact inGrid_of_coords q row _ hr0 hr1 dc1.1 dc1.2.1
  · exact inGrid_of_coords q _ col dr1.1 dr1.2.1 hc0 hc1
  · exact inGrid_of_coords q row _ hr0 hr1 uc1.1 uc1.2.1
  · exact inGrid_of_coords q _ col ur1.1 ur1.2.1 hc0 hc1

/-- C10 on the 3 × 3 grid at rank 3 (row 1, column 0): the A receive of the
skew comes from column 2 and a shift by -1 from column 0 wraps to 2. -/
theorem neighbor_wrap_witness :
    (1 ≤ 3 ∧ 3 < 3 * 3)
    ∧ IsNeighbor (3 : Nat) 0 (-1) (wrapDown 3 0 1)
    ∧ wrapDown 3 0 1 = (3 : Nat) - 1
    ∧ InGrid (3 : Nat) (skewPeers 3 (3 : Nat)).recv_a :=
  ⟨⟨by decide, by decide⟩,
    (neighbor_wrap 3 (by decide) 3 (by decide) 3 1 0 (by rw [Nat.sqrt_eq]; rfl) rfl rfl).1.1,
    (neighbor_wrap 3 (by decide) 3 (by decide) 3 1 0 (by rw [Nat.sqrt_eq]; rfl) rfl rfl).2.2.1,
    (neighbor_wrap 3 (by decide) 3 (by decide) 3 1 0 (by rw [Nat.sqrt_eq]; rfl) rfl rfl).2.2.2.1.1⟩

/-- A received block: cell `k` of the payload of `count` values. -/
theorem Heap.payload_getD {ι α : Type} (h : Heap ι α) (buf : ι) (off count k : Nat) (d : α)
    (hk : k < count) : (h.payload buf off count).getD k d = h.cell buf (off + k) := by
  unfold Heap.payload
  rw [List.getD_eq_getElem?_getD, List.getElem?_map, List.getElem?_range hk]
  rfl

/-! ## The row/column exchange multiply -/

theorem parZeroC_loop {α : Type} [Zero α] (h : Heap PBuf α) (m : Nat) (p : PBuf) (idx : Nat) :
    ((List.range m).foldl (fun h i => h.store PBuf.C i 0) h).cell p idx
      = if p = PBuf.C ∧ idx < m then 0 else h.cell p idx := by
  induction m with
  | zero => simp
  | succ m ih =>
    rw [List.range_succ, List.foldl_append]
    simp only [List.foldl_cons, List.foldl_nil]
    rw [Heap.store_cell, ih]
    by_cases hp : p = PBuf.C
    · by_cases hk : idx = m
      · rw [if_pos ⟨hp, hk⟩, if_pos ⟨hp, by omega⟩]
      · rw [if_neg (fun hh => hk hh.2)]
        by_cases hlt : idx < m
        · rw [if_pos ⟨hp, hlt⟩, if_pos ⟨hp, by omega⟩]
        · rw [if_neg (fun hh => hlt hh.2), if_neg (fun hh => hlt (by omega))]
    · rw [if_neg (fun hh => hp hh.1), if_neg (fun hh => hp hh.1), if_neg (fun hh => hp hh.1)]

theorem parZeroC_cell {α : Type} [Zero α] (n : Nat) (h : Heap PBuf α) (p : PBuf) (idx : Nat) :
    (parZeroC n h).cell p idx = if p = PBuf.C ∧ idx < n * n then 0 else h.cell p idx :=
  parZeroC_loop h (n * n) p idx

theorem parCopy_loop {α : Type} (n : Nat) (src buf : PBuf) (hsb : src ≠ buf) (i : Nat)
    (h : Heap PBuf α) (m : Nat) (p : PBuf) (idx : Nat) :
    ((List.range m).foldl (fun h j => h.store buf (i * n * n + j) (h.cell src j)) h).cell p idx
      = if p = buf ∧ i * n * n ≤ idx ∧ idx < i * n * n + m
          then h.cell src (idx - i * n * n) else h.cell p idx := by
  induction m generalizing p idx with
  | zero =>
    rw [if_neg (by omega)]
    rfl
  | succ m ih =>
    rw [List.range_succ, List.foldl_append]
    simp only [List.foldl_cons, List.foldl_nil]
    rw [Heap.store_cell]
    by_cases hp : p = buf
    · subst hp
      by_cases hk : idx = i * n * n + m
      · subst hk
        rw [if_pos ⟨rfl, rfl⟩, if_pos ⟨rfl, by omega, by omega⟩, ih,
          if_neg (fun hh => hsb hh.1)]
        congr 1
        omega
      · rw [if_neg (fun hh => hk hh.2), ih]
        by_cases hr : i * n * n ≤ idx ∧ idx < i * n * n + m
        · rw [if_pos ⟨rfl, hr⟩, if_pos ⟨rfl, by omega, by omega⟩]
        · rw [if_neg (fun hh => hr hh.2), if_neg (fun hh => hr ⟨hh.2.1, by omega⟩)]
    · rw [if_neg (fun hh => hp hh.1), ih, if_neg (fun hh => hp hh.1), if_neg (fun hh => hp hh.1)]

theorem parCopy_cell {α : Type} (n : Nat) (src buf : PBuf) (hsb : src ≠ buf) (i : Nat)
    (h : Heap PBuf α) (p : PBuf) (idx : Nat) :
    (parCopy n src buf i h).cell p idx
      = if p = buf ∧ i * n * n ≤ idx ∧ idx < i * n * n + n * n
          then h.cell src (idx - i * n * n) else h.cell p idx :=
  parCopy_loop n src buf hsb i h (n * n) p idx

/-- The message sent from a fresh copy of a block carries the block. -/
theorem parCopy_payload {α : Type} (n : Nat) (src buf : PBuf) (hsb : src ≠ buf) (i : Nat)
    (h : Heap PBuf α) :
    (parCopy n src buf i h).payload buf (i * n * n) (n * n) = h.payload src 0 (n * n) := by
  unfold Heap.payload
  apply List.map_congr_left
  intro k hk
  rw [List.mem_range] at hk
  rw [parCopy_cell n src buf hsb, if_pos ⟨rfl, by omega, by omega⟩]
  congr 1
  omega

theorem parSendA_loop {α : Type} (n : Nat) (sq_num_procs rank : Int) (st : ParProc α) (m : Nat) :
    ((List.range m).foldl (parSendA_step n sq_num_procs rank) st).posted
        = st.posted ++ (List.range m).map
            (parMsgA sq_num_procs rank (st.heap.payload PBuf.A 0 (n * n)))
    ∧ ((List.range m).foldl (parSendA_step n sq_num_procs rank) st).trace
        = st.trace ++ (List.range m).map (fun i : Nat =>
            Call.Isend PBuf.a_send_buf (i * n * n) (n * n)
              (rank_row sq_num_procs rank * sq_num_procs + i) 1234)
    ∧ ∀ p idx, p ≠ PBuf.a_send_buf →
        ((List.range m).foldl (parSendA_step n sq_num_procs rank) st).heap.cell p idx
          = st.heap.cell p idx := by
  induction m with
  | zero => simp
  | succ m ih =>
    obtain ⟨ih1, ih2, ih3⟩ := ih
    rw [List.range_succ, List.foldl_append]
    simp only [List.foldl_cons, List.foldl_nil, List.map_append, List.map_cons, List.map_nil]
    refine ⟨?_, ?_, ?_⟩
    · simp only [parSendA_step]
      rw [ih1, parCopy_payload n PBuf.A PBuf.a_send_buf (by decide), List.append_assoc]
      congr 2
      unfold Heap.payload parMsgA
      congr 2
      apply List.map_congr_left
      intro k _
      exact ih3 PBuf.A (0 + k) (by decide)
    · simp only [parSendA_step]
      rw [ih2, List.append_assoc]
    · intro p idx hp
      simp only [parSendA_step]
      rw [parCopy_cell n PBuf.A PBuf.a_send_buf (by decide), if_neg (fun hh => hp hh.1)]
      exact ih3 p idx hp

theorem parSendB_loop {α : Type} (n : Nat) (sq_num_procs rank : Int) (st : ParProc α) (m : Nat) :
    ((List.range m).foldl (parSendB_step n sq_num_procs rank) st).posted
        = st.posted ++ (List.range m).map
            (parMsgB sq_num_procs rank (st.heap.payload PBuf.B 0 (n * n)))
    ∧ ((List.range m).foldl (parSendB_step n sq_num_procs rank) st).trace
        = st.trace ++ (List.range m).map (fun i : Nat =>
            Call.Isend PBuf.b_send_buf (i * n * n) (n * n)
              (i * sq_num_procs + rank_col sq_num_procs rank) 4321)
    ∧ ∀ p idx, p ≠ PBuf.b_send_buf →
        ((List.range m).foldl (parSendB_step n sq_num_procs rank) st).heap.cell p idx
          = st.heap.cell p idx := by
  induction m with
  | zero => simp
  | succ m ih =>
    obtain ⟨ih1, ih2, ih3⟩ := ih
    rw [List.range_succ, List.foldl_append]
    simp only [List.foldl_cons, List.foldl_nil, List.map_append, List.map_cons, List.map_nil]
    refine ⟨?_, ?_, ?_⟩
    · simp only [parSendB_step]
      rw [ih1, parCopy_payload n PBuf.B PBuf.b_send_buf (by decide), List.append_assoc]
      congr 2
      unfold Heap.payload parMsgB
      congr 2
      apply List.map_congr_left
      intro k _
      exact ih3 PBuf.B (0 + k) (by decide)
    · simp only [parSendB_step]
      rw [ih2, List.append_assoc]
    · intro p idx hp
      simp only [parSendB_step]
      rw [parCopy_cell n PBuf.B PBuf.b_send_buf (by decide), if_neg (fun hh => hp hh.1)]
      exact ih3 p idx hp

/-- Payloads read from cells that agree are equal. -/
theorem Heap.payload_congr {ι α : Type} (h h' : Heap ι α) (buf buf' : ι) (off off' count : Nat)
    (H : ∀ k, k < count → h.cell buf (off + k) = h'.cell buf' (off' + k)) :
    h.payload buf off count = h'.payload buf' off' count := by
  unfold Heap.payload
  apply List.map_congr_left
  intro k hk
  exact H k (List.mem_range.1 hk)

/-- The first hit of a search through `f 0, f 1, ..., f (q-1)`. -/
theorem find?_map_range {β : Type} (f : Nat → β) (p : β → Bool) (q c : Nat) (hc : c < q)
    (hp : p (f c) = true) (hn : ∀ i, i < c → p (f i) = false) :
    ((List.range q).map f).find? p = some (f c) := by
  induction q with
  | zero => omega
  | succ q ih =>
    rw [List.range_succ, List.map_append, List.find?_append]
    by_cases hcq : c < q
    · rw [ih hcq]
      rfl
    · have hcq2 : c = q := by omega
      subst hcq2
      have hnone : ((List.range c).map f).find? p = none := by
        rw [List.find?_eq_none]
        intro x hx
        rw [List.mem_map] at hx
        obtain ⟨i, hi, rfl⟩ := hx
        rw [List.mem_range] at hi
        rw [hn i hi]
        exact Bool.false_ne_true
      rw [hnone]
      simp [hp]

/-- A search that fails on every `f i`. -/
theorem find?_map_range_none {β : Type} (f : Nat → β) (p : β → Bool) (q : Nat)
    (hn : ∀ i, i < q → p (f i) = false) : ((List.range q).map f).find? p = none := by
  rw [List.find?_eq_none]
  intro x hx
  rw [List.mem_map] at hx
  obtain ⟨i, hi, rfl⟩ := hx
  rw [List.mem_range] at hi
  rw [hn i hi]
  exact Bool.false_ne_true

/-- What a process has posted, and its memory, when it reaches the receive
loop of `par_matmat`. -/
theorem parPost_spec {α : Type} [Zero α] (n : Nat) (sq_num_procs rank : Int)
    (h : Heap PBuf α) :
    (parPost n sq_num_procs rank h).posted
        = (List.range sq_num_procs.toNat).map
            (parMsgA sq_num_procs rank (h.payload PBuf.A 0 (n * n)))
          ++ (List.range sq_num_procs.toNat).map
            (parMsgB sq_num_procs rank (h.payload PBuf.B 0 (n * n)))
    ∧ (parPost n sq_num_procs rank h).trace
        = (List.range sq_num_procs.toNat).map (fun i : Nat =>
            Call.Isend PBuf.a_send_buf (i * n * n) (n * n)
              (rank_row sq_num_procs rank * sq_num_procs + i) 1234)
          ++ (List.range sq_num_procs.toNat).map (fun i : Nat =>
            Call.Isend PBuf.b_send_buf (i * n * n) (n * n)
              (i * sq_num_procs + rank_col sq_num_procs rank) 4321)
    ∧ (∀ idx, idx < n * n → (parPost n sq_num_procs rank h).heap.cell PBuf.C idx = 0)
    ∧ (parPost n sq_num_procs rank h).heap.cell PBuf.A = h.cell PBuf.A
    ∧ (parPost n sq_num_procs rank h).heap.cell PBuf.B = h.cell PBuf.B := by
  unfold parPost parSendA parSendB
  obtain ⟨a1, a2, a3⟩ := parSendA_loop n sq_num_procs rank
    { heap := parZeroC n h, posted := [], trace := [] } sq_num_procs.toNat
  obtain ⟨b1, b2, b3⟩ := parSendB_loop n sq_num_procs rank
    ((List.range sq_num_procs.toNat).foldl (parSendA_step n sq_num_procs rank)
      { heap := parZeroC n h, posted := [], trace := [] }) sq_num_procs.toNat
  have hA : ∀ idx, ((List.range sq_num_procs.toNat).foldl (parSendA_step n sq_num_procs rank)
      { heap := parZeroC n h, posted := [], trace := [] }).heap.cell PBuf.A idx
        = h.cell PBuf.A idx := by
    intro idx
    rw [a3 PBuf.A idx (by decide), parZeroC_cell, if_neg (fun hh => by simp at hh)]
  have hB : ∀ idx, ((List.range sq_num_procs.toNat).foldl (parSendA_step n sq_num_procs rank)
      { heap := parZeroC n h, posted := [], trace := [] }).heap.cell PBuf.B idx
        = h.cell PBuf.B idx := by
    intro idx
    rw [a3 PBuf.B idx (by decide), parZeroC_cell, if_neg (fun hh => by simp at hh)]
  refine ⟨?_, ?_, ?_, ?_, ?_⟩
  · rw [b1, a1, List.nil_append]
    have pA : (parZeroC n h).payload PBuf.A 0 (n * n) = h.payload PBuf.A 0 (n * n) := by
      apply Heap.payload_congr
      intro k _
      rw [parZeroC_cell, if_neg (fun hh => by simp at hh)]
    have pB : ((List.range sq_num_procs.toNat).foldl (parSendA_step n sq_num_procs rank)
        { heap := parZeroC n h, posted := [], trace := [] }).heap.payload PBuf.B 0 (n * n)
          = h.payload PBuf.B 0 (n * n) := by
      apply Heap.payload_congr
      intro k _
      exact hB _
    rw [pA, pB]
  · rw [b2, a2, List.nil_append]
  · intro idx hidx
    rw [b3 PBuf.C idx (by decide), a3 PBuf.C idx (by decide), parZeroC_cell,
      if_pos ⟨rfl, hidx⟩]
  · funext idx
    rw [b3 PBuf.A idx (by decide)]
    exact hA idx
  · funext idx
    rw [b3 PBuf.B idx (by decide)]
    exact hB idx

/-- A receive from an existing rank that has posted `posted`. -/
theorem mpiRecv_of_posted {α : Type} (num_procs : Nat) (sends : Nat → Option (List (Msg α)))
    (s me : Nat) (tag : Int) (posted : List (Msg α)) (hs : s < num_procs)
    (hp : sends s = some posted) :
    mpiRecv num_procs sends (s : Int) me tag = (matchMsg posted me tag).map Msg.data := by
  unfold mpiRecv
  rw [if_pos ⟨Int.natCast_nonneg _, by exact_mod_cast hs⟩, Int.toNat_natCast, hp]

/-- The A message of row peer `(row, j)` that reaches `(row, col)`. -/
theorem par_matchA {α : Type} (q row j col : Nat) (hj : j < q) (hcol : col < q)
    (a b : List α) :
    matchMsg
        ((List.range q).map (parMsgA q ((row * q + j : Nat) : Int) a)
          ++ (List.range q).map (parMsgB q ((row * q + j : Nat) : Int) b))
        ((row * q + col : Nat) : Int) 1234
      = some (parMsgA q ((row * q + j : Nat) : Int) a col) := by
  unfold matchMsg
  rw [List.find?_append,
    find?_map_range (parMsgA q ((row * q + j : Nat) : Int) a) _ q col hcol]
  · rfl
  · simp only [parMsgA, (rank_coords q row j hj).1]
    simp
  · intro i hi
    simp only [parMsgA, (rank_coords q row j hj).1]
    simp
    omega

/-- The B message of column peer `(j, col)` that reaches `(row, col)`. -/
theorem par_matchB {α : Type} (q row j col : Nat) (hrow : row < q) (hcol : col < q)
    (a b : List α) :
    matchMsg
        ((List.range q).map (parMsgA q ((j * q + col : Nat) : Int) a)
          ++ (List.range q).map (parMsgB q ((j * q + col : Nat) : Int) b))
        ((row * q + col : Nat) : Int) 4321
      = some (parMsgB q ((j * q + col : Nat) : Int) b row) := by
  unfold matchMsg
  rw [List.find?_append,
    find?_map_range_none (parMsgA q ((j * q + col : Nat) : Int) a) _ q,
    find?_map_range (parMsgB q ((j * q + col : Nat) : Int) b) _ q row hrow]
  · rfl
  · simp only [parMsgB, (rank_coords q j col hcol).2]
    simp
  · intro i hi
    simp only [parMsgB, (rank_coords q j col hcol).2]
    simp
    omega
  · intro i _
    simp [parMsgA]

/-- One iteration of the receive loop at `(row, col)`: the blocks of the row
peer `(row, i)` and of the column peer `(i, col)` arrive and are multiplied. -/
theorem parRecvStep_eq {α : Type} [Add α] [Mul α] (n q row col i : Nat) (hrow : row < q)
    (hcol : col < q) (hi : i < q) (sends : Nat → Option (List (Msg α)))
    (a a' b b' : List α)
    (hsA : sends (row * q + i) = some (parPosted q (row * q + i) a b'))
    (hsB : sends (i * q + col) = some (parPosted q (i * q + col) a' b))
    (st : ParProc α) :
    parRecvStep n (q * q) q ((row * q + col : Nat) : Int) sends st i
      = some { st with
          heap := matmat n PBuf.recv_A PBuf.recv_B PBuf.C
            ((st.heap.recvInto PBuf.recv_A (n * n) a).recvInto PBuf.recv_B (n * n) b)
          trace := st.trace ++
            [Call.Recv PBuf.recv_A (n * n) ((row * q + i : Nat) : Int) 1234,
             Call.Recv PBuf.recv_B (n * n) ((i * q + col : Nat) : Int) 4321,
             Call.matmat PBuf.recv_A PBuf.recv_B PBuf.C] } := by
  have e1 : rank_row q ((row * q + col : Nat) : Int) * q + i = ((row * q + i : Nat) : Int) := by
    rw [(rank_coords q row col hcol).1]
    push_cast
    ring
  have e2 : (i : Int) * q + rank_col q ((row * q + col : Nat) : Int)
      = ((i * q + col : Nat) : Int) := by
    rw [(rank_coords q row col hcol).2]
    push_cast
    ring
  unfold parRecvStep
  simp only [e1, e2, Int.toNat_natCast]
  rw [mpiRecv_of_posted _ _ _ _ _ _ (rowMajor_lt q row i hrow hi) hsA,
    mpiRecv_of_posted _ _ _ _ _ _ (rowMajor_lt q i col hi hcol) hsB]
  unfold parPosted
  rw [par_matchA q row i col hi hcol, par_matchB q row i col hrow hcol]
  rfl

/-- Two blocks are received into `rA` and `rB` and multiplied into `C`: the
entries of `C` and the cells left alone. -/
theorem recv_matmat_cell {ι α : Type} [DecidableEq ι] [Add α] [Mul α] (n : Nat) (rA rB C : ι)
    (hA : rA ≠ C) (hB : rB ≠ C) (hAB : rA ≠ rB) (h : Heap ι α) (a b : Nat → α)
    (la lb : List α)
    (hla : ∀ idx d, idx < n * n → la.getD idx d = a idx)
    (hlb : ∀ idx d, idx < n * n → lb.getD idx d = b idx) :
    (∀ i k, i < n → k < n →
      (matmat n rA rB C ((h.recvInto rA (n * n) la).recvInto rB (n * n) lb)).cell C (i * n + k)
        = dotAcc n a b i k (h.cell C (i * n + k)))
    ∧ (∀ p idx, p ≠ C → p ≠ rA → p ≠ rB →
      (matmat n rA rB C ((h.recvInto rA (n * n) la).recvInto rB (n * n) lb)).cell p idx
        = h.cell p idx)
    ∧ (∀ idx, idx < n * n →
      (matmat n rA rB C ((h.recvInto rA (n * n) la).recvInto rB (n * n) lb)).cell rA idx
        = a idx)
    ∧ (∀ idx, idx < n * n →
      (matmat n rA rB C ((h.recvInto rA (n * n) la).recvInto rB (n * n) lb)).cell rB idx
        = b idx) := by
  have cA : ∀ idx, idx < n * n →
      ((h.recvInto rA (n * n) la).recvInto rB (n * n) lb).cell rA idx = a idx := by
    intro idx hidx
    rw [Heap.recvInto_cell, if_neg (fun hh => hAB hh.1), Heap.recvInto_cell,
      if_pos ⟨rfl, hidx⟩, hla idx _ hidx]
  have cB : ∀ idx, idx < n * n →
      ((h.recvInto rA (n * n) la).recvInto rB (n * n) lb).cell rB idx = b idx := by
    intro idx hidx
    rw [Heap.recvInto_cell, if_pos ⟨rfl, hidx⟩, hlb idx _ hidx]
  have cO : ∀ p idx, p ≠ rA → p ≠ rB →
      ((h.recvInto rA (n * n) la).recvInto rB (n * n) lb).cell p idx = h.cell p idx := by
    intro p idx h1 h2
    rw [Heap.recvInto_cell, if_neg (fun hh => h2 hh.1), Heap.recvInto_cell,
      if_neg (fun hh => h1 hh.1)]
  refine ⟨?_, ?_, ?_, ?_⟩
  · intro i k hi hk
    rw [matmat_entry n rA rB C hA hB _ i k hi hk, cO C _ (Ne.symm hA) (Ne.symm hB)]
    unfold dotAcc
    apply List.foldl_ext
    intro acc j hj
    rw [List.mem_range] at hj
    rw [cA _ (rowMajor_lt n i j hi hj), cB _ (rowMajor_lt n j k hj hk)]
  · intro p idx h0 h1 h2
    rw [matmat_cell n rA rB C hA hB, if_neg (fun hh => h0 hh.1), cO p idx h1 h2]
  · intro idx hidx
    rw [matmat_cell n rA rB C hA hB, if_neg (fun hh => hA hh.1), cA idx hidx]
  · intro idx hidx
    rw [matmat_cell n rA rB C hA hB, if_neg (fun hh => hB hh.1), cB idx hidx]

/-- Cell `idx` of a payload read from offset 0. -/
theorem Heap.payload_zero_getD {ι α : Type} (h : Heap ι α) (buf : ι) (count : Nat) (idx : Nat)
    (d : α) (hidx : idx < count) : (h.payload buf 0 count).getD idx d = h.cell buf idx := by
  rw [Heap.payload_getD h buf 0 count idx d hidx, Nat.zero_add]

/-- The receive loop of `par_matmat` at `(row, col)` run for its first `m`
iterations. -/
theorem parRecvLoop_spec {α : Type} [Add α] [Mul α] (n q row col : Nat) (hrow : row < q)
    (hcol : col < q) (sends : Nat → Option (List (Msg α))) (input : Nat → Heap PBuf α)
    (hs : ∀ s, s < q * q → sends s
      = some (parPosted q s ((input s).payload PBuf.A 0 (n * n))
          ((input s).payload PBuf.B 0 (n * n))))
    (st0 : ParProc α) (m : Nat) (hm : m ≤ q) :
    ∃ st, (List.range m).foldl
        (fun st i => st.bind fun st =>
          parRecvStep n (q * q) q ((row * q + col : Nat) : Int) sends st i) (some st0)
        = some st
      ∧ (∀ i k, i < n → k < n → st.heap.cell PBuf.C (i * n + k)
          = (List.range m).foldl
              (fun c j => dotAcc n ((input (row * q + j)).cell PBuf.A)
                ((input (j * q + col)).cell PBuf.B) i k c)
              (st0.heap.cell PBuf.C (i * n + k)))
      ∧ st.trace = st0.trace ++ (List.range m).flatMap (fun j =>
          [Call.Recv PBuf.recv_A (n * n) ((row * q + j : Nat) : Int) 1234,
           Call.Recv PBuf.recv_B (n * n) ((j * q + col : Nat) : Int) 4321,
           Call.matmat PBuf.recv_A PBuf.recv_B PBuf.C])
      ∧ st.heap.cell PBuf.A = st0.heap.cell PBuf.A
      ∧ st.heap.cell PBuf.B = st0.heap.cell PBuf.B := by
  induction m with
  | zero => exact ⟨st0, rfl, fun _ _ _ _ => rfl, by simp, rfl, rfl⟩
  | succ m ih =>
    obtain ⟨st, e, hC, hT, hA, hB⟩ := ih (by omega)
    have hmq : m < q := by omega
    rw [List.range_succ, List.foldl_append, e]
    simp only [List.foldl_cons, List.foldl_nil, Option.some_bind]
    rw [parRecvStep_eq n q row col m hrow hcol hmq sends _ _ _ _
      (hs _ (rowMajor_lt q row m hrow hmq)) (hs _ (rowMajor_lt q m col hmq hcol)) st]
    obtain ⟨k1, k2, -, -⟩ := recv_matmat_cell n PBuf.recv_A PBuf.recv_B PBuf.C (by decide)
      (by decide) (by decide) st.heap ((input (row * q + m)).cell PBuf.A)
      ((input (m * q + col)).cell PBuf.B)
      ((input (row * q + m)).payload PBuf.A 0 (n * n))
      ((input (m * q + col)).payload PBuf.B 0 (n * n))
      (fun idx d hidx => Heap.payload_zero_getD _ _ _ idx d hidx)
      (fun idx d hidx => Heap.payload_zero_getD _ _ _ idx d hidx)
    refine ⟨_, rfl, ?_, ?_, ?_, ?_⟩
    · intro i k hi hk
      simp only [List.foldl_append, List.foldl_cons, List.foldl_nil]
      rw [k1 i k hi hk, hC i k hi hk]
    · simp only [List.flatMap_append, List.flatMap_cons, List.flatMap_nil, List.append_nil]
      rw [hT, List.append_assoc]
    · funext idx
      rw [k2 PBuf.A idx (by decide) (by decide) (by decide)]
      exact congrFun hA idx
    · funext idx
      rw [k2 PBuf.B idx (by decide) (by decide) (by decide)]
      exact congrFun hB idx

/-- Adding `n` products one at a time, over a commutative ring. -/
theorem dotAcc_eq_sum {α : Type} [CommRing α] (n : Nat) (a b : Nat → α) (i k : Nat) (c : α) :
    dotAcc n a b i k c = c + ∑ l ∈ Finset.range n, a (i * n + l) * b (l * n + k) :=
  foldl_add_eq_sum (fun l => a (i * n + l) * b (l * n + k)) c n

/-- Accumulating `m` block products from zero, over a commutative ring. -/
theorem foldl_dotAcc_eq_sum {α : Type} [CommRing α] (n m : Nat) (a b : Nat → Nat → α)
    (i k : Nat) :
    (List.range m).foldl (fun c j => dotAcc n (a j) (b j) i k c) 0
      = ∑ j ∈ Finset.range m, ∑ l ∈ Finset.range n, a j (i * n + l) * b j (l * n + k) := by
  have e : (fun c j => dotAcc n (a j) (b j) i k c)
      = fun c j => c + ∑ l ∈ Finset.range n, a j (i * n + l) * b j (l * n + k) := by
    funext c j
    exact dotAcc_eq_sum n (a j) (b j) i k c
  rw [e, foldl_add_eq_sum, zero_add]

/-- Entry `(i, k)` of a sum of products of blocks. -/
theorem sum_block_mul_apply {ι κ α : Type} [CommRing α] (n m : Nat) (ha : Nat → Heap ι α)
    (hb : Nat → Heap κ α) (pa : ι) (pb : κ) (i k : Fin n) :
    (∑ j ∈ Finset.range m, (ha j).block n pa * (hb j).block n pb) i k
      = ∑ j ∈ Finset.range m, ∑ l ∈ Finset.range n,
          (ha j).cell pa (i.val * n + l) * (hb j).cell pb (l * n + k.val) := by
  rw [Matrix.sum_apply]
  apply Finset.sum_congr rfl
  intro j _
  rw [Matrix.mul_apply]
  simp only [Heap.block, Matrix.of_apply]
  exact Fin.sum_univ_eq_sum_range
    (fun l => (ha j).cell pa (i.val * n + l) * (hb j).cell pb (l * n + k.val)) n

/-- The function `par_matmat` returns on every process of a `q × q` grid, and
entry `(i, k)` of its result at `(row, col)` is zero with the products of the
blocks `A_{row,j}`, `B_{j,col}` accumulated in the order `j = 0, ..., q-1`,
each entry by entry as `matmat` does. -/
theorem par_matmat_fold {α : Type} [Add α] [Mul α] [Zero α] (q n : Nat)
    (input : Nat → Heap PBuf α) (row col : Nat) (hrow : row < q) (hcol : col < q) :
    ∃ st, par_matmat n (q * q) input (row * q + col) = some st
      ∧ (∀ i k, i < n → k < n → st.heap.cell PBuf.C (i * n + k)
          = (List.range q).foldl
              (fun c j => dotAcc n ((input (row * q + j)).cell PBuf.A)
                ((input (j * q + col)).cell PBuf.B) i k c) 0)
      ∧ st.trace
          = (parPost n q ((row * q + col : Nat) : Int) (input (row * q + col))).trace
            ++ (List.range q).flatMap (fun j =>
              [Call.Recv PBuf.recv_A (n * n) ((row * q + j : Nat) : Int) 1234,
               Call.Recv PBuf.recv_B (n * n) ((j * q + col : Nat) : Int) 4321,
               Call.matmat PBuf.recv_A PBuf.recv_B PBuf.C])
            ++ [Call.free PBuf.recv_A, Call.free PBuf.recv_B,
                Call.Waitall q Req.a_req, Call.Waitall q Req.b_req,
                Call.free PBuf.a_send_buf, Call.free PBuf.b_send_buf,
                Call.freeReq Req.a_req, Call.freeReq Req.b_req]
      ∧ st.heap.cell PBuf.A = (input (row * q + col)).cell PBuf.A
      ∧ st.heap.cell PBuf.B = (input (row * q + col)).cell PBuf.B := by
  unfold par_matmat parGrid
  rw [Nat.sqrt_eq, if_pos (rowMajor_lt q row col hrow hcol)]
  simp only []
  unfold parRecvLoop
  rw [Int.toNat_natCast]
  obtain ⟨st, e, hC, hT, hA, hB⟩ := parRecvLoop_spec n q row col hrow hcol
    (fun s => if s < q * q then some (parPost n q s (input s)).posted else none) input
    (fun s hs => by
      beta_reduce
      rw [if_pos hs, (parPost_spec n q s (input s)).1, Int.toNat_natCast]
      rfl)
    (parPost n q ((row * q + col : Nat) : Int) (input (row * q + col))) q (le_refl q)
  obtain ⟨-, -, p3, p4, p5⟩ := parPost_spec n q ((row * q + col : Nat) : Int)
    (input (row * q + col))
  rw [e]
  refine ⟨parExit q st, rfl, ?_, ?_, ?_, ?_⟩
  · intro i k hi hk
    show st.heap.cell PBuf.C (i * n + k) = _
    rw [hC i k hi hk, p3 _ (rowMajor_lt n i k hi hk)]
  · show st.trace ++ _ = _
    rw [hT]
  · show st.heap.cell PBuf.A = _
    rw [hA, p4]
  · show st.heap.cell PBuf.B = _
    rw [hB, p5]

/-- Entry `(i, k)` of the block that `par_matmat` returns at `(row, col)`,
over a commutative ring. -/
theorem par_matmat_entry_sum {α : Type} [CommRing α] (q n : Nat)
    (input : Nat → Heap PBuf α) (row col : Nat) (hrow : row < q) (hcol : col < q) :
    ∃ st, par_matmat n (q * q) input (row * q + col) = some st
      ∧ ∀ i k, i < n → k < n → st.heap.cell PBuf.C (i * n + k)
          = ∑ j ∈ Finset.range q, ∑ l ∈ Finset.range n,
              (input (row * q + j)).cell PBuf.A (i * n + l)
                * (input (j * q + col)).cell PBuf.B (l * n + k) := by
  obtain ⟨st, e, hC, -⟩ := par_matmat_fold q n input row col hrow hcol
  refine ⟨st, e, ?_⟩
  intro i k hi hk
  rw [hC i k hi hk]
  exact foldl_dotAcc_eq_sum n q (fun j => (input (row * q + j)).cell PBuf.A)
    (fun j => (input (j * q + col)).cell PBuf.B) i k

/-- C2: for every grid dimension `q` (a process exists only when `q ≥ 1`),
block size `n` and assignment of blocks to the `q × q` processes,
`par_matmat` returns at every process `(row, col)`, `row, col < q`, and the
block `C` it returns equals `Σ_{j<q} A_{row,j} · B_{j,col}`, where `A_{row,j}`
is the block of process `(row, j)` and `B_{j,col}` that of `(j, col)`
(matrix products over a commutative ring). -/
theorem par_matmat_correct {α : Type} [CommRing α] (q n : Nat)
    (input : Nat → Heap PBuf α) (row col : Nat) (hrow : row < q) (hcol : col < q) :
    ∃ st, par_matmat n (q * q) input (row * q + col) = some st
      ∧ st.heap.block n PBuf.C
          = ∑ j ∈ Finset.range q,
              (input (row * q + j)).block n PBuf.A * (input (j * q + col)).block n PBuf.B := by
  obtain ⟨st, e, hC⟩ := par_matmat_entry_sum q n input row col hrow hcol
  refine ⟨st, e, ?_⟩
  ext i k
  rw [sum_block_mul_apply n q (fun j => input (row * q + j)) (fun j => input (j * q + col))]
  simp only [Heap.block, Matrix.of_apply]
  exact hC i.val k.val i.isLt k.isLt

/-- C2 on the 3 × 3 grid with 1 × 1 blocks, at process (0, 1). -/
theorem par_matmat_correct_witness :
    (0 < 3 ∧ 1 < 3)
    ∧ ∃ st, par_matmat 1 (3 * 3) (parInput block3 block3 0) (0 * 3 + 1) = some st
      ∧ st.heap.block 1 PBuf.C
          = ∑ j ∈ Finset.range 3,
              (parInput block3 block3 0 (0 * 3 + j)).block 1 PBuf.A
                * (parInput block3 block3 0 (j * 3 + 1)).block 1 PBuf.B :=
  ⟨⟨by decide, by decide⟩,
    par_matmat_correct 3 1 (parInput block3 block3 0) 0 1 (by decide) (by decide)⟩

/-! ## Cannon's algorithm -/

theorem zeroC_row {ι α : Type} [DecidableEq ι] [Zero α] (n : Nat) (C : ι) (i : Nat)
    (h : Heap ι α) (m : Nat) (p : ι) (idx : Nat) :
    ((List.range m).foldl (fun h j => h.store C (i * n + j) 0) h).cell p idx
      = if p = C ∧ i * n ≤ idx ∧ idx < i * n + m then 0 else h.cell p idx := by
  induction m with
  | zero =>
    rw [if_neg (by omega)]
    rfl
  | succ m ih =>
    rw [List.range_succ, List.foldl_append]
    simp only [List.foldl_cons, List.foldl_nil]
    rw [Heap.store_cell, ih]
    by_cases hp : p = C
    · by_cases hk : idx = i * n + m
      · rw [if_pos ⟨hp, hk⟩, if_pos ⟨hp, by omega, by omega⟩]
      · rw [if_neg (fun hh => hk hh.2)]
        by_cases hr : i * n ≤ idx ∧ idx < i * n + m
        · rw [if_pos ⟨hp, hr⟩, if_pos ⟨hp, by omega, by omega⟩]
        · rw [if_neg (fun hh => hr hh.2), if_neg (fun hh => hr ⟨hh.2.1, by omega⟩)]
    · rw [if_neg (fun hh => hp hh.1), if_neg (fun hh => hp hh.1), if_neg (fun hh => hp hh.1)]

theorem zeroC_loop {ι α : Type} [DecidableEq ι] [Zero α] (n : Nat) (C : ι) (h : Heap ι α)
    (m : Nat) (p : ι) (idx : Nat) :
    ((List.range m).foldl
        (fun h i => (List.range n).foldl (fun h j => h.store C (i * n + j) 0) h) h).cell p idx
      = if p = C ∧ idx < m * n then 0 else h.cell p idx := by
  induction m with
  | zero => simp
  | succ m ih =>
    rw [List.range_succ, List.foldl_append]
    simp only [List.foldl_cons, List.foldl_nil]
    rw [zeroC_row, ih, Nat.succ_mul]
    by_cases hp : p = C
    · subst hp
      simp only [true_and]
      split_ifs <;> first | rfl | omega
    · rw [if_neg (fun hh => hp hh.1), if_neg (fun hh => hp hh.1), if_neg (fun hh => hp hh.1)]

/-- Every cell after the zeroing of `C`. -/
theorem zeroC_cell {ι α : Type} [DecidableEq ι] [Zero α] (n : Nat) (C : ι) (h : Heap ι α)
    (p : ι) (idx : Nat) :
    (zeroC n C h).cell p idx = if p = C ∧ idx < n * n then 0 else h.cell p idx :=
  zeroC_loop n C h n p idx

/-- Matching among the two messages of one exchange: the A message. -/
theorem matchMsg_pair_a {α : Type} (mA mB : Msg α) (me tag : Int) (hd : mA.dest = me)
    (ht : mA.tag = tag) : matchMsg [mA, mB] me tag = some mA := by
  unfold matchMsg
  simp [hd, ht]

/-- Matching among the two messages of one exchange: the B message. -/
theorem matchMsg_pair_b {α : Type} (mA mB : Msg α) (me tag : Int) (hne : mA.tag ≠ tag)
    (hd : mB.dest = me) (ht : mB.tag = tag) : matchMsg [mA, mB] me tag = some mB := by
  unfold matchMsg
  simp [hd, ht, hne]

/-- An exchange completes when both sources exist, enter it with the same
tags and address their sends to the receiver. -/
theorem exchange_eq {α : Type} (n num_procs : Nat) (peers : Int → Peers)
    (world : Nat → Option (CannonProc α)) (rank sa sb : Nat) (st stA stB : CannonProc α)
    (hw : world rank = some st) (hwA : world sa = some stA) (hwB : world sb = some stB)
    (hsa : sa < num_procs) (hsb : sb < num_procs)
    (hra : (peers rank).recv_a = sa) (hrb : (peers rank).recv_b = sb)
    (hda : (peers sa).send_a = rank) (hdb : (peers sb).send_b = rank)
    (hta : stA.tag_a = st.tag_a) (htb : stB.tag_b = st.tag_b) (htab : stB.tag_a ≠ st.tag_b) :
    exchange n num_procs peers world rank
      = some { st with
          heap := (st.heap.recvInto st.recv_A (n * n)
              (stA.heap.payload stA.send_A 0 (n * n))).recvInto st.recv_B (n * n)
              (stB.heap.payload stB.send_B 0 (n * n))
          trace := st.trace ++ st.calls n (peers rank) } := by
  unfold exchange
  rw [hw]
  simp only [hra, hrb]
  rw [mpiRecv_of_posted num_procs _ sa rank st.tag_a (stA.posted n (peers sa)) hsa
      (by rw [hwA]; rfl),
    mpiRecv_of_posted num_procs _ sb rank st.tag_b (stB.posted n (peers sb)) hsb
      (by rw [hwB]; rfl)]
  unfold CannonProc.posted
  rw [matchMsg_pair_a _ _ _ _ hda hta, matchMsg_pair_b _ _ _ _ htab hdb htb]
  rfl

/-- Shifting down and then up by the same amount returns to the start. -/
theorem wrapUp_wrapDown (q c s : Int) (hc0 : 0 ≤ c) (hc : c < q) :
    wrapUp q (wrapDown q c s) s = c := by
  unfold wrapUp wrapDown
  simp only
  split_ifs <;> omega

/-- A coordinate of the grid as a natural number. -/
theorem wrapDown_nat (q c s : Nat) (hc : c < q) (hs : s ≤ q) :
    ∃ x : Nat, x < q ∧ wrapDown q c s = x := by
  obtain ⟨h0, h1⟩ := wrapDown_range q c s (Int.natCast_nonneg _) (by exact_mod_cast hc)
    (Int.natCast_nonneg _) (by exact_mod_cast hs)
  refine ⟨(wrapDown q c s).toNat, ?_, ?_⟩
  · omega
  · omega

/-- Pairing of the skew: the rank that `(r, c)` receives A from sends its A to
`(r, c)`, and likewise for B. -/
theorem skew_pairing (q r c : Nat) (hr : r < q) (hc : c < q) :
    ∃ ca rb : Nat, ca < q ∧ rb < q
      ∧ (skewPeers q ((r * q + c : Nat) : Int)).recv_a = ((r * q + ca : Nat) : Int)
      ∧ (skewPeers q ((r * q + c : Nat) : Int)).recv_b = ((rb * q + c : Nat) : Int)
      ∧ (skewPeers q ((r * q + ca : Nat) : Int)).send_a = ((r * q + c : Nat) : Int)
      ∧ (skewPeers q ((rb * q + c : Nat) : Int)).send_b = ((r * q + c : Nat) : Int) := by
  obtain ⟨ca, hca, eca⟩ := wrapDown_nat q c r hc (le_of_lt hr)
  obtain ⟨rb, hrb, erb⟩ := wrapDown_nat q r c hr (le_of_lt hc)
  have ua := wrapUp_wrapDown q c r (Int.natCast_nonneg _) (by exact_mod_cast hc)
  have ub := wrapUp_wrapDown q r c (Int.natCast_nonneg _) (by exact_mod_cast hr)
  rw [eca] at ua
  rw [erb] at ub
  refine ⟨ca, rb, hca, hrb, ?_, ?_, ?_, ?_⟩
  · simp only [skewPeers, (rank_coords q r c hc).1, (rank_coords q r c hc).2, eca]
    push_cast
    rfl
  · simp only [skewPeers, (rank_coords q r c hc).1, (rank_coords q r c hc).2, erb]
    push_cast
    rfl
  · simp only [skewPeers, (rank_coords q r ca hca).1, (rank_coords q r ca hca).2, ua]
    push_cast
    rfl
  · simp only [skewPeers, (rank_coords q rb c hc).1, (rank_coords q rb c hc).2, ub]
    push_cast
    rfl

/-- Pairing of a pipeline round. -/
theorem round_pairing (q r c : Nat) (hr : r < q) (hc : c < q) :
    ∃ ca rb : Nat, ca < q ∧ rb < q
      ∧ (roundPeers q ((r * q + c : Nat) : Int)).recv_a = ((r * q + ca : Nat) : Int)
      ∧ (roundPeers q ((r * q + c : Nat) : Int)).recv_b = ((rb * q + c : Nat) : Int)
      ∧ (roundPeers q ((r * q + ca : Nat) : Int)).send_a = ((r * q + c : Nat) : Int)
      ∧ (roundPeers q ((rb * q + c : Nat) : Int)).send_b = ((r * q + c : Nat) : Int) := by
  have hq : 1 ≤ q := by omega
  obtain ⟨ca, hca, eca⟩ := wrapDown_nat q c 1 hc hq
  obtain ⟨rb, hrb, erb⟩ := wrapDown_nat q r 1 hr hq
  have ua := wrapUp_wrapDown q c (1 : Nat) (Int.natCast_nonneg _) (by exact_mod_cast hc)
  have ub := wrapUp_wrapDown q r (1 : Nat) (Int.natCast_nonneg _) (by exact_mod_cast hr)
  rw [eca] at ua
  rw [erb] at ub
  rw [Nat.cast_one] at ua ub eca erb
  refine ⟨ca, rb, hca, hrb, ?_, ?_, ?_, ?_⟩
  · simp only [roundPeers, (rank_coords q r c hc).1, (rank_coords q r c hc).2, eca]
    push_cast
    rfl
  · simp only [roundPeers, (rank_coords q r c hc).1, (rank_coords q r c hc).2, erb]
    push_cast
    rfl
  · simp only [roundPeers, (rank_coords q r ca hca).1, (rank_coords q r ca hca).2, ua]
    push_cast
    rfl
  · simp only [roundPeers, (rank_coords q rb c hc).1, (rank_coords q rb c hc).2, ub]
    push_cast
    rfl

theorem heldA_ne (t : Nat) :
    heldA t ≠ CBuf.C ∧ heldA t ≠ CBuf.A ∧ heldA t ≠ CBuf.B := by
  unfold heldA
  split_ifs <;> decide

theorem heldB_ne (t : Nat) :
    heldB t ≠ CBuf.C ∧ heldB t ≠ CBuf.A ∧ heldB t ≠ CBuf.B := by
  unfold heldB
  split_ifs <;> decide

theorem heldA_ne_heldB (t u : Nat) : heldA t ≠ heldB u := by
  unfold heldA heldB
  split_ifs <;> decide

theorem heldA_succ_succ (t : Nat) : heldA (t + 2) = heldA t := by
  unfold heldA
  rw [Nat.add_mod_right]

theorem heldB_succ_succ (t : Nat) : heldB (t + 2) = heldB t := by
  unfold heldB
  rw [Nat.add_mod_right]

theorem heldA_succ_ne (t : Nat) : heldA (t + 1) ≠ heldA t := by
  unfold heldA
  split_ifs <;> first | decide | omega

theorem heldB_succ_ne (t : Nat) : heldB (t + 1) ≠ heldB t := by
  unfold heldB
  split_ifs <;> first | decide | omega

/-- State of every process after the skew and the first multiply. -/
theorem cannonSkew_inv {α : Type} [Add α] [Mul α] [Zero α] (n q : Nat)
    (input : Nat → Heap CBuf α) (rank : Nat) (hrank : rank < q * q) :
    ∃ st, cannonSkew n (q * q) q
        (fun r => if r < q * q then some (cannonEntry n (input r)) else none) rank = some st
      ∧ CannonInv n q input 0 rank st := by
  obtain ⟨hr, hc, hrc⟩ := rank_decompose q rank hrank
  obtain ⟨ca, rb, hca, hrb, e1, e2, e3, e4⟩ := skew_pairing q (rank / q) (rank % q) hr hc
  rw [hrc] at e1 e2 e3 e4
  have hsa := rowMajor_lt q (rank / q) ca hr hca
  have hsb := rowMajor_lt q rb (rank % q) hrb hc
  have hx := exchange_eq n (q * q) (skewPeers q)
    (fun r => if r < q * q then some (cannonEntry n (input r)) else none)
    rank (rank / q * q + ca) (rb * q + rank % q)
    (cannonEntry n (input rank)) (cannonEntry n (input (rank / q * q + ca)))
    (cannonEntry n (input (rb * q + rank % q)))
    (if_pos hrank) (if_pos hsa) (if_pos hsb) hsa hsb e1 e2 e3 e4 rfl rfl
    (by show (1234 : Int) ≠ 4321; decide)
  unfold cannonSkew
  rw [hx]
  obtain ⟨k1, k2, k3, k4⟩ := recv_matmat_cell n CBuf.A2 CBuf.B2 CBuf.C (by decide) (by decide)
    (by decide) (zeroC n CBuf.C (input rank))
    ((input (rank / q * q + ca)).cell CBuf.A) ((input (rb * q + rank % q)).cell CBuf.B)
    ((zeroC n CBuf.C (input (rank / q * q + ca))).payload CBuf.A 0 (n * n))
    ((zeroC n CBuf.C (input (rb * q + rank % q))).payload CBuf.B 0 (n * n))
    (fun idx d hidx => by
      rw [Heap.payload_zero_getD _ _ _ idx d hidx, zeroC_cell,
        if_neg (fun hh => by simp at hh)])
    (fun idx d hidx => by
      rw [Heap.payload_zero_getD _ _ _ idx d hidx, zeroC_cell,
        if_neg (fun hh => by simp at hh)])
  have sA : cannonSrcA q 0 rank = rank / q * q + ca := by
    simp only [cannonSrcA, e1, Int.toNat_natCast]
  have sB : cannonSrcB q 0 rank = rb * q + rank % q := by
    simp only [cannonSrcB, e2, Int.toNat_natCast]
  refine ⟨_, rfl, ?_⟩
  constructor
  · rfl
  · rfl
  · rfl
  · rfl
  · rfl
  · rfl
  · intro idx hidx
    rw [sA]
    exact k3 idx hidx
  · intro idx hidx
    rw [sB]
    exact k4 idx hidx
  · intro i k hi hk
    show _ = dotAcc n ((input (cannonSrcA q 0 rank)).cell CBuf.A)
      ((input (cannonSrcB q 0 rank)).cell CBuf.B) i k 0
    rw [sA, sB]
    have := k1 i k hi hk
    rw [zeroC_cell, if_pos ⟨rfl, rowMajor_lt n i k hi hk⟩] at this
    exact this
  · funext idx
    have := k2 CBuf.A idx (by decide) (by decide) (by decide)
    rw [zeroC_cell, if_neg (fun hh => by simp at hh)] at this
    exact this
  · funext idx
    have := k2 CBuf.B idx (by decide) (by decide) (by decide)
    rw [zeroC_cell, if_neg (fun hh => by simp at hh)] at this
    exact this
  · rfl

/-- One pipeline round takes the state after phase `t` on every process to
the state after phase `t + 1`. -/
theorem cannonRound_inv {α : Type} [Add α] [Mul α] [Zero α] (n q : Nat)
    (input : Nat → Heap CBuf α) (t : Nat) (world : Nat → Option (CannonProc α))
    (hw : ∀ rank, rank < q * q → ∃ st, world rank = some st ∧ CannonInv n q input t rank st)
    (rank : Nat) (hrank : rank < q * q) :
    ∃ st, cannonRound n (q * q) q world rank = some st
      ∧ CannonInv n q input (t + 1) rank st := by
  obtain ⟨hr, hc, hrc⟩ := rank_decompose q rank hrank
  obtain ⟨ca, rb, hca, hrb, e1, e2, e3, e4⟩ := round_pairing q (rank / q) (rank % q) hr hc
  rw [hrc] at e1 e2 e3 e4
  have hsa := rowMajor_lt q (rank / q) ca hr hca
  have hsb := rowMajor_lt q rb (rank % q) hrb hc
  obtain ⟨st, ws, inv⟩ := hw rank hrank
  obtain ⟨stA, wsA, invA⟩ := hw _ hsa
  obtain ⟨stB, wsB, invB⟩ := hw _ hsb
  have hx := exchange_eq n (q * q) (roundPeers q) world rank (rank / q * q + ca)
    (rb * q + rank % q) st stA stB ws wsA wsB hsa hsb e1 e2 e3 e4
    (by rw [invA.tag_a, inv.tag_a]) (by rw [invB.tag_b, inv.tag_b])
    (by rw [invB.tag_a, inv.tag_b]; omega)
  unfold cannonRound
  rw [hx]
  have sA : cannonSrcA q (t + 1) rank = cannonSrcA q t (rank / q * q + ca) := by
    simp only [cannonSrcA, e1, Int.toNat_natCast]
  have sB : cannonSrcB q (t + 1) rank = cannonSrcB q t (rb * q + rank % q) := by
    simp only [cannonSrcB, e2, Int.toNat_natCast]
  obtain ⟨k1, k2, k3, k4⟩ := recv_matmat_cell n (heldA (t + 1)) (heldB (t + 1)) CBuf.C
    (heldA_ne (t + 1)).1 (heldB_ne (t + 1)).1 (heldA_ne_heldB _ _) st.heap
    ((input (cannonSrcA q (t + 1) rank)).cell CBuf.A)
    ((input (cannonSrcB q (t + 1) rank)).cell CBuf.B)
    (stA.heap.payload (heldA t) 0 (n * n)) (stB.heap.payload (heldB t) 0 (n * n))
    (fun idx d hidx => by
      rw [Heap.payload_zero_getD _ _ _ idx d hidx, invA.blockA idx hidx, sA])
    (fun idx d hidx => by
      rw [Heap.payload_zero_getD _ _ _ idx d hidx, invB.blockB idx hidx, sB])
  refine ⟨_, rfl, ?_⟩
  constructor
  · exact inv.recv_A
  · exact inv.recv_B
  · show st.send_A = _
    rw [inv.send_A, heldA_succ_succ]
  · show st.send_B = _
    rw [inv.send_B, heldB_succ_succ]
  · show st.tag_a + 1 = _
    rw [inv.tag_a]
    push_cast
    ring
  · show st.tag_b + 1 = _
    rw [inv.tag_b]
    push_cast
    ring
  · intro idx hidx
    show (matmat n st.recv_A st.recv_B CBuf.C
      ((st.heap.recvInto st.recv_A (n * n) (stA.heap.payload stA.send_A 0 (n * n))).recvInto
        st.recv_B (n * n) (stB.heap.payload stB.send_B 0 (n * n)))).cell _ idx = _
    rw [inv.recv_A, inv.recv_B, invA.send_A, invB.send_B]
    exact k3 idx hidx
  · intro idx hidx
    show (matmat n st.recv_A st.recv_B CBuf.C
      ((st.heap.recvInto st.recv_A (n * n) (stA.heap.payload stA.send_A 0 (n * n))).recvInto
        st.recv_B (n * n) (stB.heap.payload stB.send_B 0 (n * n)))).cell _ idx = _
    rw [inv.recv_A, inv.recv_B, invA.send_A, invB.send_B]
    exact k4 idx hidx
  · intro i k hi hk
    show (matmat n st.recv_A st.recv_B CBuf.C
      ((st.heap.recvInto st.recv_A (n * n) (stA.heap.payload stA.send_A 0 (n * n))).recvInto
        st.recv_B (n * n) (stB.heap.payload stB.send_B 0 (n * n)))).cell _ _ = _
    rw [inv.recv_A, inv.recv_B, invA.send_A, invB.send_B, k1 i k hi hk, inv.result i k hi hk,
      List.range_succ (t + 1), List.foldl_append]
    rfl
  · funext idx
    show (matmat n st.recv_A st.recv_B CBuf.C
      ((st.heap.recvInto st.recv_A (n * n) (stA.heap.payload stA.send_A 0 (n * n))).recvInto
        st.recv_B (n * n) (stB.heap.payload stB.send_B 0 (n * n)))).cell _ _ = _
    rw [inv.recv_A, inv.recv_B, invA.send_A, invB.send_B,
      k2 CBuf.A idx (by decide) (Ne.symm (heldA_ne _).2.1) (Ne.symm (heldB_ne _).2.1),
      inv.frameA]
  · funext idx
    show (matmat n st.recv_A st.recv_B CBuf.C
      ((st.heap.recvInto st.recv_A (n * n) (stA.heap.payload stA.send_A 0 (n * n))).recvInto
        st.recv_B (n * n) (stB.heap.payload stB.send_B 0 (n * n)))).cell _ _ = _
    rw [inv.recv_A, inv.recv_B, invA.send_A, invB.send_B,
      k2 CBuf.B idx (by decide) (Ne.symm (heldA_ne _).2.2) (Ne.symm (heldB_ne _).2.2),
      inv.frameB]
  · show (st.trace ++ st.calls n (roundPeers q rank)) ++ [Call.matmat st.recv_A st.recv_B CBuf.C]
      = _
    unfold cannonTrace
    rw [List.range_succ (t + 1), List.flatMap_append]
    simp only [List.flatMap_cons, List.flatMap_nil, List.append_nil]
    rw [inv.trace, List.append_assoc]
    unfold cannonTrace CannonProc.calls phaseCalls
    rw [inv.recv_A, inv.recv_B, inv.send_A, inv.send_B, inv.tag_a, inv.tag_b]
    push_cast
    rfl

/-- State of every process after the skew and `m` pipeline rounds. -/
theorem cannon_rounds_inv {α : Type} [Add α] [Mul α] [Zero α] (n q : Nat)
    (input : Nat → Heap CBuf α) (m : Nat) (rank : Nat) (hrank : rank < q * q) :
    ∃ st, (List.range m).foldl (fun world _ => cannonRound n (q * q) q world)
        (cannonSkew n (q * q) q
          (fun r => if r < q * q then some (cannonEntry n (input r)) else none)) rank = some st
      ∧ CannonInv n q input m rank st := by
  induction m generalizing rank with
  | zero => exact cannonSkew_inv n q input rank hrank
  | succ m ih =>
    rw [List.range_succ, List.foldl_append]
    exact cannonRound_inv n q input m _ ih rank hrank

/-- The function `cannon` returns on every process of a `q × q` grid, in the
state reached after the skew and `q - 1` rounds, followed by the four `free`
calls. -/
theorem cannon_run {α : Type} [Add α] [Mul α] [Zero α] (n q : Nat)
    (input : Nat → Heap CBuf α) (rank : Nat) (hrank : rank < q * q) :
    ∃ st, cannon n (q * q) input rank = some (cannonExit st)
      ∧ CannonInv n q input (q - 1) rank st := by
  obtain ⟨st, e, inv⟩ := cannon_rounds_inv n q input (q - 1) rank hrank
  refine ⟨st, ?_, inv⟩
  unfold cannon cannonGrid
  rw [Nat.sqrt_eq]
  have hn : ((q : Int) - 1).toNat = q - 1 := by omega
  simp only [hn]
  rw [e]
  rfl

/-! ## Evaluations on small grids -/

/-- On the 3 × 3 grid with 1 × 1 blocks (the matrix 1..9), process (0, 1)
gets 27 from `cannon`, while `Σ_j A_{0,j} · B_{j,1} = 1·2 + 2·5 + 3·8 = 36`. -/
theorem cannon_wrong_on_3x3 :
    (cannon 1 (3 * 3) (cannonInput block3 block3 0) (0 * 3 + 1)).map
        (fun st => st.heap.cell CBuf.C 0) = some 27
    ∧ (∑ j ∈ Finset.range 3,
        ∑ l ∈ Finset.range 1,
          (cannonInput block3 block3 0 (0 * 3 + j)).cell CBuf.A (0 * 1 + l)
            * (cannonInput block3 block3 0 (j * 3 + 1)).cell CBuf.B (l * 1 + 0)) = 36 := by
  constructor
  · rw [cannon, Nat.sqrt_eq]
    decide
  · decide

/-- On the 3 × 3 grid with 1 × 1 blocks, `par_matmat` and `cannon` return
different blocks at process (0, 1): 36 and 27. -/
theorem par_cannon_differ_on_3x3 :
    (par_matmat 1 (3 * 3) (parInput block3 block3 0) (0 * 3 + 1)).map
        (fun st => st.heap.cell PBuf.C 0) = some 36
    ∧ (cannon 1 (3 * 3) (cannonInput block3 block3 0) (0 * 3 + 1)).map
        (fun st => st.heap.cell CBuf.C 0) = some 27 := by
  constructor
  · rw [par_matmat, Nat.sqrt_eq]
    decide
  · rw [cannon, Nat.sqrt_eq]
    decide

/-- With `N = 3` on 9 processes, rank 0 prints the checksum 675, while the
entries of `M · M` sum to 729. -/
theorem checksum_wrong_on_3x3 :
    (main (3 * 3) 3 mem7 0).map (fun out => out.printed) = some (some 675)
    ∧ refChecksum 3 = 729 := by
  constructor
  · rw [main, Nat.sqrt_eq]
    decide
  · decide

/-- With `N = 4` on 4 processes, rank 0 prints the checksum 4944, which is the
sum of the entries of `M · M`. -/
theorem checksum_right_on_2x2 :
    (main (2 * 2) 4 mem7 0).map (fun out => out.printed) = some (some 4944)
    ∧ refChecksum 4 = 4944 := by
  constructor
  · rw [main, Nat.sqrt_eq]
    decide
  · decide

/-! ## The driver -/

theorem mainFill_row (n : Nat) (N row col : Int) (i : Nat) (h : Heap CBuf Int) (m : Nat)
    (p : CBuf) (idx : Nat) :
    ((List.range m).foldl
        (fun h j =>
          (h.store CBuf.A (i * n + j) (((row * n) + i) * N + (col * n) + j + 1)).store
            CBuf.B (i * n + j) (((row * n) + i) * N + (col * n) + j + 1)) h).cell p idx
      = if (p = CBuf.A ∨ p = CBuf.B) ∧ i * n ≤ idx ∧ idx < i * n + m
          then ((row * n) + i) * N + (col * n) + ((idx - i * n : Nat) : Int) + 1
          else h.cell p idx := by
  induction m with
  | zero =>
    rw [if_neg (by omega)]
    rfl
  | succ m ih =>
    rw [List.range_succ, List.foldl_append]
    simp only [List.foldl_cons, List.foldl_nil]
    rw [Heap.store_cell, Heap.store_cell, ih]
    by_cases hk : idx = i * n + m
    · subst hk
      have e : i * n + m - i * n = m := by omega
      by_cases hB : p = CBuf.B
      · rw [if_pos ⟨hB, rfl⟩, if_pos ⟨Or.inr hB, by omega, by omega⟩, e]
      · rw [if_neg (fun hh => hB hh.1)]
        by_cases hA : p = CBuf.A
        · rw [if_pos ⟨hA, rfl⟩, if_pos ⟨Or.inl hA, by omega, by omega⟩, e]
        · have hp : ¬ (p = CBuf.A ∨ p = CBuf.B) := fun hh => hh.elim hA hB
          rw [if_neg (fun hh => hA hh.1), if_neg (fun hh => hp hh.1),
            if_neg (fun hh => hp hh.1)]
    · rw [if_neg (fun hh => hk hh.2), if_neg (fun hh => hk hh.2)]
      by_cases hr : (p = CBuf.A ∨ p = CBuf.B) ∧ i * n ≤ idx ∧ idx < i * n + m
      · rw [if_pos hr, if_pos ⟨hr.1, by omega, by omega⟩]
      · rw [if_neg hr, if_neg (fun hh => hr ⟨hh.1, hh.2.1, by omega⟩)]

theorem mainFill_loop (n : Nat) (N row col : Int) (h : Heap CBuf Int) (m : Nat)
    (p : CBuf) (idx : Nat) :
    ((List.range m).foldl
        (fun h i => (List.range n).foldl
          (fun h j =>
            (h.store CBuf.A (i * n + j) (((row * n) + i) * N + (col * n) + j + 1)).store
              CBuf.B (i * n + j) (((row * n) + i) * N + (col * n) + j + 1)) h) h).cell p idx
      = if (p = CBuf.A ∨ p = CBuf.B) ∧ idx < m * n
          then ((row * n) + ((idx / n : Nat) : Int)) * N + (col * n)
            + ((idx % n : Nat) : Int) + 1
          else h.cell p idx := by
  induction m with
  | zero => simp
  | succ m ih =>
    rw [List.range_succ, List.foldl_append]
    simp only [List.foldl_cons, List.foldl_nil]
    rw [mainFill_row, ih, Nat.succ_mul]
    by_cases hp : p = CBuf.A ∨ p = CBuf.B
    · by_cases h1 : m * n ≤ idx ∧ idx < m * n + n
      · have hdiv : idx / n = m := Nat.div_eq_of_lt_le h1.1 (by rw [Nat.succ_mul]; exact h1.2)
        have hmod : idx % n = idx - m * n := by
          have := Nat.div_add_mod idx n
          rw [hdiv, Nat.mul_comm] at this
          omega
        rw [if_pos ⟨hp, h1⟩, if_pos ⟨hp, h1.2⟩, hdiv, hmod]
      · rw [if_neg (fun hh => h1 hh.2)]
        by_cases h2 : idx < m * n
        · rw [if_pos ⟨hp, h2⟩, if_pos ⟨hp, by omega⟩]
        · rw [if_neg (fun hh => h2 hh.2), if_neg (fun hh => h1 ⟨by omega, hh.2⟩)]
    · rw [if_neg (fun hh => hp hh.1), if_neg (fun hh => hp hh.1), if_neg (fun hh => hp hh.1)]

/-- Every cell after the generation loop of `main`. -/
theorem mainFill_cell (n : Nat) (N row col : Int) (h : Heap CBuf Int) (p : CBuf) (idx : Nat) :
    (mainFill n N row col h).cell p idx
      = if (p = CBuf.A ∨ p = CBuf.B) ∧ idx < n * n
          then ((row * n) + ((idx / n : Nat) : Int)) * N + (col * n)
            + ((idx % n : Nat) : Int) + 1
          else h.cell p idx :=
  mainFill_loop n N row col h n p idx

/-- A reduction to which every rank contributes completes. -/
theorem reduceSum_isSome (num_procs : Nat) (part : Nat → Option Int)
    (h : ∀ r, r < num_procs → ∃ v, part r = some v) :
    ∃ total, reduceSum num_procs part = some total := by
  unfold reduceSum
  induction num_procs with
  | zero => exact ⟨0, rfl⟩
  | succ m ih =>
    obtain ⟨t, ht⟩ := ih (fun r hr => h r (by omega))
    obtain ⟨v, hv⟩ := h m (by omega)
    rw [List.range_succ, List.foldl_append, ht]
    exact ⟨t + v, by simp [hv]⟩

/-- With the grid dimension of a square process count, `cannon` is
`cannonGrid`. -/
theorem cannon_square {α : Type} [Add α] [Mul α] [Zero α] (n q : Nat)
    (input : Nat → Heap CBuf α) : cannon n (q * q) input = cannonGrid n (q * q) q input := by
  unfold cannon
  rw [Nat.sqrt_eq]

/-- On a `q × q` grid with `N * N` a value of `int`, every `int` expression of
lines 280-296 is in range on every process: `n * n ≤ N * N`, `rank_row * N` is
below `N * N` or below the process count, and the largest generated entry is
`N * N`. -/
theorem mainIntsFit_of_le (q N rank : Nat) (hrank : rank < q * q)
    (hP : ((q * q : Nat) : Int) ≤ INT_MAX) (hN : (N : Int) * N ≤ INT_MAX) :
    mainIntsFit (N / q) N (rank_row q rank) (rank_col q rank) = true := by
  have hq : 0 < q := by
    rcases Nat.eq_zero_or_pos q with h0 | h0
    · subst h0; simp at hrank
    · exact h0
  have hrow : rank / q + 1 ≤ q := Nat.div_lt_of_lt_mul hrank
  have hcol : rank % q + 1 ≤ q := Nat.mod_lt _ hq
  have hqn : q * (N / q) ≤ N := Nat.mul_div_le N q
  have hnN : N / q ≤ N := Nat.div_le_self N q
  have hP2 : q * q ≤ 2147483647 := by
    unfold INT_MAX at hP
    exact_mod_cast hP
  have hN2 : N * N ≤ 2147483647 := by
    unfold INT_MAX at hN
    exact_mod_cast hN
  have hblock : N / q * (N / q) ≤ 2147483647 := le_trans (Nat.mul_le_mul hnN hnN) hN2
  have hfirst : rank / q * N ≤ 2147483647 := by
    rcases Nat.lt_or_ge N q with hlt | hge
    · exact le_trans (Nat.mul_le_mul (by omega) (le_of_lt hlt)) hP2
    · exact le_trans (Nat.mul_le_mul (by omega) (le_refl N)) hN2
  have hentry : ∀ i j, i < N / q → j < N / q →
      (rank / q * (N / q) + i) * N + rank % q * (N / q) + j + 1 ≤ 2147483647 := by
    intro i j hi hj
    have h1 : (rank / q + 1) * (N / q) ≤ q * (N / q) := Nat.mul_le_mul_right _ hrow
    have h2 : (rank % q + 1) * (N / q) ≤ q * (N / q) := Nat.mul_le_mul_right _ hcol
    rw [Nat.succ_mul] at h1 h2
    have h3 : rank / q * (N / q) + i + 1 ≤ N := by omega
    have h4 : rank % q * (N / q) + j + 1 ≤ N := by omega
    have h5 : (rank / q * (N / q) + i + 1) * N ≤ N * N := Nat.mul_le_mul_right _ h3
    rw [Nat.succ_mul] at h5
    omega
  rw [rank_row_natCast, rank_col_natCast]
  unfold mainIntsFit fitsInt INT_MAX
  simp only [Bool.and_eq_true, decide_eq_true_eq, List.all_eq_true, List.mem_range]
  refine ⟨⟨⟨?_, ?_⟩, ⟨?_, ?_⟩⟩, fun i hi j hj => ⟨?_, ?_⟩⟩
  · exact le_trans (by decide) (Int.natCast_nonneg (N / q * (N / q)))
  · exact_mod_cast hblock
  · exact le_trans (by decide) (Int.natCast_nonneg (rank / q * N))
  · exact_mod_cast hfirst
  · exact le_trans (by decide)
      (Int.natCast_nonneg ((rank / q * (N / q) + i) * N + rank % q * (N / q) + j + 1))
  · exact_mod_cast hentry i j hi hj

/-- On `q * q` processes `main` returns on every rank, whatever `N` with
`N * N` a value of `int` is: it runs `cannon` with block size `N / q` on the
generated blocks and leaves status 0. -/
theorem main_run (q N : Nat) (mem : Nat → Heap CBuf Int) (rank : Nat) (hrank : rank < q * q)
    (hP : ((q * q : Nat) : Int) ≤ INT_MAX) (hN : (N : Int) * N ≤ INT_MAX) :
    ∃ st out, main (q * q) N mem rank = some out
      ∧ out.status = 0
      ∧ out.proc = cannonExit st
      ∧ out.sum_C = mat_sum (N / q) CBuf.C st.heap
      ∧ CannonInv (N / q) q (mainInput (N / q) N q mem) (q - 1) rank st := by
  obtain ⟨st, e, inv⟩ := cannon_run (N / q) q (mainInput (N / q) N q mem) rank hrank
  obtain ⟨total, ht⟩ := reduceSum_isSome (q * q)
    (fun r => (cannon (N / q) (q * q) (mainInput (N / q) N q mem) r).map
      fun s => mat_sum (N / q) CBuf.C s.heap)
    (fun r hr => by
      obtain ⟨s, es, -⟩ := cannon_run (N / q) q (mainInput (N / q) N q mem) r hr
      exact ⟨_, by beta_reduce; rw [es]; rfl⟩)
  have hn : (Int.tdiv (N : Int) (q : Int)).toNat = N / q := by
    rw [← Int.ofNat_tdiv, Int.toNat_natCast]
  have hfit : (List.range (q * q)).all
      (fun r => mainIntsFit (N / q) N (rank_row q r) (rank_col q r)) = true :=
    List.all_eq_true.2 fun r hr => mainIntsFit_of_le q N r (List.mem_range.1 hr) hP hN
  refine ⟨st, MainOut.mk 0 (mat_sum (N / q) CBuf.C (cannonExit st).heap)
    (if rank = 0 then some total else none) (cannonExit st), ?_, rfl, rfl, rfl, inv⟩
  unfold main mainGrid
  rw [Nat.sqrt_eq]
  simp only [hn]
  rw [if_pos hfit, ← cannon_square, e, ht]

/-- With `N = 46341` on one process, `n*n = 2147488281` is not a value of
`int` (lines 280-282): the model assigns the process no return, so the bound
on `N` in the results below is needed. -/
theorem main_int_overflow (mem : Nat → Heap CBuf Int) : main (1 * 1) 46341 mem 0 = none := by
  have h : fitsInt ((((Int.tdiv ((46341 : Nat) : Int) ((1 : Nat) : Int)).toNat : Nat) : Int)
      * (((Int.tdiv ((46341 : Nat) : Int) ((1 : Nat) : Int)).toNat : Nat) : Int)) = false := by
    decide
  have hr : List.range (1 * 1) = [0] := rfl
  unfold main mainGrid
  rw [Nat.sqrt_eq, hr]
  simp only [List.all_cons, List.all_nil, mainIntsFit, h, Bool.false_and, Bool.and_true]
  rfl

/-- C6: with `N = 4` on 4 processes (`n = 2`), whatever the uninitialised
memory holds, process (0, 0) holds the A block `[[1,2],[5,6]]` and the block
`C` that `cannon` returns to it is `[[90,100],[202,228]]`, the top-left block
of `M · M` for the matrix `M` with entries 1..16. -/
theorem scenario_N4_q2 (mem : Nat → Heap CBuf Int) :
    ∃ out, main (2 * 2) 4 mem 0 = some out
      ∧ (List.range 4).map (out.proc.heap.cell CBuf.A) = [1, 2, 5, 6]
      ∧ (List.range 4).map (out.proc.heap.cell CBuf.C) = [90, 100, 202, 228] := by
  obtain ⟨st, out, e, -, hp, -, inv⟩ := main_run 2 4 mem 0 (by decide) (by decide) (by decide)
  refine ⟨out, e, ?_, ?_⟩
  · rw [hp]
    show (List.range 4).map (st.heap.cell CBuf.A) = _
    rw [inv.frameA]
    simp [List.range_succ, mainInput, mainFill_cell, rank_row, rank_col]
  · rw [hp]
    show (List.range 4).map (st.heap.cell CBuf.C) = _
    have sA0 : cannonSrcA (2 : Int) 0 0 = 0 := by decide
    have sA1 : cannonSrcA (2 : Int) 1 0 = 1 := by decide
    have sB0 : cannonSrcB (2 : Int) 0 0 = 0 := by decide
    have sB1 : cannonSrcB (2 : Int) 1 0 = 2 := by decide
    have h00 := inv.result 0 0 (by decide) (by decide)
    have h01 := inv.result 0 1 (by decide) (by decide)
    have h10 := inv.result 1 0 (by decide) (by decide)
    have h11 := inv.result 1 1 (by decide) (by decide)
    simp [List.range_succ, dotAcc, sA0, sA1, sB0, sB1, mainInput, mainFill_cell, rank_row,
      rank_col] at h00 h01 h10 h11
    simp [List.range_succ, h00, h01, h10, h11]
    decide

/-! ## Calls made by a run -/

theorem phaseCalls_counts (n : Nat) (sq_num_procs : Int) (rank s : Nat) :
    (phaseCalls n sq_num_procs rank s).countP Call.isSend = 2
    ∧ (phaseCalls n sq_num_procs rank s).countP Call.isRecv = 2
    ∧ (phaseCalls n sq_num_procs rank s).countP Call.isMatmat = 1 := by
  cases s <;> exact ⟨rfl, rfl, rfl⟩

/-- Each phase of `cannon` posts two sends and two receives and multiplies
once. -/
theorem cannonTrace_counts (n : Nat) (sq_num_procs : Int) (rank t : Nat) :
    (cannonTrace n sq_num_procs rank t).countP Call.isSend = 2 * (t + 1)
    ∧ (cannonTrace n sq_num_procs rank t).countP Call.isRecv = 2 * (t + 1)
    ∧ (cannonTrace n sq_num_procs rank t).countP Call.isMatmat = t + 1 := by
  unfold cannonTrace
  induction t with
  | zero =>
    simp only [Nat.zero_add, List.range_succ, List.range_zero, List.nil_append,
      List.flatMap_cons, List.flatMap_nil, List.append_nil]
    exact phaseCalls_counts n sq_num_procs rank 0
  | succ t ih =>
    obtain ⟨i1, i2, i3⟩ := ih
    obtain ⟨p1, p2, p3⟩ := phaseCalls_counts n sq_num_procs rank (t + 1)
    rw [List.range_succ (t + 1), List.flatMap_append]
    simp only [List.flatMap_cons, List.flatMap_nil, List.append_nil, List.countP_append]
    rw [i1, i2, i3, p1, p2, p3]
    refine ⟨by omega, by omega, by omega⟩

/-- The calls of a process of `cannon` on a `q × q` grid: the skew, `q - 1`
rounds and the four `free` calls. -/
theorem cannon_trace {α : Type} [Add α] [Mul α] [Zero α] (n q : Nat)
    (input : Nat → Heap CBuf α) (rank : Nat) (hrank : rank < q * q) :
    ∃ st, cannon n (q * q) input rank = some st
      ∧ st.trace = cannonTrace n q rank (q - 1)
          ++ [Call.free (heldA q), Call.free (heldB q),
              Call.free (heldA (q - 1)), Call.free (heldB (q - 1))] := by
  obtain ⟨st, e, inv⟩ := cannon_run n q input rank hrank
  have hq : q - 1 + 1 = q := by
    rcases Nat.eq_zero_or_pos q with h0 | h0
    · subst h0; simp at hrank
    · omega
  refine ⟨cannonExit st, e, ?_⟩
  unfold cannonExit
  simp only
  rw [inv.trace, inv.recv_A, inv.recv_B, inv.send_A, inv.send_B, hq]

/-- With `N = 3` on 4 processes (`q = 2` does not divide 3), `main` returns
status 0 on rank 0 after 4 sends and 2 multiplies; on 2 processes (not a
square) rank 0 gets through `cannon` with 2 sends and 1 multiply and `main`
returns on neither rank. -/
theorem main_accepts_bad_configuration :
    (¬ (2 ∣ 3)
      ∧ (main (2 * 2) 3 mem7 0).map
          (fun out => (out.status, out.proc.trace.countP Call.isSend,
            out.proc.trace.countP Call.isMatmat)) = some (0, 4, 2))
    ∧ (Nat.sqrt 2 * Nat.sqrt 2 ≠ 2
      ∧ (cannon 2 2 (mainInput 2 2 1 mem7) 0).map
          (fun st => (st.trace.countP Call.isSend, st.trace.countP Call.isMatmat))
            = some (2, 1)
      ∧ (main 2 2 mem7 0).isSome = false
      ∧ (main 2 2 mem7 1).isSome = false) := by
  have h2 : Nat.sqrt 2 = 1 := by
    symm
    rw [Nat.eq_sqrt]
    decide
  refine ⟨⟨by decide, ?_⟩, ?_, ?_, ?_, ?_⟩
  · rw [main, Nat.sqrt_eq]
    decide
  · rw [h2]
    decide
  · rw [cannon, h2]
    decide
  · rw [main, h2]
    decide
  · rw [main, h2]
    decide

/-- C7 as the code behaves: `main` checks nothing.  On `q * q` processes (a
process count is an `int`) and for every `N ≥ 0` with `N * N` a value of
`int`, divisible by `q` or not, every process runs `cannon` with block size
`N / q` (integer division): it posts `2 * q` sends and `2 * q` receives,
multiplies `q` times, and `main` returns status 0. -/
theorem main_checks_nothing (q N : Nat) (mem : Nat → Heap CBuf Int) (rank : Nat)
    (hrank : rank < q * q) (hP : ((q * q : Nat) : Int) ≤ INT_MAX)
    (hN : (N : Int) * N ≤ INT_MAX) :
    ∃ out, main (q * q) N mem rank = some out
      ∧ out.status = 0
      ∧ out.proc.trace = cannonTrace (N / q) q rank (q - 1)
          ++ [Call.free (heldA q), Call.free (heldB q),
              Call.free (heldA (q - 1)), Call.free (heldB (q - 1))]
      ∧ out.proc.trace.countP Call.isSend = 2 * q
      ∧ out.proc.trace.countP Call.isRecv = 2 * q
      ∧ out.proc.trace.countP Call.isMatmat = q := by
  have hq : q - 1 + 1 = q := by
    rcases Nat.eq_zero_or_pos q with h0 | h0
    · subst h0; simp at hrank
    · omega
  obtain ⟨st, out, e, hs, hp, -, inv⟩ := main_run q N mem rank hrank hP hN
  obtain ⟨c1, c2, c3⟩ := cannonTrace_counts (N / q) q rank (q - 1)
  have ht : out.proc.trace = cannonTrace (N / q) q rank (q - 1)
      ++ [Call.free (heldA q), Call.free (heldB q),
          Call.free (heldA (q - 1)), Call.free (heldB (q - 1))] := by
    rw [hp]
    unfold cannonExit
    simp only
    rw [inv.trace, inv.recv_A, inv.recv_B, inv.send_A, inv.send_B, hq]
  refine ⟨out, e, hs, ht, ?_, ?_, ?_⟩
  · rw [ht, List.countP_append, c1, hq]
    rfl
  · rw [ht, List.countP_append, c2, hq]
    rfl
  · rw [ht, List.countP_append, c3, hq]
    rfl

/-- C7 as the code behaves, with `N = 3` on 4 processes. -/
theorem main_checks_nothing_witness :
    (0 < 2 * 2 ∧ (((2 * 2 : Nat) : Int) ≤ INT_MAX) ∧ ((3 : Nat) : Int) * (3 : Nat) ≤ INT_MAX)
    ∧ ∃ out, main (2 * 2) 3 mem7 0 = some out
      ∧ out.status = 0
      ∧ out.proc.trace = cannonTrace (3 / 2) 2 0 (2 - 1)
          ++ [Call.free (heldA 2), Call.free (heldB 2),
              Call.free (heldA (2 - 1)), Call.free (heldB (2 - 1))]
      ∧ out.proc.trace.countP Call.isSend = 2 * 2
      ∧ out.proc.trace.countP Call.isRecv = 2 * 2
      ∧ out.proc.trace.countP Call.isMatmat = 2 :=
  ⟨⟨by decide, by decide, by decide⟩,
    main_checks_nothing 2 3 mem7 0 (by decide) (by decide) (by decide)⟩

/-- On a single process with 1 × 1 blocks, `cannon` and `par_matmat` each post
two sends and two receives. -/
theorem single_process_posts_messages :
    (cannon 1 (1 * 1) (cannonInput block3 block3 0) 0).map
        (fun st => (st.trace.countP Call.isSend, st.trace.countP Call.isRecv,
          st.trace.countP Call.isMatmat)) = some (2, 2, 1)
    ∧ (par_matmat 1 (1 * 1) (parInput block3 block3 0) 0).map
        (fun st => (st.trace.countP Call.isSend, st.trace.countP Call.isRecv,
          st.trace.countP Call.isMatmat)) = some (2, 2, 1) := by
  constructor
  · rw [cannon, Nat.sqrt_eq]
    decide
  · rw [par_matmat, Nat.sqrt_eq]
    decide

/-- C8 as the code behaves: on a single process, `cannon` and `par_matmat`
each call `matmat` exactly once and run no pipeline round, but both exchange
messages with rank 0 itself.  `cannon` carries out the skew: two receives
from rank 0, two sends to rank 0, four waits, the multiply, four `free`
calls.  `par_matmat` posts two sends to rank 0 and two blocking receives from
rank 0 before its multiply. -/
theorem single_process_calls {α : Type} [Add α] [Mul α] [Zero α] (n : Nat)
    (inputC : Nat → Heap CBuf α) (inputP : Nat → Heap PBuf α) :
    (∃ st, cannon n (1 * 1) inputC 0 = some st
      ∧ st.trace =
        [Call.Irecv CBuf.A2 (n * n) 0 1234, Call.Irecv CBuf.B2 (n * n) 0 4321,
         Call.Isend CBuf.A 0 (n * n) 0 1234, Call.Isend CBuf.B 0 (n * n) 0 4321,
         Call.Wait Req.send_req_a, Call.Wait Req.recv_req_a,
         Call.Wait Req.send_req_b, Call.Wait Req.recv_req_b,
         Call.matmat CBuf.A2 CBuf.B2 CBuf.C,
         Call.free CBuf.A3, Call.free CBuf.B3, Call.free CBuf.A2, Call.free CBuf.B2])
    ∧ (∃ st, par_matmat n (1 * 1) inputP 0 = some st
      ∧ st.trace =
        [Call.Isend PBuf.a_send_buf 0 (n * n) 0 1234,
         Call.Isend PBuf.b_send_buf 0 (n * n) 0 4321,
         Call.Recv PBuf.recv_A (n * n) 0 1234, Call.Recv PBuf.recv_B (n * n) 0 4321,
         Call.matmat PBuf.recv_A PBuf.recv_B PBuf.C,
         Call.free PBuf.recv_A, Call.free PBuf.recv_B,
         Call.Waitall 1 Req.a_req, Call.Waitall 1 Req.b_req,
         Call.free PBuf.a_send_buf, Call.free PBuf.b_send_buf,
         Call.freeReq Req.a_req, Call.freeReq Req.b_req]) := by
  constructor
  · obtain ⟨st, e, ht⟩ := cannon_trace n 1 inputC 0 (by decide)
    refine ⟨st, e, ?_⟩
    rw [ht]
    rfl
  · obtain ⟨st, e, -, ht, -⟩ := par_matmat_fold 1 n inputP 0 0 (by decide) (by decide)
    refine ⟨st, e, ?_⟩
    rw [ht, (parPost_spec n ((1 : Nat) : Int) ((0 * 1 + 0 : Nat) : Int) (inputP (0 * 1 + 0))).2.1]
    simp [List.range_succ]
    decide

/-- Entry `(i, k)` of the block that `cannon` returns at `rank`, over a
commutative ring: the sum over the phases of the products of the blocks held. -/
theorem cannon_entry_sum {α : Type} [CommRing α] (n q : Nat) (input : Nat → Heap CBuf α)
    (rank : Nat) (hrank : rank < q * q) :
    ∃ st, cannon n (q * q) input rank = some st
      ∧ ∀ i k, i < n → k < n → st.heap.cell CBuf.C (i * n + k)
          = ∑ s ∈ Finset.range q, ∑ l ∈ Finset.range n,
              (input (cannonSrcA q s rank)).cell CBuf.A (i * n + l)
                * (input (cannonSrcB q s rank)).cell CBuf.B (l * n + k) := by
  obtain ⟨st, e, inv⟩ := cannon_run n q input rank hrank
  have hq : q - 1 + 1 = q := by
    rcases Nat.eq_zero_or_pos q with h0 | h0
    · subst h0; simp at hrank
    · omega
  refine ⟨cannonExit st, e, ?_⟩
  intro i k hi hk
  show st.heap.cell CBuf.C (i * n + k) = _
  rw [inv.result i k hi hk, hq]
  exact foldl_dotAcc_eq_sum n q (fun s => (input (cannonSrcA q s rank)).cell CBuf.A)
    (fun s => (input (cannonSrcB q s rank)).cell CBuf.B) i k

/-- On grids of dimension 1 and 2 the blocks that `cannon` pairs are the right
ones: at every process the block returned is `Σ_j A_{row,j} · B_{j,col}`. -/
theorem cannon_correct_upto_two {α : Type} [CommRing α] (q n : Nat) (hq : q ≤ 2)
    (input : Nat → Heap CBuf α) (row col : Nat) (hrow : row < q) (hcol : col < q) :
    ∃ st, cannon n (q * q) input (row * q + col) = some st
      ∧ st.heap.block n CBuf.C
          = ∑ j ∈ Finset.range q,
              (input (row * q + j)).block n CBuf.A * (input (j * q + col)).block n CBuf.B := by
  obtain ⟨st, e, hC⟩ := cannon_entry_sum n q input (row * q + col)
    (rowMajor_lt q row col hrow hcol)
  refine ⟨st, e, ?_⟩
  ext i k
  rw [sum_block_mul_apply n q (fun j => input (row * q + j)) (fun j => input (j * q + col))]
  simp only [Heap.block, Matrix.of_apply]
  rw [hC i.val k.val i.isLt k.isLt]
  have t1 : cannonSrcA ((1 : Nat) : Int) 0 0 = 0 ∧ cannonSrcB ((1 : Nat) : Int) 0 0 = 0 := by
    decide
  have t2 : ∀ r, r < 4 →
      (cannonSrcA ((2 : Nat) : Int) 0 r = r / 2 * 2 + (r / 2 + r % 2) % 2
        ∧ cannonSrcA ((2 : Nat) : Int) 1 r = r / 2 * 2 + (r / 2 + r % 2 + 1) % 2
        ∧ cannonSrcB ((2 : Nat) : Int) 0 r = (r / 2 + r % 2) % 2 * 2 + r % 2
        ∧ cannonSrcB ((2 : Nat) : Int) 1 r = (r / 2 + r % 2 + 1) % 2 * 2 + r % 2) := by
    decide
  interval_cases q
  · omega
  · interval_cases row
    interval_cases col
    simp only [Finset.sum_range_one]
    rw [t1.1, t1.2]
  · interval_cases row <;> interval_cases col
    all_goals
      simp only [Finset.sum_range_succ, Finset.sum_range_zero, zero_add]
    · obtain ⟨a0, a1, b0, b1⟩ := t2 0 (by decide)
      rw [a0, a1, b0, b1]
    · obtain ⟨a0, a1, b0, b1⟩ := t2 1 (by decide)
      rw [a0, a1, b0, b1]
      exact add_comm _ _
    · obtain ⟨a0, a1, b0, b1⟩ := t2 2 (by decide)
      rw [a0, a1, b0, b1]
      exact add_comm _ _
    · obtain ⟨a0, a1, b0, b1⟩ := t2 3 (by decide)
      rw [a0, a1, b0, b1]

/-- On grids of dimension 1 and 2, `par_matmat` and `cannon` return the same
block at every process when they are given the same blocks. -/
theorem par_cannon_agree_upto_two {α : Type} [CommRing α] (q n : Nat) (hq : q ≤ 2)
    (inputP : Nat → Heap PBuf α) (inputC : Nat → Heap CBuf α)
    (hA : ∀ r, (inputP r).cell PBuf.A = (inputC r).cell CBuf.A)
    (hB : ∀ r, (inputP r).cell PBuf.B = (inputC r).cell CBuf.B)
    (row col : Nat) (hrow : row < q) (hcol : col < q) :
    ∃ stP stC, par_matmat n (q * q) inputP (row * q + col) = some stP
      ∧ cannon n (q * q) inputC (row * q + col) = some stC
      ∧ stP.heap.block n PBuf.C = stC.heap.block n CBuf.C := by
  obtain ⟨stP, eP, hP⟩ := par_matmat_entry_sum q n inputP row col hrow hcol
  obtain ⟨stC, eC, hC⟩ := cannon_correct_upto_two q n hq inputC row col hrow hcol
  refine ⟨stP, stC, eP, eC, ?_⟩
  rw [hC]
  ext i k
  rw [sum_block_mul_apply n q (fun j => inputC (row * q + j)) (fun j => inputC (j * q + col))]
  simp only [Heap.block, Matrix.of_apply]
  rw [hP i.val k.val i.isLt k.isLt]
  simp only [hA, hB]

/-! ## The phases of Cannon's algorithm -/

/-- The function `cannonGrid` returns the state after its last phase, followed
by the `free` calls. -/
theorem cannonGrid_eq_after {α : Type} [Add α] [Mul α] [Zero α] (n num_procs : Nat)
    (sq_num_procs : Int) (input : Nat → Heap CBuf α) (rank : Nat) :
    cannonGrid n num_procs sq_num_procs input rank
      = (cannonAfter n num_procs sq_num_procs input (sq_num_procs - 1).toNat rank).map
          cannonExit := rfl

/-- On `q * q` processes, `cannon` returns the state after phase `q - 1`,
followed by the `free` calls. -/
theorem cannon_eq_after {α : Type} [Add α] [Mul α] [Zero α] (n q : Nat)
    (input : Nat → Heap CBuf α) (rank : Nat) :
    cannon n (q * q) input rank
      = (cannonAfter n (q * q) q input (q - 1) rank).map cannonExit := by
  rw [cannon_square, cannonGrid_eq_after]
  have hn : ((q : Int) - 1).toNat = q - 1 := by omega
  rw [hn]

/-- State of every process after phase `t`. -/
theorem cannonAfter_inv {α : Type} [Add α] [Mul α] [Zero α] (n q : Nat)
    (input : Nat → Heap CBuf α) (t rank : Nat) (hrank : rank < q * q) :
    ∃ st, cannonAfter n (q * q) q input t rank = some st ∧ CannonInv n q input t rank st :=
  cannon_rounds_inv n q input t rank hrank

/-- Pointers and tags of every process at the wait point of phase `t`. -/
theorem cannonBefore_spec {α : Type} [Add α] [Mul α] [Zero α] (n q : Nat)
    (input : Nat → Heap CBuf α) (t rank : Nat) (hrank : rank < q * q) :
    ∃ st, cannonBefore n (q * q) q input t rank = some st
      ∧ st.recv_A = heldA t ∧ st.recv_B = heldB t
      ∧ (t = 0 → st.send_A = CBuf.A ∧ st.send_B = CBuf.B)
      ∧ (∀ u, t = u + 1 → st.send_A = heldA u ∧ st.send_B = heldB u)
      ∧ st.tag_a = 1234 + (t : Int) ∧ st.tag_b = 4321 + (t : Int) := by
  cases t with
  | zero =>
    refine ⟨cannonEntry n (input rank), ?_, rfl, rfl, fun _ => ⟨rfl, rfl⟩, ?_, rfl, rfl⟩
    · show cannonStart n (q * q) input rank = _
      unfold cannonStart
      rw [if_pos hrank]
    · intro u hu
      omega
  | succ t =>
    obtain ⟨st, e, inv⟩ := cannonAfter_inv n q input t rank hrank
    refine ⟨st, e, inv.recv_A, inv.recv_B, fun h => by omega, ?_, inv.tag_a, inv.tag_b⟩
    intro u hu
    have : u = t := by omega
    subst this
    exact ⟨inv.send_A, inv.send_B⟩

/-- C12: buffer rotation in `cannon`.  On a `q × q` grid, at the wait point of
every phase `t ≤ q - 1` (the skew for `t = 0`, pipeline round `t` otherwise)
the buffers in the roles `send_A`, `recv_A`, `send_B`, `recv_B` are pairwise
distinct, the two receives of the phase write into `recv_A`, `recv_B` and its
two sends read from `send_A`, `send_B`; and the buffers received into are the
send sources in the state that follows the phase (the wait point of the next
round, or the end of the loop after the last one). -/
theorem buffer_rotation {α : Type} [Add α] [Mul α] [Zero α] (n q : Nat)
    (input : Nat → Heap CBuf α) (rank : Nat) (hrank : rank < q * q) (t : Nat)
    (_ht : t ≤ q - 1) :
    ∃ st, cannonBefore n (q * q) q input t rank = some st
      ∧ [st.send_A, st.recv_A, st.send_B, st.recv_B].Nodup
      ∧ (st.calls n (phasePeers q t rank)).filterMap Call.recvBuf = [st.recv_A, st.recv_B]
      ∧ (st.calls n (phasePeers q t rank)).filterMap Call.sendBuf = [st.send_A, st.send_B]
      ∧ ∃ st', cannonBefore n (q * q) q input (t + 1) rank = some st'
          ∧ st'.send_A = st.recv_A ∧ st'.send_B = st.recv_B := by
  obtain ⟨st, e, rA, rB, h0, hs, -, -⟩ := cannonBefore_spec n q input t rank hrank
  obtain ⟨st', e', -, -, -, hs', -, -⟩ := cannonBefore_spec n q input (t + 1) rank hrank
  obtain ⟨sA', sB'⟩ := hs' t rfl
  refine ⟨st, e, ?_, rfl, rfl, st', e', by rw [sA', rA], by rw [sB', rB]⟩
  cases t with
  | zero =>
    obtain ⟨sA, sB⟩ := h0 rfl
    rw [sA, sB, rA, rB]
    decide
  | succ u =>
    obtain ⟨sA, sB⟩ := hs u rfl
    rw [sA, sB, rA, rB]
    have a1 := heldA_succ_ne u
    have a2 := heldB_succ_ne u
    have a3 := heldA_ne_heldB u u
    have a4 := heldA_ne_heldB u (u + 1)
    have a5 := heldA_ne_heldB (u + 1) u
    have a6 := heldA_ne_heldB (u + 1) (u + 1)
    simp only [List.nodup_cons, List.mem_cons, List.mem_singleton, List.not_mem_nil,
      List.nodup_nil, not_or, or_false, not_false_eq_true, and_true]
    exact ⟨⟨Ne.symm a1, a3, a4⟩, ⟨a5, a6⟩, Ne.symm a2⟩

/-- C12 on the 3 × 3 grid, rank 4, at the wait point of round 2. -/
theorem buffer_rotation_witness :
    (4 < 3 * 3 ∧ 2 ≤ 3 - 1)
    ∧ ∃ st, cannonBefore 1 (3 * 3) ((3 : Nat) : Int) (cannonInput block3 block3 0) 2 4 = some st
      ∧ [st.send_A, st.recv_A, st.send_B, st.recv_B].Nodup
      ∧ (st.calls 1 (phasePeers ((3 : Nat) : Int) 2 ((4 : Nat) : Int))).filterMap Call.recvBuf
          = [st.recv_A, st.recv_B]
      ∧ (st.calls 1 (phasePeers ((3 : Nat) : Int) 2 ((4 : Nat) : Int))).filterMap Call.sendBuf
          = [st.send_A, st.send_B]
      ∧ ∃ st', cannonBefore 1 (3 * 3) ((3 : Nat) : Int) (cannonInput block3 block3 0) (2 + 1) 4
            = some st'
          ∧ st'.send_A = st.recv_A ∧ st'.send_B = st.recv_B :=
  ⟨⟨by decide, by decide⟩,
    buffer_rotation 1 3 (cannonInput block3 block3 0) 4 (by decide) 2 (by decide)⟩

/-- C13: message tags in `cannon`.  On a `q × q` grid, every process reaches
phase `t ≤ q - 1` (phase 0 is the skew, phase `k` the `k`-th round) with the
tag pair `1234 + t`, `4321 + t`, and its four operations of that phase carry
these tags (A receive, B receive, A send, B send).  Within the phase the A
tag differs from the B tag, no other phase has the same A tag or the same B
tag, and the next phase has both tags increased by one. -/
theorem message_tags {α : Type} [Add α] [Mul α] [Zero α] (n q : Nat)
    (input : Nat → Heap CBuf α) (rank : Nat) (hrank : rank < q * q) (t : Nat)
    (_ht : t ≤ q - 1) :
    ∃ st, cannonBefore n (q * q) q input t rank = some st
      ∧ st.tag_a = 1234 + (t : Int) ∧ st.tag_b = 4321 + (t : Int)
      ∧ (st.calls n (phasePeers q t rank)).filterMap Call.tag
          = [1234 + (t : Int), 4321 + (t : Int), 1234 + (t : Int), 4321 + (t : Int)]
      ∧ (st.posted n (phasePeers q t rank)).map Msg.tag = [1234 + (t : Int), 4321 + (t : Int)]
      ∧ st.tag_a ≠ st.tag_b
      ∧ (∀ u, u ≤ q - 1 → u ≠ t →
          ∃ su, cannonBefore n (q * q) q input u rank = some su
            ∧ su.tag_a ≠ st.tag_a ∧ su.tag_b ≠ st.tag_b)
      ∧ ∃ st', cannonBefore n (q * q) q input (t + 1) rank = some st'
          ∧ st'.tag_a = st.tag_a + 1 ∧ st'.tag_b = st.tag_b + 1 := by
  obtain ⟨st, e, -, -, -, -, ta, tb⟩ := cannonBefore_spec n q input t rank hrank
  obtain ⟨st', e', -, -, -, -, ta', tb'⟩ := cannonBefore_spec n q input (t + 1) rank hrank
  refine ⟨st, e, ta, tb, ?_, ?_, ?_, ?_, st', e', ?_, ?_⟩
  · show [st.tag_a, st.tag_b, st.tag_a, st.tag_b] = _
    rw [ta, tb]
  · show [st.tag_a, st.tag_b] = _
    rw [ta, tb]
  · rw [ta, tb]
    omega
  · intro u _ hne
    obtain ⟨su, eu, -, -, -, -, ua, ub⟩ := cannonBefore_spec n q input u rank hrank
    refine ⟨su, eu, ?_, ?_⟩
    · rw [ua, ta]
      omega
    · rw [ub, tb]
      omega
  · rw [ta', ta]
    push_cast
    ring
  · rw [tb', tb]
    push_cast
    ring

/-- C13 on the 3 × 3 grid, rank 4, phase 2. -/
theorem message_tags_witness :
    (4 < 3 * 3 ∧ 2 ≤ 3 - 1)
    ∧ ∃ st, cannonBefore 1 (3 * 3) ((3 : Nat) : Int) (cannonInput block3 block3 0) 2 4 = some st
      ∧ st.tag_a = 1234 + ((2 : Nat) : Int) ∧ st.tag_b = 4321 + ((2 : Nat) : Int)
      ∧ (st.calls 1 (phasePeers ((3 : Nat) : Int) 2 ((4 : Nat) : Int))).filterMap Call.tag
          = [1234 + ((2 : Nat) : Int), 4321 + ((2 : Nat) : Int), 1234 + ((2 : Nat) : Int),
             4321 + ((2 : Nat) : Int)]
      ∧ (st.posted 1 (phasePeers ((3 : Nat) : Int) 2 ((4 : Nat) : Int))).map Msg.tag
          = [1234 + ((2 : Nat) : Int), 4321 + ((2 : Nat) : Int)]
      ∧ st.tag_a ≠ st.tag_b
      ∧ (∀ u, u ≤ 3 - 1 → u ≠ 2 →
          ∃ su, cannonBefore 1 (3 * 3) ((3 : Nat) : Int) (cannonInput block3 block3 0) u 4
              = some su
            ∧ su.tag_a ≠ st.tag_a ∧ su.tag_b ≠ st.tag_b)
      ∧ ∃ st', cannonBefore 1 (3 * 3) ((3 : Nat) : Int) (cannonInput block3 block3 0) (2 + 1) 4
            = some st'
          ∧ st'.tag_a = st.tag_a + 1 ∧ st'.tag_b = st.tag_b + 1 :=
  ⟨⟨by decide, by decide⟩,
    message_tags 1 3 (cannonInput block3 block3 0) 4 (by decide) 2 (by decide)⟩

/-! ## Where the blocks come from -/

/-- The wrapped difference is the remainder of the difference. -/
theorem wrapDown_emod (q c s : Int) (hc0 : 0 ≤ c) (hc : c < q) (hs0 : 0 ≤ s) (hs : s ≤ q) :
    wrapDown q c s = (c - s) % q := by
  unfold wrapDown
  simp only
  split_ifs with h
  · rw [← Int.add_emod_self, Int.emod_eq_of_lt (by omega) (by omega)]
  · rw [Int.emod_eq_of_lt (by omega) (by omega)]

/-- A remainder modulo a positive `q` as a natural number below `q`. -/
theorem emod_nat (q : Nat) (hq : 0 < q) (x : Int) :
    ∃ k : Nat, k < q ∧ x % (q : Int) = k ∧ (x % (q : Int)).toNat = k := by
  have h0 : 0 ≤ x % (q : Int) := Int.emod_nonneg x (by omega)
  have h1 : x % (q : Int) < q := Int.emod_lt_of_pos x (by omega)
  refine ⟨(x % (q : Int)).toNat, ?_, ?_, rfl⟩
  · omega
  · omega

/-- Closed form of the A provenance: in phase `t` process `(r, c)` holds the
block A of `(r, (c - r - t) mod q)`. -/
theorem cannonSrcA_closed (q r : Nat) (hr : r < q) (t c : Nat) (hc : c < q) :
    cannonSrcA q t (r * q + c)
      = r * q + (((c : Int) - r - t) % (q : Int)).toNat := by
  have hq : 0 < q := by omega
  induction t generalizing c with
  | zero =>
    obtain ⟨k, hk, ek, ek'⟩ := emod_nat q hq ((c : Int) - r)
    have e : (skewPeers q ((r * q + c : Nat) : Int)).recv_a = ((r * q + k : Nat) : Int) := by
      simp only [skewPeers, (rank_coords q r c hc).1, (rank_coords q r c hc).2]
      rw [wrapDown_emod q c r (Int.natCast_nonneg _) (by exact_mod_cast hc)
        (Int.natCast_nonneg _) (by exact_mod_cast le_of_lt hr), ek]
      push_cast
      rfl
    simp only [cannonSrcA, e, Int.toNat_natCast, Nat.cast_zero, sub_zero, ek']
  | succ t ih =>
    obtain ⟨k, hk, ek, -⟩ := emod_nat q hq ((c : Int) - 1)
    have e : (roundPeers q ((r * q + c : Nat) : Int)).recv_a = ((r * q + k : Nat) : Int) := by
      simp only [roundPeers, (rank_coords q r c hc).1, (rank_coords q r c hc).2]
      rw [wrapDown_emod q c 1 (Int.natCast_nonneg _) (by exact_mod_cast hc)
        (by omega) (by omega), ek]
      push_cast
      rfl
    simp only [cannonSrcA, e, Int.toNat_natCast]
    rw [ih k hk, ← ek]
    have e2 : ((c : Int) - 1) % (q : Int) - r - t = ((c : Int) - 1) % (q : Int) + (-r - t) := by
      ring
    have e3 : (c : Int) - r - ((t + 1 : Nat) : Int) = (c : Int) - 1 + (-r - t) := by
      push_cast
      ring
    rw [e2, Int.emod_add_emod, e3]

/-- Closed form of the B provenance: in phase `t` process `(r, c)` holds the
block B of `((r - c - t) mod q, c)`. -/
theorem cannonSrcB_closed (q c : Nat) (hc : c < q) (t r : Nat) (hr : r < q) :
    cannonSrcB q t (r * q + c)
      = (((r : Int) - c - t) % (q : Int)).toNat * q + c := by
  have hq : 0 < q := by omega
  induction t generalizing r with
  | zero =>
    obtain ⟨k, hk, ek, ek'⟩ := emod_nat q hq ((r : Int) - c)
    have e : (skewPeers q ((r * q + c : Nat) : Int)).recv_b = ((k * q + c : Nat) : Int) := by
      simp only [skewPeers, (rank_coords q r c hc).1, (rank_coords q r c hc).2]
      rw [wrapDown_emod q r c (Int.natCast_nonneg _) (by exact_mod_cast hr)
        (Int.natCast_nonneg _) (by exact_mod_cast le_of_lt hc), ek]
      push_cast
      rfl
    simp only [cannonSrcB, e, Int.toNat_natCast, Nat.cast_zero, sub_zero, ek']
  | succ t ih =>
    obtain ⟨k, hk, ek, -⟩ := emod_nat q hq ((r : Int) - 1)
    have e : (roundPeers q ((r * q + c : Nat) : Int)).recv_b = ((k * q + c : Nat) : Int) := by
      simp only [roundPeers, (rank_coords q r c hc).1, (rank_coords q r c hc).2]
      rw [wrapDown_emod q r 1 (Int.natCast_nonneg _) (by exact_mod_cast hr)
        (by omega) (by omega), ek]
      push_cast
      rfl
    simp only [cannonSrcB, e, Int.toNat_natCast]
    rw [ih k hk, ← ek]
    have e2 : ((r : Int) - 1) % (q : Int) - c - t = ((r : Int) - 1) % (q : Int) + (-c - t) := by
      ring
    have e3 : (r : Int) - c - ((t + 1 : Nat) : Int) = (r : Int) - 1 + (-c - t) := by
      push_cast
      ring
    rw [e2, Int.emod_add_emod, e3]

/-- The last call of a phase is its multiply. -/
theorem phaseCalls_getLast (n : Nat) (sq_num_procs : Int) (rank t : Nat) :
    (phaseCalls n sq_num_procs rank t).getLast?
      = some (Call.matmat (heldA t) (heldB t) CBuf.C) := by
  cases t <;> rfl

/-- The last call recorded up to phase `t` is the multiply of phase `t`. -/
theorem cannonTrace_getLast (n : Nat) (sq_num_procs : Int) (rank t : Nat) :
    (cannonTrace n sq_num_procs rank t).getLast?
      = some (Call.matmat (heldA t) (heldB t) CBuf.C) := by
  unfold cannonTrace
  rw [List.range_succ, List.flatMap_append]
  simp only [List.flatMap_cons, List.flatMap_nil, List.append_nil]
  rw [List.getLast?_append, phaseCalls_getLast]
  rfl

/-- C15: block provenance in `cannon`.  On a `q × q` grid, for every process
`(row, col)` and every `t ≤ q - 1`, the multiply after the skew and `t`
pipeline rounds is `matmat` on the buffers `heldA t`, `heldB t`, which hold
the input block A of process `(row, (col - row - t) mod q)` and the input
block B of process `((row - col - t) mod q, col)`. -/
theorem block_provenance {α : Type} [Add α] [Mul α] [Zero α] (n q : Nat)
    (input : Nat → Heap CBuf α) (row col : Nat) (hrow : row < q) (hcol : col < q) (t : Nat)
    (_ht : t ≤ q - 1) :
    ∃ (st : CannonProc α) (ja jb : Nat),
        cannonAfter n (q * q) q input t (row * q + col) = some st
      ∧ ((ja : Int) = ((col : Int) - row - t) % q ∧ ja < q)
      ∧ ((jb : Int) = ((row : Int) - col - t) % q ∧ jb < q)
      ∧ st.trace.getLast? = some (Call.matmat (heldA t) (heldB t) CBuf.C)
      ∧ st.heap.block n (heldA t) = (input (row * q + ja)).block n CBuf.A
      ∧ st.heap.block n (heldB t) = (input (jb * q + col)).block n CBuf.B := by
  have hq : 0 < q := by omega
  obtain ⟨st, e, inv⟩ := cannonAfter_inv n q input t (row * q + col)
    (rowMajor_lt q row col hrow hcol)
  obtain ⟨ja, hja, eja, eja'⟩ := emod_nat q hq ((col : Int) - row - t)
  obtain ⟨jb, hjb, ejb, ejb'⟩ := emod_nat q hq ((row : Int) - col - t)
  have sA := cannonSrcA_closed q row hrow t col hcol
  have sB := cannonSrcB_closed q col hcol t row hrow
  rw [eja'] at sA
  rw [ejb'] at sB
  refine ⟨st, ja, jb, e, ⟨eja.symm, hja⟩, ⟨ejb.symm, hjb⟩, ?_, ?_, ?_⟩
  · rw [inv.trace]
    exact cannonTrace_getLast n q (row * q + col) t
  · ext i k
    simp only [Heap.block, Matrix.of_apply]
    rw [inv.blockA _ (rowMajor_lt n i.val k.val i.isLt k.isLt), sA]
  · ext i k
    simp only [Heap.block, Matrix.of_apply]
    rw [inv.blockB _ (rowMajor_lt n i.val k.val i.isLt k.isLt), sB]

/-- C15 on the 3 × 3 grid at process (0, 1), after the skew and 2 rounds. -/
theorem block_provenance_witness :
    (0 < 3 ∧ 1 < 3 ∧ 2 ≤ 3 - 1)
    ∧ ∃ (st : CannonProc Int) (ja jb : Nat),
        cannonAfter 1 (3 * 3) ((3 : Nat) : Int) (cannonInput block3 block3 0) 2 (0 * 3 + 1)
          = some st
      ∧ ((ja : Int) = (((1 : Nat) : Int) - ((0 : Nat) : Int) - ((2 : Nat) : Int)) % ((3 : Nat) : Int)
          ∧ ja < 3)
      ∧ ((jb : Int) = (((0 : Nat) : Int) - ((1 : Nat) : Int) - ((2 : Nat) : Int)) % ((3 : Nat) : Int)
          ∧ jb < 3)
      ∧ st.trace.getLast? = some (Call.matmat (heldA 2) (heldB 2) CBuf.C)
      ∧ st.heap.block 1 (heldA 2) = (cannonInput block3 block3 0 (0 * 3 + ja)).block 1 CBuf.A
      ∧ st.heap.block 1 (heldB 2) = (cannonInput block3 block3 0 (jb * 3 + 1)).block 1 CBuf.B :=
  ⟨⟨by decide, by decide, by decide⟩,
    block_provenance 1 3 (cannonInput block3 block3 0) 0 1 (by decide) (by decide) 2
      (by decide)⟩

/-! ## Which buffers are written and released -/

theorem heldA_cases (t : Nat) : heldA t = CBuf.A2 ∨ heldA t = CBuf.A3 := by
  unfold heldA
  split_ifs
  · exact Or.inl rfl
  · exact Or.inr rfl

theorem heldB_cases (t : Nat) : heldB t = CBuf.B2 ∨ heldB t = CBuf.B3 := by
  unfold heldB
  split_ifs
  · exact Or.inl rfl
  · exact Or.inr rfl

/-- The calls recorded up to phase `t` are those of the phases `0, ..., t`. -/
theorem mem_cannonTrace (n : Nat) (sq_num_procs : Int) (rank t : Nat) (c : Call CBuf) :
    c ∈ cannonTrace n sq_num_procs rank t
      ↔ ∃ s, s ≤ t ∧ c ∈ phaseCalls n sq_num_procs rank s := by
  unfold cannonTrace
  rw [List.mem_flatMap]
  constructor
  · rintro ⟨s, hs, hc⟩
    exact ⟨s, by rw [List.mem_range] at hs; omega, hc⟩
  · rintro ⟨s, hs, hc⟩
    exact ⟨s, by rw [List.mem_range]; omega, hc⟩

/-- What the calls of one phase do to the buffers. -/
theorem phaseCalls_buffers (n : Nat) (sq_num_procs : Int) (rank s : Nat) (c : Call CBuf)
    (hc : c ∈ phaseCalls n sq_num_procs rank s) :
    (∀ b, c.recvBuf = some b → b ∈ [CBuf.A2, CBuf.B2, CBuf.A3, CBuf.B3])
    ∧ (CBuf.A ∉ c.writes ∧ CBuf.B ∉ c.writes)
    ∧ (CBuf.A ∈ c.names →
        c = Call.Isend CBuf.A 0 (n * n) (skewPeers sq_num_procs rank).send_a 1234)
    ∧ (CBuf.B ∈ c.names →
        c = Call.Isend CBuf.B 0 (n * n) (skewPeers sq_num_procs rank).send_b 4321)
    ∧ c.freedBuf = none := by
  cases s with
  | zero =>
    simp only [phaseCalls, List.mem_cons, List.mem_singleton, List.not_mem_nil, or_false] at hc
    rcases hc with rfl | rfl | rfl | rfl | rfl | rfl | rfl | rfl | rfl <;>
      simp [Call.recvBuf, Call.writes, Call.names, Call.freedBuf]
  | succ u =>
    have a1 := heldA_ne u
    have a2 := heldA_ne (u + 1)
    have b1 := heldB_ne u
    have b2 := heldB_ne (u + 1)
    have ca := heldA_cases (u + 1)
    have cb := heldB_cases (u + 1)
    simp only [phaseCalls, List.mem_cons, List.mem_singleton, List.not_mem_nil, or_false] at hc
    rcases hc with rfl | rfl | rfl | rfl | rfl | rfl | rfl | rfl | rfl <;>
      simp [Call.recvBuf, Call.writes, Call.names, Call.freedBuf, Ne.symm a1.2.1,
        Ne.symm a1.2.2, Ne.symm a2.2.1, Ne.symm a2.2.2, Ne.symm b1.2.1, Ne.symm b1.2.2,
        Ne.symm b2.2.1, Ne.symm b2.2.2]
    · rcases ca with h | h <;> simp [h]
    · rcases cb with h | h <;> simp [h]

/-- No phase releases a buffer. -/
theorem cannonTrace_freed (n : Nat) (sq_num_procs : Int) (rank t : Nat) :
    (cannonTrace n sq_num_procs rank t).filterMap Call.freedBuf = [] := by
  rw [List.filterMap_eq_nil_iff]
  intro c hc
  obtain ⟨s, -, hs⟩ := (mem_cannonTrace n sq_num_procs rank t c).1 hc
  exact (phaseCalls_buffers n sq_num_procs rank s c hs).2.2.2.2

/-- The four buffers released at the end are the four scratch buffers. -/
theorem held_perm (u : Nat) :
    [heldA (u + 1), heldB (u + 1), heldA u, heldB u].Perm
      [CBuf.A2, CBuf.A3, CBuf.B2, CBuf.B3] := by
  unfold heldA heldB
  rcases Nat.mod_two_eq_zero_or_one u with h | h
  · have h' : (u + 1) % 2 = 1 := by omega
    rw [h, h']
    decide
  · have h' : (u + 1) % 2 = 0 := by omega
    rw [h, h']
    decide

/-- C16: frame property of the buffers of `cannon`.  On a `q × q` grid every
process returns, and among the calls it has made: every receive writes into
one of `A2`, `B2`, `A3`, `B3`; no call writes `A` or `B`; the only call that
names `A` is the A send of the skew and the only call that names `B` is the
B send of the skew; on return `A` and `B` hold what the caller passed; and
the buffers released are `A2`, `A3`, `B2`, `B3`, each exactly once. -/
theorem cannon_frame {α : Type} [Add α] [Mul α] [Zero α] (n q : Nat)
    (input : Nat → Heap CBuf α) (rank : Nat) (hrank : rank < q * q) :
    ∃ st, cannon n (q * q) input rank = some st
      ∧ (∀ c ∈ st.trace, ∀ b, c.recvBuf = some b → b ∈ [CBuf.A2, CBuf.B2, CBuf.A3, CBuf.B3])
      ∧ (∀ c ∈ st.trace, CBuf.A ∉ c.writes ∧ CBuf.B ∉ c.writes)
      ∧ (∀ c ∈ st.trace, CBuf.A ∈ c.names →
          c = Call.Isend CBuf.A 0 (n * n) (skewPeers q rank).send_a 1234)
      ∧ (∀ c ∈ st.trace, CBuf.B ∈ c.names →
          c = Call.Isend CBuf.B 0 (n * n) (skewPeers q rank).send_b 4321)
      ∧ st.heap.cell CBuf.A = (input rank).cell CBuf.A
      ∧ st.heap.cell CBuf.B = (input rank).cell CBuf.B
      ∧ (st.trace.filterMap Call.freedBuf).Perm [CBuf.A2, CBuf.A3, CBuf.B2, CBuf.B3] := by
  obtain ⟨st, e, inv⟩ := cannon_run n q input rank hrank
  have hq : q - 1 + 1 = q := by
    rcases Nat.eq_zero_or_pos q with h0 | h0
    · subst h0; simp at hrank
    · omega
  have ht : (cannonExit st).trace = cannonTrace n q rank (q - 1)
      ++ [Call.free (heldA (q - 1 + 1)), Call.free (heldB (q - 1 + 1)),
          Call.free (heldA (q - 1)), Call.free (heldB (q - 1))] := by
    unfold cannonExit
    simp only
    rw [inv.trace, inv.recv_A, inv.recv_B, inv.send_A, inv.send_B]
  have hfree : ∀ c ∈ (cannonExit st).trace,
      (∃ s, c ∈ phaseCalls n q rank s)
      ∨ (∃ b, c = Call.free b ∧ b ≠ CBuf.A ∧ b ≠ CBuf.B) := by
    intro c hc
    rw [ht, List.mem_append] at hc
    rcases hc with hc | hc
    · obtain ⟨s, -, hs⟩ := (mem_cannonTrace n q rank (q - 1) c).1 hc
      exact Or.inl ⟨s, hs⟩
    · simp only [List.mem_cons, List.mem_singleton, List.not_mem_nil, or_false] at hc
      rcases hc with rfl | rfl | rfl | rfl
      · exact Or.inr ⟨_, rfl, (heldA_ne _).2.1, (heldA_ne _).2.2⟩
      · exact Or.inr ⟨_, rfl, (heldB_ne _).2.1, (heldB_ne _).2.2⟩
      · exact Or.inr ⟨_, rfl, (heldA_ne _).2.1, (heldA_ne _).2.2⟩
      · exact Or.inr ⟨_, rfl, (heldB_ne _).2.1, (heldB_ne _).2.2⟩
  refine ⟨cannonExit st, e, ?_, ?_, ?_, ?_, inv.frameA, inv.frameB, ?_⟩
  · intro c hc b hb
    rcases hfree c hc with ⟨s, hs⟩ | ⟨b', rfl, -, -⟩
    · exact (phaseCalls_buffers n q rank s c hs).1 b hb
    · simp [Call.recvBuf] at hb
  · intro c hc
    rcases hfree c hc with ⟨s, hs⟩ | ⟨b', rfl, -, -⟩
    · exact (phaseCalls_buffers n q rank s c hs).2.1
    · simp [Call.writes]
  · intro c hc hA
    rcases hfree c hc with ⟨s, hs⟩ | ⟨b', rfl, h1, -⟩
    · exact (phaseCalls_buffers n q rank s c hs).2.2.1 hA
    · simp only [Call.names, List.mem_singleton] at hA
      exact absurd hA.symm h1
  · intro c hc hB
    rcases hfree c hc with ⟨s, hs⟩ | ⟨b', rfl, -, h2⟩
    · exact (phaseCalls_buffers n q rank s c hs).2.2.2.1 hB
    · simp only [Call.names, List.mem_singleton] at hB
      exact absurd hB.symm h2
  · rw [ht, List.filterMap_append, cannonTrace_freed, List.nil_append]
    exact held_perm (q - 1)

/-- C16 on the 3 × 3 grid at rank 4. -/
theorem cannon_frame_witness :
    4 < 3 * 3
    ∧ ∃ st, cannon 1 (3 * 3) (cannonInput block3 block3 0) 4 = some st
      ∧ (∀ c ∈ st.trace, ∀ b, c.recvBuf = some b → b ∈ [CBuf.A2, CBuf.B2, CBuf.A3, CBuf.B3])
      ∧ (∀ c ∈ st.trace, CBuf.A ∉ c.writes ∧ CBuf.B ∉ c.writes)
      ∧ (∀ c ∈ st.trace, CBuf.A ∈ c.names →
          c = Call.Isend CBuf.A 0 (1 * 1) (skewPeers ((3 : Nat) : Int) ((4 : Nat) : Int)).send_a
            1234)
      ∧ (∀ c ∈ st.trace, CBuf.B ∈ c.names →
          c = Call.Isend CBuf.B 0 (1 * 1) (skewPeers ((3 : Nat) : Int) ((4 : Nat) : Int)).send_b
            4321)
      ∧ st.heap.cell CBuf.A = (cannonInput block3 block3 0 4).cell CBuf.A
      ∧ st.heap.cell CBuf.B = (cannonInput block3 block3 0 4).cell CBuf.B
      ∧ (st.trace.filterMap Call.freedBuf).Perm [CBuf.A2, CBuf.A3, CBuf.B2, CBuf.B3] :=
  ⟨by decide, cannon_frame 1 3 (cannonInput block3 block3 0) 4 (by decide)⟩

/-! ## Pairing of sends and receives -/

/-- Shifting up and then down by the same amount returns to the start. -/
theorem wrapDown_wrapUp (q c s : Int) (hc0 : 0 ≤ c) (hc : c < q) :
    wrapDown q (wrapUp q c s) s = c := by
  unfold wrapUp wrapDown
  simp only
  split_ifs <;> omega

/-- A coordinate of the grid as a natural number. -/
theorem wrapUp_nat (q c s : Nat) (hc : c < q) (hs : s ≤ q) :
    ∃ x : Nat, x < q ∧ wrapUp q c s = x := by
  obtain ⟨h0, h1⟩ := wrapUp_range q c s (Int.natCast_nonneg _) (by exact_mod_cast hc)
    (Int.natCast_nonneg _) (by exact_mod_cast hs)
  refine ⟨(wrapUp q c s).toNat, ?_, ?_⟩
  · omega
  · omega

/-- Pairing of the skew, seen from the sender: the rank that `(r, c)` sends
its A to receives its A from `(r, c)`, and likewise for B. -/
theorem skew_pairing_send (q r c : Nat) (hr : r < q) (hc : c < q) :
    ∃ ca rb : Nat, ca < q ∧ rb < q
      ∧ (skewPeers q ((r * q + c : Nat) : Int)).send_a = ((r * q + ca : Nat) : Int)
      ∧ (skewPeers q ((r * q + c : Nat) : Int)).send_b = ((rb * q + c : Nat) : Int)
      ∧ (skewPeers q ((r * q + ca : Nat) : Int)).recv_a = ((r * q + c : Nat) : Int)
      ∧ (skewPeers q ((rb * q + c : Nat) : Int)).recv_b = ((r * q + c : Nat) : Int) := by
  obtain ⟨ca, hca, eca⟩ := wrapUp_nat q c r hc (le_of_lt hr)
  obtain ⟨rb, hrb, erb⟩ := wrapUp_nat q r c hr (le_of_lt hc)
  have ua := wrapDown_wrapUp q c r (Int.natCast_nonneg _) (by exact_mod_cast hc)
  have ub := wrapDown_wrapUp q r c (Int.natCast_nonneg _) (by exact_mod_cast hr)
  rw [eca] at ua
  rw [erb] at ub
  refine ⟨ca, rb, hca, hrb, ?_, ?_, ?_, ?_⟩
  · simp only [skewPeers, (rank_coords q r c hc).1, (rank_coords q r c hc).2, eca]
    push_cast
    rfl
  · simp only [skewPeers, (rank_coords q r c hc).1, (rank_coords q r c hc).2, erb]
    push_cast
    rfl
  · simp only [skewPeers, (rank_coords q r ca hca).1, (rank_coords q r ca hca).2, ua]
    push_cast
    rfl
  · simp only [skewPeers, (rank_coords q rb c hc).1, (rank_coords q rb c hc).2, ub]
    push_cast
    rfl

/-- Pairing of a pipeline round, seen from the sender. -/
theorem round_pairing_send (q r c : Nat) (hr : r < q) (hc : c < q) :
    ∃ ca rb : Nat, ca < q ∧ rb < q
      ∧ (roundPeers q ((r * q + c : Nat) : Int)).send_a = ((r * q + ca : Nat) : Int)
      ∧ (roundPeers q ((r * q + c : Nat) : Int)).send_b = ((rb * q + c : Nat) : Int)
      ∧ (roundPeers q ((r * q + ca : Nat) : Int)).recv_a = ((r * q + c : Nat) : Int)
      ∧ (roundPeers q ((rb * q + c : Nat) : Int)).recv_b = ((r * q + c : Nat) : Int) := by
  have hq : 1 ≤ q := by omega
  obtain ⟨ca, hca, eca⟩ := wrapUp_nat q c 1 hc hq
  obtain ⟨rb, hrb, erb⟩ := wrapUp_nat q r 1 hr hq
  have ua := wrapDown_wrapUp q c (1 : Nat) (Int.natCast_nonneg _) (by exact_mod_cast hc)
  have ub := wrapDown_wrapUp q r (1 : Nat) (Int.natCast_nonneg _) (by exact_mod_cast hr)
  rw [eca] at ua
  rw [erb] at ub
  rw [Nat.cast_one] at ua ub eca erb
  refine ⟨ca, rb, hca, hrb, ?_, ?_, ?_, ?_⟩
  · simp only [roundPeers, (rank_coords q r c hc).1, (rank_coords q r c hc).2, eca]
    push_cast
    rfl
  · simp only [roundPeers, (rank_coords q r c hc).1, (rank_coords q r c hc).2, erb]
    push_cast
    rfl
  · simp only [roundPeers, (rank_coords q r ca hca).1, (rank_coords q r ca hca).2, ua]
    push_cast
    rfl
  · simp only [roundPeers, (rank_coords q rb c hc).1, (rank_coords q rb c hc).2, ub]
    push_cast
    rfl

/-- Pairing in every phase: the four peers of a rank lie in the grid, its
receive sources send to it and its send destinations receive from it. -/
theorem phase_pairing (q t p : Nat) (hp : p < q * q) :
    ∃ sa sb da db : Nat, (sa < q * q ∧ sb < q * q ∧ da < q * q ∧ db < q * q)
      ∧ ((phasePeers q t p).recv_a = sa ∧ (phasePeers q t p).recv_b = sb
        ∧ (phasePeers q t p).send_a = da ∧ (phasePeers q t p).send_b = db)
      ∧ ((phasePeers q t sa).send_a = p ∧ (phasePeers q t sb).send_b = p
        ∧ (phasePeers q t da).recv_a = p ∧ (phasePeers q t db).recv_b = p) := by
  obtain ⟨hr, hc, hrc⟩ := rank_decompose q p hp
  cases t with
  | zero =>
    obtain ⟨ca, rb, hca, hrb, e1, e2, e3, e4⟩ := skew_pairing q (p / q) (p % q) hr hc
    obtain ⟨cd, rd, hcd, hrd, f1, f2, f3, f4⟩ := skew_pairing_send q (p / q) (p % q) hr hc
    rw [hrc] at e1 e2 e3 e4 f1 f2 f3 f4
    exact ⟨_, _, _, _, ⟨rowMajor_lt q _ _ hr hca, rowMajor_lt q _ _ hrb hc,
      rowMajor_lt q _ _ hr hcd, rowMajor_lt q _ _ hrd hc⟩, ⟨e1, e2, f1, f2⟩,
      ⟨e3, e4, f3, f4⟩⟩
  | succ u =>
    obtain ⟨ca, rb, hca, hrb, e1, e2, e3, e4⟩ := round_pairing q (p / q) (p % q) hr hc
    obtain ⟨cd, rd, hcd, hrd, f1, f2, f3, f4⟩ := round_pairing_send q (p / q) (p % q) hr hc
    rw [hrc] at e1 e2 e3 e4 f1 f2 f3 f4
    exact ⟨_, _, _, _, ⟨rowMajor_lt q _ _ hr hca, rowMajor_lt q _ _ hrb hc,
      rowMajor_lt q _ _ hr hcd, rowMajor_lt q _ _ hrd hc⟩, ⟨e1, e2, f1, f2⟩,
      ⟨e3, e4, f3, f4⟩⟩

/-- In every phase the A send destination is a bijection of the grid with the
A receive source as inverse, and likewise for B. -/
theorem phase_bijOn (q t : Nat) :
    (Set.BijOn (fun p : Nat => (phasePeers q t p).send_a.toNat)
        (Set.Iio (q * q)) (Set.Iio (q * q))
      ∧ Set.InvOn (fun p : Nat => (phasePeers q t p).recv_a.toNat)
        (fun p : Nat => (phasePeers q t p).send_a.toNat) (Set.Iio (q * q)) (Set.Iio (q * q)))
    ∧ (Set.BijOn (fun p : Nat => (phasePeers q t p).send_b.toNat)
        (Set.Iio (q * q)) (Set.Iio (q * q))
      ∧ Set.InvOn (fun p : Nat => (phasePeers q t p).recv_b.toNat)
        (fun p : Nat => (phasePeers q t p).send_b.toNat) (Set.Iio (q * q)) (Set.Iio (q * q))) := by
  have ha : Set.InvOn (fun p : Nat => (phasePeers q t p).recv_a.toNat)
      (fun p : Nat => (phasePeers q t p).send_a.toNat) (Set.Iio (q * q)) (Set.Iio (q * q)) := by
    constructor
    · intro p hp
      obtain ⟨sa, sb, da, db, -, ⟨-, -, e3, -⟩, ⟨-, -, f3, -⟩⟩ := phase_pairing q t p hp
      simp only [e3, Int.toNat_natCast, f3]
    · intro p hp
      obtain ⟨sa, sb, da, db, -, ⟨e1, -, -, -⟩, ⟨f1, -, -, -⟩⟩ := phase_pairing q t p hp
      simp only [e1, Int.toNat_natCast, f1]
  have hb : Set.InvOn (fun p : Nat => (phasePeers q t p).recv_b.toNat)
      (fun p : Nat => (phasePeers q t p).send_b.toNat) (Set.Iio (q * q)) (Set.Iio (q * q)) := by
    constructor
    · intro p hp
      obtain ⟨sa, sb, da, db, -, ⟨-, -, -, e4⟩, ⟨-, -, -, f4⟩⟩ := phase_pairing q t p hp
      simp only [e4, Int.toNat_natCast, f4]
    · intro p hp
      obtain ⟨sa, sb, da, db, -, ⟨-, e2, -, -⟩, ⟨-, f2, -, -⟩⟩ := phase_pairing q t p hp
      simp only [e2, Int.toNat_natCast, f2]
  refine ⟨⟨ha.bijOn ?_ ?_, ha⟩, ⟨hb.bijOn ?_ ?_, hb⟩⟩
  · intro p hp
    obtain ⟨sa, sb, da, db, ⟨-, -, h3, -⟩, ⟨-, -, e3, -⟩, -⟩ := phase_pairing q t p hp
    simp only [e3, Int.toNat_natCast]
    exact h3
  · intro p hp
    obtain ⟨sa, sb, da, db, ⟨h1, -, -, -⟩, ⟨e1, -, -, -⟩, -⟩ := phase_pairing q t p hp
    simp only [e1, Int.toNat_natCast]
    exact h1
  · intro p hp
    obtain ⟨sa, sb, da, db, ⟨-, -, -, h4⟩, ⟨-, -, -, e4⟩, -⟩ := phase_pairing q t p hp
    simp only [e4, Int.toNat_natCast]
    exact h4
  · intro p hp
    obtain ⟨sa, sb, da, db, ⟨-, h2, -, -⟩, ⟨-, e2, -, -⟩, -⟩ := phase_pairing q t p hp
    simp only [e2, Int.toNat_natCast]
    exact h2

/-- Among the two messages of a process, the one that a given A receive
matches. -/
theorem posted_filter_a {α : Type} (n : Nat) (st : CannonProc α) (p : Peers) (dest tag : Int)
    (hd : p.send_a = dest) (ht : st.tag_a = tag) (hab : st.tag_b ≠ tag) :
    (st.posted n p).filter (fun m => m.matches dest tag)
      = [{ dest := dest, tag := tag, data := st.heap.payload st.send_A 0 (n * n) }] := by
  simp [CannonProc.posted, Msg.matches, List.filter_cons, hd, ht, hab]

/-- Among the two messages of a process, the one that a given B receive
matches. -/
theorem posted_filter_b {α : Type} (n : Nat) (st : CannonProc α) (p : Peers) (dest tag : Int)
    (hd : p.send_b = dest) (ht : st.tag_b = tag) (hab : st.tag_a ≠ tag) :
    (st.posted n p).filter (fun m => m.matches dest tag)
      = [{ dest := dest, tag := tag, data := st.heap.payload st.send_B 0 (n * n) }] := by
  simp [CannonProc.posted, Msg.matches, List.filter_cons, hd, ht, hab]

/-- Among the receives of a process, the one that a given A message matches. -/
theorem calls_filter_a {α : Type} (n : Nat) (st : CannonProc α) (p : Peers) (me source tag : Int)
    (hs : p.recv_a = source) (ht : st.tag_a = tag) (hab : st.tag_b ≠ tag) :
    (st.calls n p).filter (fun c => c.receives me source me tag)
      = [Call.Irecv st.recv_A (n * n) source tag] := by
  simp [CannonProc.calls, Call.receives, List.filter_cons, hs, ht, hab]

/-- Among the receives of a process, the one that a given B message matches. -/
theorem calls_filter_b {α : Type} (n : Nat) (st : CannonProc α) (p : Peers) (me source tag : Int)
    (hs : p.recv_b = source) (ht : st.tag_b = tag) (hab : st.tag_a ≠ tag) :
    (st.calls n p).filter (fun c => c.receives me source me tag)
      = [Call.Irecv st.recv_B (n * n) source tag] := by
  simp [CannonProc.calls, Call.receives, List.filter_cons, hs, ht, hab]

/-- C14: pairing of sends and receives in `cannon`.  On a `q × q` grid and in
every phase `t ≤ q - 1`: the A send destination is a bijection of
`[0, q * q)` whose inverse is the A receive source, and likewise for B.  For
every process `p`: the source `sa` of its A receive is in the grid, has the
same A tag and addresses its A send to `p`, and of the two messages that `sa`
posts exactly that one matches the receive; the destination `da` of its A
send is in the grid and, of the receives that `da` posts, exactly its A
receive matches the message; and the same holds for B. -/
theorem send_recv_pairing {α : Type} [Add α] [Mul α] [Zero α] (n q : Nat)
    (input : Nat → Heap CBuf α) (t : Nat) (_ht : t ≤ q - 1) :
    (Set.BijOn (fun p : Nat => (phasePeers q t p).send_a.toNat)
        (Set.Iio (q * q)) (Set.Iio (q * q))
      ∧ Set.InvOn (fun p : Nat => (phasePeers q t p).recv_a.toNat)
        (fun p : Nat => (phasePeers q t p).send_a.toNat) (Set.Iio (q * q)) (Set.Iio (q * q)))
    ∧ (Set.BijOn (fun p : Nat => (phasePeers q t p).send_b.toNat)
        (Set.Iio (q * q)) (Set.Iio (q * q))
      ∧ Set.InvOn (fun p : Nat => (phasePeers q t p).recv_b.toNat)
        (fun p : Nat => (phasePeers q t p).send_b.toNat) (Set.Iio (q * q)) (Set.Iio (q * q)))
    ∧ ∀ p, p < q * q →
      ∃ (st stSA stSB stDA stDB : CannonProc α) (sa sb da db : Nat),
        (sa < q * q ∧ sb < q * q ∧ da < q * q ∧ db < q * q)
        ∧ (cannonBefore n (q * q) q input t p = some st
          ∧ cannonBefore n (q * q) q input t sa = some stSA
          ∧ cannonBefore n (q * q) q input t sb = some stSB
          ∧ cannonBefore n (q * q) q input t da = some stDA
          ∧ cannonBefore n (q * q) q input t db = some stDB)
        ∧ ((phasePeers q t p).recv_a = sa ∧ (phasePeers q t sa).send_a = p
          ∧ stSA.tag_a = st.tag_a
          ∧ (stSA.posted n (phasePeers q t sa)).filter (fun m => m.matches p st.tag_a)
              = [{ dest := p, tag := st.tag_a,
                   data := stSA.heap.payload stSA.send_A 0 (n * n) }])
        ∧ ((phasePeers q t p).recv_b = sb ∧ (phasePeers q t sb).send_b = p
          ∧ stSB.tag_b = st.tag_b
          ∧ (stSB.posted n (phasePeers q t sb)).filter (fun m => m.matches p st.tag_b)
              = [{ dest := p, tag := st.tag_b,
                   data := stSB.heap.payload stSB.send_B 0 (n * n) }])
        ∧ ((phasePeers q t p).send_a = da ∧ (phasePeers q t da).recv_a = p
          ∧ stDA.tag_a = st.tag_a
          ∧ (stDA.calls n (phasePeers q t da)).filter (fun c => c.receives da p da st.tag_a)
              = [Call.Irecv stDA.recv_A (n * n) p st.tag_a])
        ∧ ((phasePeers q t p).send_b = db ∧ (phasePeers q t db).recv_b = p
          ∧ stDB.tag_b = st.tag_b
          ∧ (stDB.calls n (phasePeers q t db)).filter (fun c => c.receives db p db st.tag_b)
              = [Call.Irecv stDB.recv_B (n * n) p st.tag_b]) := by
  refine ⟨(phase_bijOn q t).1, (phase_bijOn q t).2, ?_⟩
  intro p hp
  obtain ⟨sa, sb, da, db, ⟨h1, h2, h3, h4⟩, ⟨e1, e2, e3, e4⟩, ⟨f1, f2, f3, f4⟩⟩ :=
    phase_pairing q t p hp
  obtain ⟨st, w, -, -, -, -, ta, tb⟩ := cannonBefore_spec n q input t p hp
  obtain ⟨stSA, wSA, -, -, -, -, taSA, tbSA⟩ := cannonBefore_spec n q input t sa h1
  obtain ⟨stSB, wSB, -, -, -, -, taSB, tbSB⟩ := cannonBefore_spec n q input t sb h2
  obtain ⟨stDA, wDA, -, -, -, -, taDA, tbDA⟩ := cannonBefore_spec n q input t da h3
  obtain ⟨stDB, wDB, -, -, -, -, taDB, tbDB⟩ := cannonBefore_spec n q input t db h4
  refine ⟨st, stSA, stSB, stDA, stDB, sa, sb, da, db, ⟨h1, h2, h3, h4⟩,
    ⟨w, wSA, wSB, wDA, wDB⟩, ⟨e1, f1, by rw [taSA, ta], ?_⟩, ⟨e2, f2, by rw [tbSB, tb], ?_⟩,
    ⟨e3, f3, by rw [taDA, ta], ?_⟩, ⟨e4, f4, by rw [tbDB, tb], ?_⟩⟩
  · exact posted_filter_a n stSA _ p st.tag_a f1 (by rw [taSA, ta])
      (by rw [tbSA, ta]; omega)
  · exact posted_filter_b n stSB _ p st.tag_b f2 (by rw [tbSB, tb])
      (by rw [taSB, tb]; omega)
  · exact calls_filter_a n stDA _ da p st.tag_a f3 (by rw [taDA, ta])
      (by rw [tbDA, ta]; omega)
  · exact calls_filter_b n stDB _ db p st.tag_b f4 (by rw [tbDB, tb])
      (by rw [taDB, tb]; omega)

/-- C14 on the 3 × 3 grid in round 1: the A send destination is a bijection of
the nine ranks with the A receive source as inverse. -/
theorem send_recv_pairing_witness :
    1 ≤ 3 - 1
    ∧ Set.BijOn (fun p : Nat => (phasePeers ((3 : Nat) : Int) 1 p).send_a.toNat)
        (Set.Iio (3 * 3)) (Set.Iio (3 * 3))
    ∧ Set.InvOn (fun p : Nat => (phasePeers ((3 : Nat) : Int) 1 p).recv_a.toNat)
        (fun p : Nat => (phasePeers ((3 : Nat) : Int) 1 p).send_a.toNat)
        (Set.Iio (3 * 3)) (Set.Iio (3 * 3)) :=
  ⟨by decide,
    (send_recv_pairing 1 3 (cannonInput block3 block3 0) 1 (by decide)).1.1,
    (send_recv_pairing 1 3 (cannonInput block3 block3 0) 1 (by decide)).1.2⟩

/-- Blocks multiplied by process (0, 1) of the 3 × 3 grid when the input
blocks tell their owner (A block of rank `r` is `100 + r`, B block `200 + r`):
after the skew and after each of the two rounds, the A block and the B block
held.  The pairs are (A of rank 1, B of rank 7), (A of rank 0, B of rank 4),
(A of rank 2, B of rank 1), that is `(A_{0,1}, B_{2,1})`, `(A_{0,0}, B_{1,1})`,
`(A_{0,2}, B_{0,1})`: in no phase do the inner indices agree. -/
theorem cannon_pairs_wrong_on_3x3 :
    (List.range 3).map (fun t =>
        (cannonAfter 1 (3 * 3) 3 (cannonInput (ownerBlock 100) (ownerBlock 200) 0) t
            (0 * 3 + 1)).map
          (fun st => (st.trace.getLast?, st.heap.cell (heldA t) 0, st.heap.cell (heldB t) 0)))
      = [some (some (Call.matmat CBuf.A2 CBuf.B2 CBuf.C), 101, 207),
         some (some (Call.matmat CBuf.A3 CBuf.B3 CBuf.C), 100, 204),
         some (some (Call.matmat CBuf.A2 CBuf.B2 CBuf.C), 102, 201)] := by
  decide

end MpiMatmat
